import Mathlib

/-!
Verification development for the elysp interpreter (src/utils.ts).

The TypeScript source is a heap-of-objects program: every runtime value is a
JS object compared by reference (===) in several places, and Pair cells and
Environment records are mutated in place.  We therefore embed it shallowly as
a store of cells addressed by natural numbers: an Obj of the source is an
address, reference equality is address equality, and mutation is a functional
update of the store.  Read-only source functions become pure functions of the
store; mutating ones return the updated store.  All recursion in the source
is general (JS), so every recursive function here takes a fuel argument;
running out of fuel is the distinguished error Err.fuel, kept apart from the
interpreter's own thrown errors (Err.err).  Output (puts/repr) is dropped: it
never influences a result value.  File-system reads (Deno.readTextFileSync in
primSlurp, primImport and the core.elysp prelude load in createDefaultEnv)
are external inputs; the two primitives are modelled as raising an error and
the prelude load is omitted, so defaultEnvM builds exactly the root
environment of createDefaultEnv before the prelude file is read: the nil and
t constants and the native-primitive table.
-/

/-- Interpreter errors: thrown JS errors are Err.err; Err.fuel marks
exhaustion of the fuel that makes the embedding total. -/
inductive Err where
  | fuel : Err
  | err : String → Err
deriving DecidableEq, Repr

/-- The native primitives of the first (current) generation's table in
createDefaultEnv, in insertion order. -/
inductive Prim where
  | pFn | pDefine | pDefn | pDefMac | pQuote | pUnquote | pList | pCons
  | pEnv | pMacex | pImport | pIf | pError | pString | pSlurp | pPrintln
  | pReaderDebug | pEqual | pAdd | pSub | pMul | pDiv
deriving DecidableEq, Repr

/-- Heap cells: one constructor per ObjType variant of the source.  Obj
references (car, cdr, vars, up, params, body, env) are addresses.  ObjFn
covers both Fn and Macro via its type field, modelled by the isMac flag. -/
inductive HObj where
  | nil
  | sym (name : String)
  | num (v : Int)
  | str (s : String)
  | pair (car cdr : Nat)
  | envObj (vars up : Nat)
  | natfn (p : Prim)
  | fnObj (isMac : Bool) (params body envA : Nat)
deriving DecidableEq, Repr

/-- The ObjType tag of a cell (the source's .type field). -/
inductive Tag where
  | nilT | symT | numT | strT | pairT | envT | natT | fnT | macT
deriving DecidableEq, Repr

def HObj.tag : HObj → Tag
  | .nil => .nilT
  | .sym _ => .symT
  | .num _ => .numT
  | .str _ => .strT
  | .pair _ _ => .pairT
  | .envObj _ _ => .envT
  | .natfn _ => .natT
  | .fnObj isMac _ _ _ => if isMac then .macT else .fnT

/-- The interpreter's mutable store: the heap of cells plus the module-level
symbols variable (address of the interned-symbol list head).  Addresses are
allocation order (0 first).  The heap is a journal of (address, cell)
entries, newest first: allocation and in-place mutation both prepend, and
the cell currently at an address is its newest entry; size is the number of
addresses allocated so far. -/
structure LState where
  heap : List (Nat × HObj)
  size : Nat
  syms : Nat
deriving DecidableEq, Repr

/-- Results of a computation that may throw. -/
abbrev Res (α : Type) : Type := Except Err α

instance {ε α : Type} [DecidableEq ε] [DecidableEq α] : DecidableEq (Except ε α) :=
  fun x y =>
    match x, y with
    | .ok a, .ok b => decidable_of_iff (a = b) (by simp)
    | .error e, .error f => decidable_of_iff (e = f) (by simp)
    | .ok _, .error _ => isFalse (by simp)
    | .error _, .ok _ => isFalse (by simp)

/-- The newest journal entry for an address. -/
def hLookup : List (Nat × HObj) → Nat → Option HObj
  | [], _ => none
  | (k, h) :: rest, a => if k = a then some h else hLookup rest a

/-- The cell stored at an allocated address. -/
def getCell (σ : LState) (a : Nat) : Option HObj :=
  if a < σ.size then hLookup σ.heap a else none

/-- Dereference an address.  The source never fails here (every Obj
reference is a live JS object); failure is a model-level error. -/
def deref (σ : LState) (a : Nat) : Res HObj :=
  match getCell σ a with
  | some h => .ok h
  | none => .error (.err "invalid heap address")

/-- Allocate a fresh cell (a makeXxx constructor call in the source),
returning its address. -/
def alloc (σ : LState) (h : HObj) : Nat × LState :=
  (σ.size, ⟨(σ.size, h) :: σ.heap, σ.size + 1, σ.syms⟩)

/-- Overwrite the cell at an existing address (in-place mutation of a JS
object's fields). -/
def writeCell (σ : LState) (a : Nat) (h : HObj) : Res LState :=
  if a < σ.size then .ok ⟨(a, h) :: σ.heap, σ.size, σ.syms⟩
  else .error (.err "invalid heap address")

/-- Address of the nil constant (the second makeNil() at module load; the
first is the initial value of symbols). -/
def nilA : Nat := 1

/-- The store right after the two module-load makeNil() calls
(let symbols = makeNil(); const nil = makeNil()), before intern('t'). -/
def preBoot : LState := ⟨[(1, .nil), (0, .nil)], 2, 0⟩

/-- The walk of intern over the symbols list: the first Symbol cell carrying
this name, none on a miss.  Read-only. -/
def internGo (fuel : Nat) (σ : LState) (a : Nat) (name : String) : Res (Option Nat) :=
  match fuel with
  | 0 => .error .fuel
  | fuel + 1 =>
    match deref σ a with
    | .error e => .error e
    | .ok (.pair c d) =>
      match deref σ c with
      | .error e => .error e
      | .ok (.sym n) => if n = name then .ok (some c) else internGo fuel σ d name
      | .ok _ => internGo fuel σ d name
    | .ok _ => .ok none

/-- intern(name): return the interned symbol of this name, creating it and
pushing it onto the symbols list on first use. -/
def intern (fuel : Nat) (name : String) (σ : LState) : Res (Nat × LState) :=
  match internGo fuel σ σ.syms name with
  | .error e => .error e
  | .ok (some c) => .ok (c, σ)
  | .ok none =>
    match alloc σ (.sym name) with
    | (sa, σ1) =>
      match alloc σ1 (.pair sa σ.syms) with
      | (pa, σ2) => .ok (sa, ⟨σ2.heap, σ2.size, pa⟩)

/-- The store after const trueSym = intern('t') at module load, and the
address trueSym holds.  Computed by running intern on preBoot. -/
def bootP : Nat × LState :=
  match intern 8 "t" preBoot with
  | .ok (a, σ) => (a, σ)
  | .error _ => (0, preBoot)

/-- Address of the interned symbol t (the trueSym constant). -/
def tA : Nat := bootP.1

/-- The store at the end of module-constant initialisation. -/
def bootS : LState := bootP.2

/-- acons(x, y, a) = cons(cons(x, y), a): allocate a binding pair and a
spine pair. -/
def acons (σ : LState) (x y a : Nat) : Nat × LState :=
  match alloc σ (.pair x y) with
  | (b, σ1) => alloc σ1 (.pair b a)

/-- addVariable: env.vars = acons(sym, val, env.vars), an in-place update of
the environment record. -/
def addVariable (σ : LState) (envA symA valA : Nat) : Res LState :=
  match deref σ envA with
  | .error e => .error e
  | .ok (.envObj vars up) =>
    match acons σ symA valA vars with
    | (nv, σ1) => writeCell σ1 envA (.envObj nv up)
  | .ok _ => .error (.err "not an environment")

/-- Scan one frame's vars association list for the first binding pair whose
car is (reference-)equal to sym; returns the binding pair's address.  This is
the inner while loop shared by setVariable and find.  Read-only. -/
def scanVars (fuel : Nat) (σ : LState) (obj symA : Nat) : Res (Option Nat) :=
  match fuel with
  | 0 => .error .fuel
  | fuel + 1 =>
    match deref σ obj with
    | .error e => .error e
    | .ok (.pair bindA rest) =>
      match deref σ bindA with
      | .error e => .error e
      | .ok (.pair c _) =>
        if c = symA then .ok (some bindA) else scanVars fuel σ rest symA
      | .ok _ => scanVars fuel σ rest symA
    | .ok _ => .ok none

/-- The outer while loop of setVariable: walk the chain of environments; on
the first frame holding the symbol, mutate that binding pair's cdr in place
and report true; report false when the chain ends. -/
def setVarGo (fuel : Nat) (σ : LState) (cenv symA valA : Nat) : Res (Bool × LState) :=
  match fuel with
  | 0 => .error .fuel
  | fuel + 1 =>
    match deref σ cenv with
    | .error e => .error e
    | .ok (.envObj vars up) =>
      match scanVars fuel σ vars symA with
      | .error e => .error e
      | .ok (some bindA) =>
        match deref σ bindA with
        | .ok (.pair c _) =>
          match writeCell σ bindA (.pair c valA) with
          | .error e => .error e
          | .ok σ1 => .ok (true, σ1)
        | _ => .error (.err "invalid heap address")
      | .ok none => setVarGo fuel σ up symA valA
    | .ok _ => .ok (false, σ)

/-- setVariable: mutate the nearest binding in the chain, else addVariable on
the original env. -/
def setVariable (fuel : Nat) (σ : LState) (envA symA valA : Nat) : Res LState :=
  match setVarGo fuel σ envA symA valA with
  | .error e => .error e
  | .ok (true, σ1) => .ok σ1
  | .ok (false, σ1) => addVariable σ1 envA symA valA

/-- The outer while loop of find: same walk as setVariable, read-only,
returning the bound value (the binding pair's cdr). -/
def findGo (fuel : Nat) (σ : LState) (cenv symA : Nat) : Res (Option Nat) :=
  match fuel with
  | 0 => .error .fuel
  | fuel + 1 =>
    match deref σ cenv with
    | .error e => .error e
    | .ok (.envObj vars up) =>
      match scanVars fuel σ vars symA with
      | .error e => .error e
      | .ok (some bindA) =>
        match deref σ bindA with
        | .ok (.pair _ v) => .ok (some v)
        | _ => .error (.err "invalid heap address")
      | .ok none => findGo fuel σ up symA
    | .ok _ => .ok none

/-- find(env, sym): value of the first binding of sym walking the innermost
frame head-first and then each up ancestor; none when unbound. -/
def findF (fuel : Nat) (σ : LState) (envA symA : Nat) : Res (Option Nat) :=
  findGo fuel σ envA symA

/-- The counting loop of listLen. -/
def listLenGo (fuel : Nat) (σ : LState) (a len : Nat) : Res Nat :=
  match fuel with
  | 0 => .error .fuel
  | fuel + 1 =>
    match deref σ a with
    | .error e => .error e
    | .ok (.pair _ d) => listLenGo fuel σ d (len + 1)
    | .ok _ => if a = nilA then .ok len else .ok (len + 1)

/-- listLen: 0 for any non-Pair; otherwise the number of spine pairs, plus
one when the terminating object is not the nil constant (dotted tail). -/
def listLenF (fuel : Nat) (σ : LState) (a : Nat) : Res Nat :=
  match deref σ a with
  | .error e => .error e
  | .ok (.pair _ _) => listLenGo fuel σ a 0
  | .ok _ => .ok 0

/-- equal(a, b): tags must match, then reference (address) equality
short-circuits, then Numbers and Strings compare payloads and Pairs compare
list length followed by car and cdr recursively; every other variant falls
through to false.  Read-only. -/
def equalF (fuel : Nat) (σ : LState) (a b : Nat) : Res Bool :=
  match fuel with
  | 0 => .error .fuel
  | fuel + 1 =>
    match deref σ a, deref σ b with
    | .error e, _ => .error e
    | _, .error e => .error e
    | .ok ha, .ok hb =>
      if ha.tag ≠ hb.tag then .ok false
      else if a = b then .ok true
      else
        match ha, hb with
        | .num x, .num y => .ok (decide (x = y))
        | .str x, .str y => .ok (decide (x = y))
        | .pair ca da, .pair cb db =>
          match listLenF fuel σ a, listLenF fuel σ b with
          | .error e, _ => .error e
          | _, .error e => .error e
          | .ok la, .ok lb =>
            if la ≠ lb then .ok false
            else
              match equalF fuel σ ca cb with
              | .error e => .error e
              | .ok true => equalF fuel σ da db
              | .ok false => .ok false
        | _, _ => .ok false

/-- isList(list): nil (by reference) or a Pair. -/
def isListF (σ : LState) (a : Nat) : Res Bool :=
  match deref σ a with
  | .error e => .error e
  | .ok (.pair _ _) => .ok true
  | .ok _ => .ok (decide (a = nilA))

/-- checkArity(args, min, max = min): the source uses -1 as the "no bound"
sentinel, so the bounds are Ints. -/
def checkArityF (fuel : Nat) (σ : LState) (args : Nat) (mn mx : Int) : Res Unit :=
  match listLenF fuel σ args with
  | .error e => .error e
  | .ok len =>
    if (mn ≠ -1 ∧ (len : Int) < mn) ∨ (mx ≠ -1 ∧ (len : Int) > mx) then
      .error (.err "arity mismatch")
    else .ok ()

/-- The positional walk of getArg: argAtIndex stays the nil constant when the
index is past the end of the argument list. -/
def getArgGo (fuel : Nat) (σ : LState) (a idx i : Nat) : Res Nat :=
  match fuel with
  | 0 => .error .fuel
  | fuel + 1 =>
    match deref σ a with
    | .error e => .error e
    | .ok (.pair c d) =>
      if i = idx then .ok c else getArgGo fuel σ d idx (i + 1)
    | .ok _ => .ok nilA

/-- getArg(env, args, index, type?): fetch the unevaluated argument at a
position; nil when args is the nil constant or the index is out of range;
optional tag check on the fetched (unevaluated) argument. -/
def getArgF (fuel : Nat) (σ : LState) (args idx : Nat) (ty : Option Tag) : Res Nat :=
  if args = nilA then .ok nilA
  else
    match deref σ args with
    | .error e => .error e
    | .ok (.pair _ _) =>
      match getArgGo fuel σ args idx 0 with
      | .error e => .error e
      | .ok r =>
        match ty with
        | none => .ok r
        | some t =>
          match deref σ r with
          | .error e => .error e
          | .ok hr =>
            if hr.tag = t then .ok r
            else .error (.err "argument type mismatch")
    | .ok _ => .error (.err "expected list as arguments")

/-- The forEach parameter check of primFn/primDefmacro: every parameter must
be a Symbol. -/
def checkParams (fuel : Nat) (σ : LState) (a : Nat) : Res Unit :=
  match fuel with
  | 0 => .error .fuel
  | fuel + 1 =>
    match deref σ a with
    | .error e => .error e
    | .ok (.pair c d) =>
      match deref σ c with
      | .error e => .error e
      | .ok (.sym _) => checkParams fuel σ d
      | .ok _ => .error (.err "parameter must be a symbol")
    | .ok _ => .ok ()

/-- The binding loop of pushEnv: while both lists are Pairs, prepend a
binding of the head symbol to the head value (acons). -/
def pushEnvGo (fuel : Nat) (σ : LState) (varO valO acc : Nat) : Res (Nat × LState) :=
  match fuel with
  | 0 => .error .fuel
  | fuel + 1 =>
    match deref σ varO with
    | .error e => .error e
    | .ok (.pair vc vd) =>
      match deref σ valO with
      | .error e => .error e
      | .ok (.pair wc wd) =>
        match acons σ vc wc acc with
        | (acc', σ1) => pushEnvGo fuel σ1 vd wd acc'
      | .ok _ => .ok (acc, σ)
    | .ok _ => .ok (acc, σ)

/-- pushEnv(env, vars, values): arity check by listLen, then pairwise
binding into a fresh child Environment whose up is the parent.  (The repr
debug output the source prints before throwing is dropped.) -/
def pushEnvF (fuel : Nat) (σ : LState) (envA vars values : Nat) : Res (Nat × LState) :=
  match listLenF fuel σ vars, listLenF fuel σ values with
  | .error e, _ => .error e
  | _, .error e => .error e
  | .ok lv, .ok lw =>
    if lv ≠ lw then .error (.err "env: mismatched number of vars and values")
    else
      match pushEnvGo fuel σ vars values nilA with
      | .error e => .error e
      | .ok (nv, σ1) => .ok (alloc σ1 (.envObj nv envA))

/-- The JS fn.name of each primitive's stored function, used by fmt's
native-function rendering (arrow functions built by createNumericPrim are
anonymous; the env arrow inherits its property name). -/
def primName : Prim → String
  | .pFn => "primFn"
  | .pDefine => "primDefine"
  | .pDefn => "primDefn"
  | .pDefMac => "primDefmacro"
  | .pQuote => "primQuote"
  | .pUnquote => "primUnquote"
  | .pList => "primList"
  | .pCons => "primCons"
  | .pEnv => "env"
  | .pMacex => "primMacex"
  | .pImport => "primImport"
  | .pIf => "primIf"
  | .pError => "primError"
  | .pString => "primString"
  | .pSlurp => "primSlurp"
  | .pPrintln => "primPrintln"
  | .pReaderDebug => "primReaderDebug"
  | .pEqual => "primEqual"
  | .pAdd => ""
  | .pSub => ""
  | .pMul => ""
  | .pDiv => ""

/-- The two mutually recursive renderers of fmt (the value renderer and its
list loop), folded into one fueled function so that recursion is structural
on fuel. -/
inductive FmtCall where
  | one (a : Nat)
  | lst (o left : Nat)

/-- fmt: the plain (uncoloured) rendering.  An Environment renders as its
vars list (the up pointer is ignored); JS Number.toString agrees with Int
rendering on the integer values arising here.  The lst case is the
list-rendering loop: at most 6 elements then an ellipsis; a Nil cdr ends the
list, a non-Pair cdr renders as a dotted tail.  Read-only. -/
def fmtAux : Nat → LState → FmtCall → Res String
  | 0, _, _ => .error .fuel
  | fuel + 1, σ, .one a =>
    match deref σ a with
    | .error e => .error e
    | .ok (.envObj vars _) =>
      match fmtAux fuel σ (.lst vars 6) with
      | .error e => .error e
      | .ok s => .ok ("(" ++ s ++ ")")
    | .ok (.pair _ _) =>
      match fmtAux fuel σ (.lst a 6) with
      | .error e => .error e
      | .ok s => .ok ("(" ++ s ++ ")")
    | .ok (.sym n) => .ok n
    | .ok .nil => .ok "nil"
    | .ok (.num v) => .ok (toString v)
    | .ok (.natfn p) => .ok ("<native function " ++ primName p ++ ">")
    | .ok (.fnObj isMac _ _ _) => .ok (if isMac then "<macro>" else "<function>")
    | .ok (.str s) => .ok s
  | fuel + 1, σ, .lst o left =>
    match deref σ o with
    | .error e => .error e
    | .ok (.pair c d) =>
      if left = 0 then .ok "..."
      else
        match fmtAux fuel σ (.one c) with
        | .error e => .error e
        | .ok s =>
          match deref σ d with
          | .error e => .error e
          | .ok .nil => .ok s
          | .ok (.pair _ _) =>
            match fmtAux fuel σ (.lst d (left - 1)) with
            | .error e => .error e
            | .ok r => .ok (s ++ " " ++ r)
          | .ok _ =>
            match fmtAux fuel σ (.one d) with
            | .error e => .error e
            | .ok t => .ok (s ++ " . " ++ t)
    | .ok _ => .ok ""

/-- fmt on one value. -/
def fmtF (fuel : Nat) (σ : LState) (a : Nat) : Res String :=
  fmtAux fuel σ (.one a)

/-- The indexed-access walk of apply's Pair case: car of the cell at the
(zero-based) index, or nil when the index is never hit (out of range or
negative). -/
def listIndexGo (fuel : Nat) (σ : LState) (o : Nat) (i : Int) (cur : Nat) : Res Nat :=
  match fuel with
  | 0 => .error .fuel
  | fuel + 1 =>
    match deref σ o with
    | .error e => .error e
    | .ok (.pair c d) =>
      if (cur : Int) = i then .ok c else listIndexGo fuel σ d i (cur + 1)
    | .ok _ => .ok nilA

/-- The type of the element evaluator threaded through the list builders
(the source calls evaluate(env, x), closing over env). -/
abbrev EvF : Type := Nat → LState → Res (Nat × LState)

/-- The building loop of evaluateList after the first cell: evaluate the
element, allocate a fresh (result . nil) cell and splice it onto the tail
cell's cdr. -/
def evalListGo (fuel : Nat) (ev : EvF) (σ : LState) (o t : Nat) : Res LState :=
  match fuel with
  | 0 => .error .fuel
  | fuel + 1 =>
    match deref σ o with
    | .error e => .error e
    | .ok (.pair c d) =>
      match ev c σ with
      | .error e => .error e
      | .ok (v, σ1) =>
        match alloc σ1 (.pair v nilA) with
        | (n, σ2) =>
          match deref σ2 t with
          | .ok (.pair tc _) =>
            match writeCell σ2 t (.pair tc n) with
            | .error e => .error e
            | .ok σ3 => evalListGo fuel ev σ3 d n
          | _ => .error (.err "invalid heap address")
    | .ok _ => .ok σ

/-- evaluateList, generic in the element evaluator: builds a fresh spine of
evaluated elements; a non-Pair input returns nil. -/
def evalListGen (fuel : Nat) (ev : EvF) (σ : LState) (l : Nat) : Res (Nat × LState) :=
  match fuel with
  | 0 => .error .fuel
  | fuel + 1 =>
    match deref σ l with
    | .error e => .error e
    | .ok (.pair c d) =>
      match ev c σ with
      | .error e => .error e
      | .ok (v, σ1) =>
        match alloc σ1 (.pair v nilA) with
        | (hd, σ2) =>
          match evalListGo fuel ev σ2 d hd with
          | .error e => .error e
          | .ok σ3 => .ok (hd, σ3)
    | .ok _ => .ok (nilA, σ)

/-- The forEach-with-result fold over body forms shared by macroExpand and
apply's Fn case: result starts as nil, each body form is evaluated in turn,
the last result is returned. -/
def evalSeqGen (fuel : Nat) (ev : EvF) (σ : LState) (body : Nat) : Res (Nat × LState) :=
  match fuel with
  | 0 => .error .fuel
  | fuel + 1 =>
    match deref σ body with
    | .error e => .error e
    | .ok (.pair c d) =>
      match ev c σ with
      | .error e => .error e
      | .ok (v, σ1) =>
        match deref σ1 d with
        | .error e => .error e
        | .ok (.pair _ _) => evalSeqGen fuel ev σ1 d
        | .ok _ => .ok (v, σ1)
    | .ok _ => .ok (nilA, σ)

/-- The two mutually recursive parts of evaluateUnquotes (the walker and its
spine-building loop), folded into one fueled function so that recursion is
structural on fuel. -/
inductive UnqCall where
  | gen (a : Nat)
  | go (o t : Nat)

/-- evaluateUnquotes, generic in the evaluator: a Pair whose car is the
interned unquote symbol is evaluated whole; any other Pair is rebuilt as a
fresh spine of recursively processed elements (the go case is the
spine-building loop, which returns only the updated store); non-Pairs pass
through. -/
def unqAux : Nat → EvF → UnqCall → LState → Res (Nat × LState)
  | 0, _, _, _ => .error .fuel
  | fuel + 1, ev, .gen a, σ =>
    match deref σ a with
    | .error e => .error e
    | .ok (.pair c d) =>
      match intern fuel "unquote" σ with
      | .error e => .error e
      | .ok (uq, σ1) =>
        if c = uq then ev a σ1
        else
          match unqAux fuel ev (.gen c) σ1 with
          | .error e => .error e
          | .ok (v, σ2) =>
            match alloc σ2 (.pair v nilA) with
            | (hd, σ3) =>
              match unqAux fuel ev (.go d hd) σ3 with
              | .error e => .error e
              | .ok (_, σ4) => .ok (hd, σ4)
    | .ok _ => .ok (a, σ)
  | fuel + 1, ev, .go o t, σ =>
    match deref σ o with
    | .error e => .error e
    | .ok (.pair c d) =>
      match unqAux fuel ev (.gen c) σ with
      | .error e => .error e
      | .ok (v, σ1) =>
        match alloc σ1 (.pair v nilA) with
        | (n, σ2) =>
          match deref σ2 t with
          | .ok (.pair tc _) =>
            match writeCell σ2 t (.pair tc n) with
            | .error e => .error e
            | .ok σ3 => unqAux fuel ev (.go d n) σ3
          | _ => .error (.err "invalid heap address")
    | .ok _ => .ok (t, σ)

/-- evaluateUnquotes on one value. -/
def evalUnqGen (fuel : Nat) (ev : EvF) (σ : LState) (a : Nat) : Res (Nat × LState) :=
  unqAux fuel ev (.gen a) σ

/-- The forEach of primString: evaluate each argument and collect its fmt
rendering, in order. -/
def stringGo (fuel : Nat) (ev : EvF) (σ : LState) (a : Nat) : Res (List String × LState) :=
  match fuel with
  | 0 => .error .fuel
  | fuel + 1 =>
    match deref σ a with
    | .error e => .error e
    | .ok (.pair c d) =>
      match ev c σ with
      | .error e => .error e
      | .ok (v, σ1) =>
        match fmtF fuel σ1 v with
        | .error e => .error e
        | .ok s =>
          match stringGo fuel ev σ1 d with
          | .error e => .error e
          | .ok (rest, σ2) => .ok (s :: rest, σ2)
    | .ok _ => .ok ([], σ)

/-- The binary arithmetic operation of each createNumericPrim entry.  JS
numbers are doubles; every claim-relevant computation stays integral, and
division (unused by any claim) is modelled as integer division. -/
def arithOp : Prim → Int → Int → Int
  | .pSub => fun a b => a - b
  | .pMul => fun a b => a * b
  | .pDiv => fun a b => a / b
  | _ => fun a b => a + b

/-- The mutually recursive entry points of the evaluator (evaluate,
macroExpand, apply, evalArg and each native primitive), folded into one
fueled function through this call descriptor. -/
inductive Call where
  | eval (envA v : Nat)
  | applyC (envA fnA args : Nat)
  | macEx (envA obj : Nat)
  | evalArgC (envA args idx : Nat) (ty : Option Tag)
  | prim (p : Prim) (envA args : Nat)

/-- The evaluator.  Each case is the body of the corresponding source
function; every nested call passes fuel - 1. -/
def run : Nat → Call → LState → Res (Nat × LState)
  | 0, _, _ => .error .fuel
  | fuel + 1, c, σ =>
    match c with
    | .eval envA v =>
      match deref σ v with
      | .error e => .error e
      | .ok (.sym name) =>
        match findF fuel σ envA v with
        | .error e => .error e
        | .ok (some x) => .ok (x, σ)
        | .ok none => .error (.err ("unknown symbol: " ++ name))
      | .ok (.pair hcar hcdr) =>
        match run fuel (.macEx envA v) σ with
        | .error e => .error e
        | .ok (e, σ1) =>
          if e ≠ v then run fuel (.eval envA e) σ1
          else
            match run fuel (.eval envA hcar) σ1 with
            | .error er => .error er
            | .ok (f, σ2) => run fuel (.applyC envA f hcdr) σ2
      | .ok _ => .ok (v, σ)
    | .macEx envA obj =>
      match deref σ obj with
      | .error e => .error e
      | .ok (.pair hcar args) =>
        match deref σ hcar with
        | .error e => .error e
        | .ok (.sym _) =>
          match findF fuel σ envA hcar with
          | .error e => .error e
          | .ok none => .ok (obj, σ)
          | .ok (some m) =>
            match deref σ m with
            | .error e => .error e
            | .ok (.fnObj true params body _) =>
              match pushEnvF fuel σ envA params args with
              | .error e => .error e
              | .ok (ne, σ1) =>
                evalSeqGen fuel (fun x τ => run fuel (.eval ne x) τ) σ1 body
            | .ok _ => .ok (obj, σ)
        | .ok _ => .ok (obj, σ)
      | .ok _ => .ok (obj, σ)
    | .applyC envA fnA args =>
      match deref σ fnA with
      | .error e => .error e
      | .ok (.natfn p) => run fuel (.prim p envA args) σ
      | .ok (.fnObj false params body fenv) =>
        match evalListGen fuel (fun x τ => run fuel (.eval envA x) τ) σ args with
        | .error e => .error e
        | .ok (ea, σ1) =>
          match pushEnvF fuel σ1 fenv params ea with
          | .error e => .error e
          | .ok (ne, σ2) =>
            evalSeqGen fuel (fun x τ => run fuel (.eval ne x) τ) σ2 body
      | .ok (.pair _ _) =>
        match checkArityF fuel σ args 1 1 with
        | .error e => .error e
        | .ok () =>
          match run fuel (.evalArgC envA args 0 (some .numT)) σ with
          | .error e => .error e
          | .ok (ix, σ1) =>
            match deref σ1 ix with
            | .ok (.num n) =>
              match listIndexGo fuel σ1 fnA n 0 with
              | .error e => .error e
              | .ok r => .ok (r, σ1)
            | _ => .error (.err "argument type mismatch")
      | .ok _ => .error (.err "cannot apply")
    | .evalArgC envA args idx ty =>
      match getArgF fuel σ args idx none with
      | .error e => .error e
      | .ok a =>
        match run fuel (.eval envA a) σ with
        | .error e => .error e
        | .ok (r, σ1) =>
          match ty with
          | none => .ok (r, σ1)
          | some t =>
            match deref σ1 r with
            | .error e => .error e
            | .ok hr =>
              if hr.tag = t then .ok (r, σ1)
              else .error (.err "argument type mismatch")
    | .prim p envA args =>
      match p with
      | .pFn =>
        match checkArityF fuel σ args 2 (-1) with
        | .error e => .error e
        | .ok () =>
          match deref σ args with
          | .error e => .error e
          | .ok (.pair pcar pcdr) =>
            match deref σ pcdr with
            | .error e => .error e
            | .ok (.pair _ _) =>
              match checkParams fuel σ pcar with
              | .error e => .error e
              | .ok () => .ok (alloc σ (.fnObj false pcar pcdr envA))
            | .ok _ => .error (.err "malformed lambda")
          | .ok _ => .error (.err "malformed lambda")
      | .pDefine =>
        match checkArityF fuel σ args 2 2 with
        | .error e => .error e
        | .ok () =>
          match deref σ args with
          | .error e => .error e
          | .ok (.pair a0 rest) =>
            match deref σ a0 with
            | .error e => .error e
            | .ok (.sym _) =>
              match deref σ rest with
              | .error e => .error e
              | .ok (.pair r0 _) =>
                match run fuel (.eval envA r0) σ with
                | .error e => .error e
                | .ok (v, σ1) =>
                  match addVariable σ1 envA a0 v with
                  | .error e => .error e
                  | .ok σ2 => .ok (v, σ2)
              | .ok _ => .error (.err "malformed define")
            | .ok _ => .error (.err "malformed define")
          | .ok _ => .error (.err "malformed define")
      | .pDefn =>
        match checkArityF fuel σ args 3 (-1) with
        | .error e => .error e
        | .ok () =>
          match deref σ args with
          | .error e => .error e
          | .ok (.pair a0 rest) =>
            match deref σ a0 with
            | .error e => .error e
            | .ok (.sym _) =>
              match deref σ rest with
              | .error e => .error e
              | .ok (.pair _ _) =>
                match run fuel (.prim .pFn envA rest) σ with
                | .error e => .error e
                | .ok (f, σ1) =>
                  match addVariable σ1 envA a0 f with
                  | .error e => .error e
                  | .ok σ2 => .ok (f, σ2)
              | .ok _ => .error (.err "malformed defn")
            | .ok _ => .error (.err "malformed defn")
          | .ok _ => .error (.err "malformed defn")
      | .pDefMac =>
        match deref σ args with
        | .error e => .error e
        | .ok (.pair a0 rest) =>
          match deref σ a0 with
          | .error e => .error e
          | .ok (.sym _) =>
            match deref σ rest with
            | .error e => .error e
            | .ok (.pair rcar rcdr) =>
              match checkParams fuel σ rcar with
              | .error e => .error e
              | .ok () =>
                match alloc σ (.fnObj true rcar rcdr envA) with
                | (m, σ1) =>
                  match addVariable σ1 envA a0 m with
                  | .error e => .error e
                  | .ok σ2 => .ok (m, σ2)
            | .ok _ => .error (.err "malformed defmacro")
          | .ok _ => .error (.err "malformed defmacro")
        | .ok _ => .error (.err "malformed defmacro")
      | .pQuote =>
        match deref σ args with
        | .error e => .error e
        | .ok (.pair a0 _) =>
          evalUnqGen fuel (fun x τ => run fuel (.eval envA x) τ) σ a0
        | .ok _ => .error (.err "malformed quote")
      | .pUnquote =>
        match checkArityF fuel σ args 1 1 with
        | .error e => .error e
        | .ok () =>
          match deref σ args with
          | .error e => .error e
          | .ok (.pair a0 _) => run fuel (.eval envA a0) σ
          | .ok _ => .error (.err "malformed unquote")
      | .pList =>
        match checkArityF fuel σ args 1 (-1) with
        | .error e => .error e
        | .ok () => evalListGen fuel (fun x τ => run fuel (.eval envA x) τ) σ args
      | .pCons =>
        match checkArityF fuel σ args 2 2 with
        | .error e => .error e
        | .ok () =>
          match evalListGen fuel (fun x τ => run fuel (.eval envA x) τ) σ args with
          | .error e => .error e
          | .ok (l, σ1) =>
            match deref σ1 l with
            | .error e => .error e
            | .ok (.pair c d) =>
              match deref σ1 d with
              | .ok (.pair dc _) =>
                match writeCell σ1 l (.pair c dc) with
                | .error e => .error e
                | .ok σ2 => .ok (l, σ2)
              | _ => .error (.err "invalid heap address")
            | .ok _ => .ok (nilA, σ1)
      | .pEnv => .ok (envA, σ)
      | .pMacex =>
        match checkArityF fuel σ args 1 1 with
        | .error e => .error e
        | .ok () =>
          match deref σ args with
          | .error e => .error e
          | .ok (.pair a0 _) => run fuel (.macEx envA a0) σ
          | .ok _ => .error (.err "malformed macex")
      | .pImport =>
        match checkArityF fuel σ args 1 1 with
        | .error e => .error e
        | .ok () =>
          match run fuel (.evalArgC envA args 0 (some .strT)) σ with
          | .error e => .error e
          | .ok _ => .error (.err "file system unavailable")
      | .pIf =>
        match checkArityF fuel σ args 2 3 with
        | .error e => .error e
        | .ok () =>
          match run fuel (.evalArgC envA args 0 none) σ with
          | .error e => .error e
          | .ok (c, σ1) =>
            match getArgF fuel σ1 args 1 none with
            | .error e => .error e
            | .ok tE =>
              match getArgF fuel σ1 args 2 none with
              | .error e => .error e
              | .ok eE =>
                if c = tA then run fuel (.eval envA tE) σ1
                else run fuel (.eval envA eE) σ1
      | .pError =>
        match checkArityF fuel σ args 1 1 with
        | .error e => .error e
        | .ok () =>
          match run fuel (.evalArgC envA args 0 (some .strT)) σ with
          | .error e => .error e
          | .ok (m, σ1) =>
            match deref σ1 m with
            | .ok (.str s) => .error (.err s)
            | _ => .error (.err "argument type mismatch")
      | .pString =>
        match checkArityF fuel σ args 1 (-1) with
        | .error e => .error e
        | .ok () =>
          match stringGo fuel (fun x τ => run fuel (.eval envA x) τ) σ args with
          | .error e => .error e
          | .ok (ss, σ1) =>
            if ss.isEmpty then .ok (nilA, σ1)
            else .ok (alloc σ1 (.str (String.join ss)))
      | .pSlurp =>
        match checkArityF fuel σ args 1 1 with
        | .error e => .error e
        | .ok () =>
          match run fuel (.evalArgC envA args 0 (some .strT)) σ with
          | .error e => .error e
          | .ok _ => .error (.err "file system unavailable")
      | .pPrintln =>
        match deref σ args with
        | .error e => .error e
        | .ok (.pair _ _) =>
          match evalListGen fuel (fun x τ => run fuel (.eval envA x) τ) σ args with
          | .error e => .error e
          | .ok (_, σ1) => .ok (nilA, σ1)
        | .ok _ =>
          match run fuel (.eval envA args) σ with
          | .error e => .error e
          | .ok (_, σ1) => .ok (nilA, σ1)
      | .pReaderDebug =>
        match intern fuel "reader-debug" σ with
        | .error e => .error e
        | .ok (sa, σ1) =>
          match findF fuel σ1 envA sa with
          | .error e => .error e
          | .ok d =>
            if d = some tA then
              match setVariable fuel σ1 envA sa nilA with
              | .error e => .error e
              | .ok σ2 => .ok (nilA, σ2)
            else
              match setVariable fuel σ1 envA sa tA with
              | .error e => .error e
              | .ok σ2 => .ok (nilA, σ2)
      | .pEqual =>
        match checkArityF fuel σ args 2 2 with
        | .error e => .error e
        | .ok () =>
          match run fuel (.evalArgC envA args 0 none) σ with
          | .error e => .error e
          | .ok (a, σ1) =>
            match run fuel (.evalArgC envA args 1 none) σ1 with
            | .error e => .error e
            | .ok (b, σ2) =>
              match equalF fuel σ2 a b with
              | .error e => .error e
              | .ok q => .ok (if q then tA else nilA, σ2)
      | .pAdd | .pSub | .pMul | .pDiv =>
        match checkArityF fuel σ args 2 2 with
        | .error e => .error e
        | .ok () =>
          match run fuel (.evalArgC envA args 0 (some .numT)) σ with
          | .error e => .error e
          | .ok (a, σ1) =>
            match run fuel (.evalArgC envA args 1 (some .numT)) σ1 with
            | .error e => .error e
            | .ok (b, σ2) =>
              match deref σ2 a, deref σ2 b with
              | .ok (.num x), .ok (.num y) => .ok (alloc σ2 (.num (arithOp p x y)))
              | _, _ => .error (.err "argument type mismatch")

/-- The second (superseded) generation's primEqual fold: prev is set to the
first element and never updated afterwards; each later element is compared
to it by reference (===) only, and arguments are not evaluated.
Read-only. -/
def primEqualV2Go (fuel : Nat) (σ : LState) (a : Nat) (prev : Option Nat) (eq : Bool) : Res Bool :=
  match fuel with
  | 0 => .error .fuel
  | fuel + 1 =>
    match deref σ a with
    | .error e => .error e
    | .ok (.pair c d) =>
      match prev with
      | none => primEqualV2Go fuel σ d (some c) eq
      | some p =>
        if !eq then primEqualV2Go fuel σ d prev eq
        else primEqualV2Go fuel σ d prev (decide (c = p))
    | .ok _ => .ok eq

/-- The second generation's primEqual (src/utils.ts lines 1850-1868): folds
the unevaluated argument list with reference equality only.  That
generation's trueSym is its own t symbol object; it is modelled by the
interned t address, which leaves every compared outcome unchanged. -/
def primEqualV2 (fuel : Nat) (σ : LState) (_envA args : Nat) : Res Nat :=
  match primEqualV2Go fuel σ args none true with
  | .error e => .error e
  | .ok q => .ok (if q then tA else nilA)

/-- The whitespace class of Reader.skipWhitespace. -/
def isWsC (c : Char) : Bool := c = ' ' ∨ c = '\n' ∨ c = '\t'

/-- The digit test /[0-9]/ of readNext and readNumber. -/
def isDigitC (c : Char) : Bool := '0' ≤ c ∧ c ≤ '9'

/-- The symbol character class /[a-z-+=/*!?]/ of readSymbol. -/
def isSymC (c : Char) : Bool :=
  ('a' ≤ c ∧ c ≤ 'z') ∨ c = '-' ∨ c = '+' ∨ c = '=' ∨ c = '/' ∨ c = '*' ∨
    c = '!' ∨ c = '?'

/-- Reader.skipWhitespace: advance over the whitespace class (peek past the
end is undefined and never matches). -/
def skipWsP (fuel : Nat) (src : List Char) (pos : Nat) : Option Nat :=
  match fuel with
  | 0 => none
  | fuel + 1 =>
    match src[pos]? with
    | some c => if isWsC c then skipWsP fuel src (pos + 1) else some pos
    | none => some pos

/-- The inner line-discarding loop of skipComments: advance while not at end
of input and not at a newline. -/
def skipLineP (fuel : Nat) (src : List Char) (pos : Nat) : Option Nat :=
  match fuel with
  | 0 => none
  | fuel + 1 =>
    match src[pos]? with
    | some c => if c = '\n' then some pos else skipLineP fuel src (pos + 1)
    | none => some pos

/-- Reader.skipComments: while at a # not followed by -, discard the line
and any following whitespace. -/
def skipCommentsP (fuel : Nat) (src : List Char) (pos : Nat) : Option Nat :=
  match fuel with
  | 0 => none
  | fuel + 1 =>
    if pos < src.length ∧ src[pos]? = some '#' ∧ src[pos + 1]? ≠ some '-' then
      match skipLineP fuel src pos with
      | none => none
      | some p1 =>
        match skipWsP fuel src p1 with
        | none => none
        | some p2 => skipCommentsP fuel src p2
    else some pos

/-- The greedy digit scan of readNumber; returns the end position. -/
def scanDigits (fuel : Nat) (src : List Char) (pos : Nat) : Option Nat :=
  match fuel with
  | 0 => none
  | fuel + 1 =>
    match src[pos]? with
    | some c => if isDigitC c then scanDigits fuel src (pos + 1) else some pos
    | none => some pos

/-- The greedy symbol-class scan of readSymbol; returns the end position. -/
def scanSym (fuel : Nat) (src : List Char) (pos : Nat) : Option Nat :=
  match fuel with
  | 0 => none
  | fuel + 1 =>
    match src[pos]? with
    | some c => if isSymC c then scanSym fuel src (pos + 1) else some pos
    | none => some pos

/-- The content scan of readString: advance to the next double quote or end
of input. -/
def scanStr (fuel : Nat) (src : List Char) (pos : Nat) : Option Nat :=
  match fuel with
  | 0 => none
  | fuel + 1 =>
    match src[pos]? with
    | some c => if c = '"' then some pos else scanStr fuel src (pos + 1)
    | none => some pos

/-- Reader.consume(c): advance past an expected character or raise a syntax
error. -/
def consumeF (src : List Char) (pos : Nat) (c : Char) : Res Nat :=
  if src[pos]? = some c then .ok (pos + 1)
  else .error (.err "syntax error: unexpected character")

/-- parseInt on a run of base-10 digits. -/
def digitsToInt (cs : List Char) : Int :=
  cs.foldl (fun acc c => acc * 10 + ((c.toNat - 48 : Nat) : Int)) 0

/-- The slice source.substring(start, stop) as a character list. -/
def sliceCs (src : List Char) (start stop : Nat) : List Char :=
  (src.drop start).take (stop - start)

/-- Reader.readNumber: scan digits from pos, allocate the Number. -/
def readNumberF (fuel : Nat) (src : List Char) (pos : Nat) (σ : LState) :
    Res (Nat × Nat × LState) :=
  match scanDigits fuel src pos with
  | none => .error .fuel
  | some e =>
    match alloc σ (.num (digitsToInt (sliceCs src pos e))) with
    | (a, σ1) => .ok (a, e, σ1)

/-- Reader.readSymbol: scan symbol characters from pos; an empty run is a
syntax error; the name is interned. -/
def readSymbolF (fuel : Nat) (src : List Char) (pos : Nat) (σ : LState) :
    Res (Nat × Nat × LState) :=
  match scanSym fuel src pos with
  | none => .error .fuel
  | some e =>
    if e = pos then .error (.err "could not read symbol")
    else
      match intern fuel (String.mk (sliceCs src pos e)) σ with
      | .error er => .error er
      | .ok (s, σ1) => .ok (s, e, σ1)

/-- Reader.readString, entered just after the opening quote: scan to the
closing quote, consume it, allocate the String (no escape processing). -/
def readStringF (fuel : Nat) (src : List Char) (pos : Nat) (σ : LState) :
    Res (Nat × Nat × LState) :=
  match scanStr fuel src pos with
  | none => .error .fuel
  | some e =>
    match consumeF src e '"' with
    | .error er => .error er
    | .ok p2 =>
      match alloc σ (.str (String.mk (sliceCs src pos (p2 - 1)))) with
      | (a, σ1) => .ok (a, p2, σ1)

/-- The five mutually recursive reader entry points (readNext, readQuote,
readUnquote, readList and its element loop), folded into one fueled function
so that recursion is structural on fuel. -/
inductive RCall where
  | next (pos : Nat)
  | quo (pos : Nat)
  | unq (pos : Nat)
  | lst (pos : Nat) (delim : Char)
  | lstGo (pos : Nat) (delim : Char) (tail : Nat)

/-- The reader.  next is Reader.readNext: skip whitespace and line comments,
then dispatch on the next character; none is end of input; its # case is the
syntactic block comment: consume #-, read and discard one complete element,
then read and return the next element.  quo and unq desugar 'obj and ,obj to
(quote obj) and (unquote obj).  lst is readList up to the first element (an
immediate delimiter is the empty list nil) and lstGo its element loop, which
stops at the delimiter, splices a dotted tail into the tail cell's cdr, and
otherwise splices a fresh cell onto the tail and continues; lstGo's first
result component is unused (none). -/
def readAux : Nat → List Char → RCall → LState → Res (Option Nat × Nat × LState)
  | 0, _, _, _ => .error .fuel
  | fuel + 1, src, .next pos, σ =>
    match skipWsP fuel src pos with
    | none => .error .fuel
    | some p1 =>
      match skipCommentsP fuel src p1 with
      | none => .error .fuel
      | some p2 =>
        if src.length ≤ p2 then .ok (none, p2, σ)
        else
          match src[p2]? with
          | none => .ok (none, p2, σ)
          | some ch =>
            if isDigitC ch then
              match readNumberF fuel src p2 σ with
              | .error e => .error e
              | .ok (a, p3, σ1) => .ok (some a, p3, σ1)
            else if ch = '(' then
              match readAux fuel src (.lst (p2 + 1) ')') σ with
              | .error e => .error e
              | .ok (l, p3, σ1) =>
                match consumeF src p3 ')' with
                | .error e => .error e
                | .ok p4 => .ok (l, p4, σ1)
            else if ch = '[' then
              match readAux fuel src (.lst (p2 + 1) ']') σ with
              | .error e => .error e
              | .ok (some l, p3, σ1) =>
                match intern fuel "list" σ1 with
                | .error e => .error e
                | .ok (li, σ2) =>
                  match alloc σ2 (.pair li l) with
                  | (r, σ3) =>
                    match consumeF src p3 ']' with
                    | .error e => .error e
                    | .ok p4 => .ok (some r, p4, σ3)
              | .ok (none, _, _) => .error (.err "invalid heap address")
            else if ch = '\'' then readAux fuel src (.quo (p2 + 1)) σ
            else if ch = ',' then readAux fuel src (.unq (p2 + 1)) σ
            else if ch = '"' then
              match readStringF fuel src (p2 + 1) σ with
              | .error e => .error e
              | .ok (a, p3, σ1) => .ok (some a, p3, σ1)
            else if ch = '#' then
              match consumeF src p2 '#' with
              | .error e => .error e
              | .ok p3 =>
                match consumeF src p3 '-' with
                | .error e => .error e
                | .ok p4 =>
                  match readAux fuel src (.next p4) σ with
                  | .error e => .error e
                  | .ok (_, p5, σ1) => readAux fuel src (.next p5) σ1
            else
              match readSymbolF fuel src p2 σ with
              | .error e => .error e
              | .ok (a, p3, σ1) => .ok (some a, p3, σ1)
  | fuel + 1, src, .quo pos, σ =>
    match readAux fuel src (.next pos) σ with
    | .error e => .error e
    | .ok (none, _, _) => .error (.err "expected stuff after quote")
    | .ok (some obj, p1, σ1) =>
      match intern fuel "quote" σ1 with
      | .error e => .error e
      | .ok (q, σ2) =>
        match alloc σ2 (.pair obj nilA) with
        | (inner, σ3) =>
          match alloc σ3 (.pair q inner) with
          | (outer, σ4) => .ok (some outer, p1, σ4)
  | fuel + 1, src, .unq pos, σ =>
    match readAux fuel src (.next pos) σ with
    | .error e => .error e
    | .ok (none, _, _) => .error (.err "expected stuff after unquote")
    | .ok (some obj, p1, σ1) =>
      match intern fuel "unquote" σ1 with
      | .error e => .error e
      | .ok (q, σ2) =>
        match alloc σ2 (.pair obj nilA) with
        | (inner, σ3) =>
          match alloc σ3 (.pair q inner) with
          | (outer, σ4) => .ok (some outer, p1, σ4)
  | fuel + 1, src, .lst pos delim, σ =>
    if src[pos]? = some delim then .ok (some nilA, pos, σ)
    else
      match readAux fuel src (.next pos) σ with
      | .error e => .error e
      | .ok (none, _, _) => .error (.err "unexpected end of list")
      | .ok (some obj, p1, σ1) =>
        match alloc σ1 (.pair obj nilA) with
        | (h, σ2) =>
          match readAux fuel src (.lstGo p1 delim h) σ2 with
          | .error e => .error e
          | .ok (_, p2, σ3) => .ok (some h, p2, σ3)
  | fuel + 1, src, .lstGo pos delim tail, σ =>
    match skipWsP fuel src pos with
    | none => .error .fuel
    | some p1 =>
      if src[p1]? = some delim then .ok (none, p1, σ)
      else if src[p1]? = some '.' then
        match consumeF src p1 '.' with
        | .error e => .error e
        | .ok p2 =>
          match skipWsP fuel src p2 with
          | none => .error .fuel
          | some p3 =>
            match readAux fuel src (.next p3) σ with
            | .error e => .error e
            | .ok (none, _, _) => .error (.err "unexpected end of list")
            | .ok (some item, p4, σ1) =>
              match deref σ1 tail with
              | .ok (.pair tc _) =>
                match writeCell σ1 tail (.pair tc item) with
                | .error e => .error e
                | .ok σ2 => .ok (none, p4, σ2)
              | _ => .error (.err "invalid heap address")
      else
        match readAux fuel src (.next p1) σ with
        | .error e => .error e
        | .ok (none, _, _) => .error (.err "unexpected end of list")
        | .ok (some item, p4, σ1) =>
          match alloc σ1 (.pair item nilA) with
          | (n, σ2) =>
            match deref σ2 tail with
            | .ok (.pair tc _) =>
              match writeCell σ2 tail (.pair tc n) with
              | .error e => .error e
              | .ok σ3 => readAux fuel src (.lstGo p4 delim n) σ3
            | _ => .error (.err "invalid heap address")

/-- Reader.readNext. -/
def readNextF (fuel : Nat) (src : List Char) (pos : Nat) (σ : LState) :
    Res (Option Nat × Nat × LState) :=
  readAux fuel src (.next pos) σ

/-- The primitive table of the first generation's createDefaultEnv, in
insertion (Object.entries) order. -/
def primTable : List (String × Prim) :=
  [("fn", .pFn), ("define", .pDefine), ("defn", .pDefn),
   ("defmacro", .pDefMac), ("quote", .pQuote), ("unquote", .pUnquote),
   ("list", .pList), ("cons", .pCons), ("env", .pEnv), ("macex", .pMacex),
   ("import", .pImport), ("if", .pIf), ("error", .pError),
   ("string", .pString), ("io/slurp", .pSlurp), ("io/print", .pPrintln),
   ("reader/debug", .pReaderDebug), ("=", .pEqual), ("+", .pAdd),
   ("-", .pSub), ("*", .pMul), ("/", .pDiv)]

/-- The registration loop over the primitive table: intern the name,
allocate the NativeFunction, bind it. -/
def installPrims (fuel : Nat) (envA : Nat) (ps : List (String × Prim)) (σ : LState) :
    Res LState :=
  match ps with
  | [] => .ok σ
  | (n, p) :: rest =>
    match intern fuel n σ with
    | .error e => .error e
    | .ok (s, σ1) =>
      match alloc σ1 (.natfn p) with
      | (f, σ2) =>
        match addVariable σ2 envA s f with
        | .error e => .error e
        | .ok σ3 => installPrims fuel envA rest σ3

/-- createDefaultEnv up to the point where the external core.elysp prelude
file would be read and evaluated: a fresh root Environment with nil bound to
Nil, t bound to itself, and every primitive installed.  The prelude load is
an external input (the file is not part of src/) and is omitted; every claim
below concerns the root bindings installed here. -/
def defaultEnvM (fuel : Nat) (σ : LState) : Res (Nat × LState) :=
  match alloc σ (.envObj nilA nilA) with
  | (e, σ1) =>
    match intern fuel "nil" σ1 with
    | .error er => .error er
    | .ok (ns, σ2) =>
      match addVariable σ2 e ns nilA with
      | .error er => .error er
      | .ok σ3 =>
        match addVariable σ3 e tA tA with
        | .error er => .error er
        | .ok σ4 =>
          match installPrims fuel e primTable σ4 with
          | .error er => .error er
          | .ok σ5 => .ok (e, σ5)

/-- The file-mode driver loop: read top-level forms and evaluate each in the
given environment until end of input, returning the last value (nil when the
source holds no form). -/
def raGo (fuel : Nat) (src : List Char) (pos envA acc : Nat) (σ : LState) :
    Res (Nat × LState) :=
  match fuel with
  | 0 => .error .fuel
  | fuel + 1 =>
    if src.length ≤ pos then .ok (acc, σ)
    else
      match readNextF fuel src pos σ with
      | .error e => .error e
      | .ok (none, _, σ1) => .ok (acc, σ1)
      | .ok (some form, p, σ1) =>
        match run fuel (.eval envA form) σ1 with
        | .error e => .error e
        | .ok (v, σ2) => raGo fuel src p envA v σ2

/-- Run a whole program from the module-load store: build the default root
environment, then read and evaluate every top-level form. -/
def progRun (fuel : Nat) (src : String) : Res (Nat × LState) :=
  match defaultEnvM fuel bootS with
  | .error e => .error e
  | .ok (e, σ1) => raGo fuel src.toList 0 e nilA σ1

/-- Pure readback values for stating structural results: list structure,
symbol names and payloads are kept, everything else only by variant. -/
inductive PVal where
  | nilV
  | symV (name : String)
  | numV (v : Int)
  | strV (s : String)
  | pairV (car cdr : PVal)
  | envV
  | natV
  | funV
  | macV
deriving DecidableEq, Repr

/-- Read the object graph at an address back as a pure value. -/
def toVal (fuel : Nat) (σ : LState) (a : Nat) : Option PVal :=
  match fuel with
  | 0 => none
  | fuel + 1 =>
    match getCell σ a with
    | none => none
    | some h =>
      match h with
      | .nil => some .nilV
      | .sym n => some (.symV n)
      | .num v => some (.numV v)
      | .str s => some (.strV s)
      | .envObj _ _ => some .envV
      | .natfn _ => some .natV
      | .fnObj isMac _ _ _ => some (if isMac then .macV else .funV)
      | .pair c d =>
        match toVal fuel σ c, toVal fuel σ d with
        | some pc, some pd => some (.pairV pc pd)
        | _, _ => none

/-- The readback of a whole program's result value. -/
def progVal (fuel : Nat) (src : String) : Option PVal :=
  match progRun fuel src with
  | .ok (v, σ) => toVal fuel σ v
  | .error _ => none

/-! Specification-side helpers used to state the claims.  These read the
store; they are not part of the interpreter. -/

/-- A proper (nil-terminated) list in a store: its spine cell addresses and
its element (car) addresses, in order. -/
inductive ProperSpine (σ : LState) : Nat → List Nat → List Nat → Prop where
  | nil : getCell σ a = some .nil → ProperSpine σ a [] []
  | cons : getCell σ a = some (.pair c d) → ProperSpine σ d cells cars →
      ProperSpine σ a (a :: cells) (c :: cars)

/-- A vars association chain in a store: the (symbol, value) address pairs of
its binding pairs, in order, ending at a Nil cell. -/
inductive BindChain (σ : LState) : Nat → List (Nat × Nat) → Prop where
  | nil : getCell σ a = some .nil → BindChain σ a []
  | cons : getCell σ a = some (.pair b rest) → getCell σ b = some (.pair s v) →
      BindChain σ rest l → BindChain σ a ((s, v) :: l)

/-- First-match lookup in an association list of addresses (the order in
which a head-first walk of a vars chain finds bindings). -/
def assocFind : List (Nat × Nat) → Nat → Option Nat
  | [], _ => none
  | (s, v) :: l, x => if s = x then some v else assocFind l x

/-- The search walk of setVariable and find, returning the address of the
first binding pair of the symbol: each frame's vars list head-first, then
the up ancestor. -/
def findBind (fuel : Nat) (σ : LState) (cenv symA : Nat) : Res (Option Nat) :=
  match fuel with
  | 0 => .error .fuel
  | fuel + 1 =>
    match deref σ cenv with
    | .error e => .error e
    | .ok (.envObj vars up) =>
      match scanVars fuel σ vars symA with
      | .error e => .error e
      | .ok (some bindA) => .ok (some bindA)
      | .ok none => findBind fuel σ up symA
    | .ok _ => .ok none

/-- The identity evaluator (used in witnesses as a trivial element
evaluator). -/
def evI : EvF := fun a σ => .ok (a, σ)

/-- A store holding the argument list (1 1) of two separately created Number
objects: addresses 4 and 5 both hold the number 1, and 7 is the argument
list (4 5). -/
def stEq8 : LState :=
  ⟨(7, .pair 4 6) :: (6, .pair 5 1) :: (5, .num 1) :: (4, .num 1) :: bootS.heap, 8, 3⟩

set_option maxRecDepth 100000 in
set_option maxHeartbeats 1000000 in
/-- C8: the two observed generations of the = primitive are not equivalent:
on the argument list (1 1) holding two separately created Number-1 objects
(distinct addresses 4 and 5, same payload), the current generation evaluates
its two arity-checked arguments and compares them with structural equal,
returning the t symbol, while the superseded generation folds the
unevaluated list with reference identity only and returns Nil. -/
theorem primEqual_generations_differ :
    getCell stEq8 4 = some (.num 1) ∧ getCell stEq8 5 = some (.num 1) ∧
    (4 : Nat) ≠ 5 ∧
    getCell stEq8 7 = some (.pair 4 6) ∧ getCell stEq8 6 = some (.pair 5 nilA) ∧
    run 20 (.prim .pEqual 0 7) stEq8 = .ok (tA, stEq8) ∧
    primEqualV2 20 stEq8 0 7 = .ok nilA ∧
    tA ≠ nilA ∧ getCell stEq8 tA = some (.sym "t") ∧
    getCell stEq8 nilA = some .nil := by
  refine ⟨by decide, by decide, by decide, by decide, by decide, ?_, by decide,
    by decide, by decide, by decide⟩
  decide

/-- A store holding the argument list (5 7): address 4 is the number 5,
address 5 the number 7, and 7 the two-element argument list. -/
def stIf : LState :=
  ⟨(7, .pair 4 6) :: (6, .pair 5 1) :: (5, .num 7) :: (4, .num 5) :: bootS.heap, 8, 3⟩

set_option maxRecDepth 100000 in
set_option maxHeartbeats 1000000 in
/-- C1: primIf evaluates its first argument and selects the then-branch
exactly when that value is, by reference identity, the interned symbol t;
any other value, Nil included, selects the else-branch, which for a
2-argument if is the nil constant (getArg past the end), so such an if
evaluates to Nil; concretely (if nil "yup" "nope") evaluates to the string
"nope", (if (quote t) "yup" "nope") to "yup", and the 2-argument (if 5 7)
to Nil. -/
theorem primIf_spec :
    (∀ fuel σ σ1 envA args v tE eE,
      checkArityF fuel σ args 2 3 = .ok () →
      run fuel (.evalArgC envA args 0 none) σ = .ok (v, σ1) →
      getArgF fuel σ1 args 1 none = .ok tE →
      getArgF fuel σ1 args 2 none = .ok eE →
      run (fuel + 1) (.prim .pIf envA args) σ =
        if v = tA then run fuel (.eval envA tE) σ1
        else run fuel (.eval envA eE) σ1) ∧
    getCell bootS tA = some (.sym "t") ∧
    (∀ fuel σ args x y d e,
      deref σ args = .ok (.pair x d) → deref σ d = .ok (.pair y e) →
      deref σ e = .ok .nil →
      getArgF (fuel + 3) σ args 2 none = .ok nilA) ∧
    (∀ fuel σ envA, getCell σ nilA = some .nil →
      run (fuel + 1) (.eval envA nilA) σ = .ok (nilA, σ)) ∧
    progVal 100 "(if (quote t) \"yup\" \"nope\")" = some (.strV "yup") ∧
    progVal 100 "(if nil \"yup\" \"nope\")" = some (.strV "nope") ∧
    progVal 100 "(if 5 7)" = some .nilV := by
  refine ⟨?_, by decide, ?_, ?_, by decide, by decide, by decide⟩
  · intro fuel σ σ1 envA args v tE eE h1 h2 h3 h4
    simp only [run, h1, h2, h3, h4]
  · intro fuel σ args x y d e h1 h2 h3
    by_cases ha : args = nilA
    · subst ha
      simp [getArgF]
    · simp only [getArgF, if_neg ha, h1]
      simp only [getArgGo, h1, h2, h3]
      norm_num
  · intro fuel σ envA h
    simp only [run, deref, h]

set_option maxRecDepth 100000 in
/-- Witness for primIf_spec: on the concrete 2-argument call (if 5 7) the
condition value (address 4, a Number) is not the t symbol, so primIf
evaluates the nil constant fetched as the missing else branch. -/
theorem primIf_spec_witness :
    run 10 (.prim .pIf 0 7) stIf = run 9 (.eval 0 nilA) stIf := by
  have h := primIf_spec.1 9 stIf stIf 0 7 4 5 nilA (by decide) (by decide)
    (by decide) (by decide)
  rw [if_neg (by decide)] at h
  exact h

/-- A store holding the single-element argument list (9): address 4 is the
number 9 and address 5 the list (4). -/
def stMac : LState :=
  ⟨(5, .pair 4 1) :: (4, .num 9) :: bootS.heap, 6, 3⟩

set_option maxRecDepth 100000 in
set_option maxHeartbeats 1000000 in
/-- C2: when the head of a Pair is a Symbol bound to a Macro, macroExpand
binds the macro's parameter list to the unevaluated argument Pairs via
pushEnv (the new frame's parent being the calling environment) and folds the
body forms with evaluate, returning the last body form's value; the macex
primitive performs exactly this one macroExpand step on its unevaluated
first argument, without evaluating the result; concretely, with
(defmacro double (x) '(quote (,x ,x))) defined, (macex (double 5)) returns
the list (quote (5 5)). -/
theorem macroExpand_macex_spec :
    (∀ fuel σ σ1 envA obj hd tl n m params body menv ne,
      deref σ obj = .ok (.pair hd tl) →
      deref σ hd = .ok (.sym n) →
      findF fuel σ envA hd = .ok (some m) →
      deref σ m = .ok (.fnObj true params body menv) →
      pushEnvF fuel σ envA params tl = .ok (ne, σ1) →
      run (fuel + 1) (.macEx envA obj) σ =
        evalSeqGen fuel (fun x τ => run fuel (.eval ne x) τ) σ1 body) ∧
    (∀ fuel σ envA args a0 r,
      checkArityF fuel σ args 1 1 = .ok () →
      deref σ args = .ok (.pair a0 r) →
      run (fuel + 1) (.prim .pMacex envA args) σ = run fuel (.macEx envA a0) σ) ∧
    progVal 100 "(defmacro double (x) '(quote (,x ,x))) (macex (double 5))" =
      some (.pairV (.symV "quote")
        (.pairV (.pairV (.numV 5) (.pairV (.numV 5) .nilV)) .nilV)) := by
  refine ⟨?_, ?_, by decide⟩
  · intro fuel σ σ1 envA obj hd tl n m params body menv ne h1 h2 h3 h4 h5
    simp only [run, h1, h2, h3, h4, h5]
  · intro fuel σ envA args a0 r h1 h2
    simp only [run, h1, h2]

set_option maxRecDepth 100000 in
/-- Witness for macroExpand_macex_spec: macex on the concrete argument list
(9) dispatches to one macroExpand step on the number 9. -/
theorem macroExpand_macex_spec_witness :
    run 10 (.prim .pMacex 0 5) stMac = run 9 (.macEx 0 4) stMac :=
  macroExpand_macex_spec.2.1 9 stMac 0 5 4 1 (by decide) (by decide)

set_option maxRecDepth 100000 in
set_option maxHeartbeats 1000000 in
/-- C3 counterexample: quote does not pass all non-unquote structure through
unchanged.  Evaluating (quote (1 . 2)) yields the proper list (1) - the
dotted tail 2 is dropped by evaluateUnquotes rebuilding the walked list
nil-terminated - which is not structurally equal to the dotted pair
(1 . 2). -/
theorem quote_passthrough_counterexample :
    progVal 100 "(quote (1 . 2))" = some (.pairV (.numV 1) .nilV) ∧
    (some (.pairV (.numV 1) .nilV) : Option PVal) ≠
      some (.pairV (.numV 1) (.numV 2)) := by
  exact ⟨by decide, by decide⟩

set_option maxRecDepth 100000 in
set_option maxHeartbeats 1000000 in
/-- C3 (amended): the quote primitive applies unquote resolution
(evaluateUnquotes) to its first unevaluated argument before returning it: a
Pair whose car is the interned unquote symbol is replaced by the result of
evaluating it, non-Pair values pass through unchanged, and any other walked
Pair is rebuilt as a fresh nil-terminated list of its processed elements
(dropping a dotted tail); consequently evaluating '(1 ,(+ 1 1) 3) yields a
list structurally equal to (1 2 3). -/
theorem quote_unquote_spec :
    (∀ fuel ev σ σ1 a c d uq,
      deref σ a = .ok (.pair c d) →
      intern fuel "unquote" σ = .ok (uq, σ1) →
      c = uq →
      unqAux (fuel + 1) ev (.gen a) σ = ev a σ1) ∧
    (∀ fuel ev σ a h,
      deref σ a = .ok h → h.tag ≠ .pairT →
      unqAux (fuel + 1) ev (.gen a) σ = .ok (a, σ)) ∧
    (∀ fuel σ envA args a0 r,
      deref σ args = .ok (.pair a0 r) →
      run (fuel + 1) (.prim .pQuote envA args) σ =
        evalUnqGen fuel (fun x τ => run fuel (.eval envA x) τ) σ a0) ∧
    progVal 100 "'(1 ,(+ 1 1) 3)" =
      some (.pairV (.numV 1) (.pairV (.numV 2) (.pairV (.numV 3) .nilV))) := by
  refine ⟨?_, ?_, ?_, by decide⟩
  · intro fuel ev σ σ1 a c d uq h1 h2 h3
    simp only [unqAux, h1, h2, if_pos h3]
  · intro fuel ev σ a h h1 h2
    cases h <;> simp only [unqAux, h1]
    simp [HObj.tag] at h2
  · intro fuel σ envA args a0 r h1
    simp only [run, h1, evalUnqGen]

set_option maxRecDepth 100000 in
/-- Witness for quote_unquote_spec: the t symbol (a non-Pair) passes through
evaluateUnquotes unchanged. -/
theorem quote_unquote_spec_witness :
    unqAux 10 evI (.gen 2) bootS = .ok (2, bootS) :=
  quote_unquote_spec.2.1 9 evI bootS 2 (.sym "t") (by decide) (by decide)

set_option maxRecDepth 100000 in
set_option maxHeartbeats 1000000 in
/-- C7: at a #- in the source, readNext consumes the two marker characters,
reads and discards exactly the one next complete syntactic element (whatever
readNext returns), and transparently returns the element after it, read from
where the discarded element ended; consequently reading and evaluating
(+ 1 #- 2 3) yields the number 4: the 2 is elided entirely, leaving a
2-argument +. -/
theorem reader_elision_spec :
    (∀ fuel src pos σ r1 p5 σ1,
      src[pos]? = some '#' → src[pos + 1]? = some '-' →
      readNextF fuel src (pos + 2) σ = .ok (r1, p5, σ1) →
      readNextF (fuel + 1) src pos σ = readNextF fuel src p5 σ1) ∧
    progVal 100 "(+ 1 #- 2 3)" = some (.numV 4) := by
  refine ⟨?_, by decide⟩
  intro fuel src pos σ r1 p5 σ1 h1 h2 h3
  match fuel with
  | 0 => exact absurd h3 (by simp [readNextF, readAux])
  | f + 1 =>
    have hlt : pos < src.length := by
      by_contra hge
      rw [List.getElem?_eq_none (by omega)] at h1
      exact absurd h1 (by simp)
    have hws : skipWsP (f + 1) src pos = some pos := by
      simp [skipWsP, h1, isWsC]
    have hcm : skipCommentsP (f + 1) src pos = some pos := by
      simp [skipCommentsP, h2]
    have hc1 : consumeF src pos '#' = .ok (pos + 1) := by
      simp [consumeF, h1]
    have hc2 : consumeF src (pos + 1) '-' = .ok (pos + 2) := by
      simp [consumeF, h2]
    simp only [readNextF] at h3 ⊢
    generalize hg : f + 1 = g at h3 hws hcm ⊢
    simp only [readAux, hws, hcm, h1, hc1, hc2]
    rw [if_neg (by omega), if_neg (by decide), if_neg (by decide),
      if_neg (by decide), if_neg (by decide), if_neg (by decide),
      if_neg (by decide), if_pos (by decide)]
    rw [show pos + 1 + 1 = pos + 2 from rfl]
    simp only [h3]

/-- The store after the discarded element 2 of "#- 2 3" has been read:
address 4 holds the number 2. -/
def stRd : LState := ⟨(4, .num 2) :: bootS.heap, 5, 3⟩

set_option maxRecDepth 100000 in
/-- Witness for reader_elision_spec: reading "#- 2 3" from position 0
discards the 2 (read into address 4, ending at position 4) and returns the
read of the rest of the input. -/
theorem reader_elision_spec_witness :
    readNextF 20 "#- 2 3".toList 0 bootS = readNextF 19 "#- 2 3".toList 4 stRd :=
  reader_elision_spec.1 19 "#- 2 3".toList 0 bootS (some 4) 4 stRd (by decide)
    (by decide) (by decide)

/-! Helper lemmas about the store. -/

theorem getCell_lt {σ : LState} {a : Nat} {h : HObj} (hg : getCell σ a = some h) :
    a < σ.size := by
  by_contra hge
  simp [getCell, hge] at hg

theorem deref_ok {σ : LState} {a : Nat} {h : HObj} (hd : deref σ a = .ok h) :
    getCell σ a = some h := by
  unfold deref at hd
  split at hd
  · next x heq =>
    simp only [Except.ok.injEq] at hd
    rw [hd] at heq
    exact heq
  · simp at hd

theorem getCell_cons_self {hp : List (Nat × HObj)} {sz sy x : Nat} {h : HObj}
    (hx : x < sz) : getCell ⟨(x, h) :: hp, sz, sy⟩ x = some h := by
  simp [getCell, hLookup, hx]

theorem getCell_cons_ne {hp : List (Nat × HObj)} {sz sy x b : Nat} {h : HObj}
    (hb : b ≠ x) : getCell ⟨(x, h) :: hp, sz, sy⟩ b = getCell ⟨hp, sz, sy⟩ b := by
  simp only [getCell, hLookup]
  split
  · rw [if_neg (by omega)]
  · rfl

/-- setVariable's walk finds the same first binding pair as findBind (each
frame's vars head-first, then up) and overwrites exactly that journal
entry. -/
theorem setVarGo_found : ∀ fuel σ cenv symA valA bindA c w,
    findBind fuel σ cenv symA = .ok (some bindA) →
    deref σ bindA = .ok (.pair c w) →
    setVarGo fuel σ cenv symA valA =
      .ok (true, ⟨(bindA, .pair c valA) :: σ.heap, σ.size, σ.syms⟩) := by
  intro fuel
  induction fuel with
  | zero => intro σ cenv symA valA bindA c w hf hb; exact absurd hf (by simp [findBind])
  | succ f ih =>
    intro σ cenv symA valA bindA c w hf hb
    simp only [findBind] at hf
    simp only [setVarGo]
    match hcell : deref σ cenv with
    | .error e => rw [hcell] at hf; exact absurd hf (by simp)
    | .ok (.envObj vars up) =>
      rw [hcell] at hf
      simp only [] at hf
      match hscan : scanVars f σ vars symA with
      | .error e => rw [hscan] at hf; exact absurd hf (by simp)
      | .ok (some b) =>
        rw [hscan] at hf
        simp only [Except.ok.injEq, Option.some.injEq] at hf
        subst hf
        have hlt : b < σ.size := getCell_lt (deref_ok hb)
        simp only [hscan, hb, writeCell, if_pos hlt]
      | .ok none =>
        rw [hscan] at hf
        simp only [hscan]
        exact ih σ up symA valA bindA c w hf hb
    | .ok .nil => rw [hcell] at hf; exact absurd hf (by simp)
    | .ok (.sym n) => rw [hcell] at hf; exact absurd hf (by simp)
    | .ok (.num v) => rw [hcell] at hf; exact absurd hf (by simp)
    | .ok (.str s) => rw [hcell] at hf; exact absurd hf (by simp)
    | .ok (.pair x y) => rw [hcell] at hf; exact absurd hf (by simp)
    | .ok (.natfn p) => rw [hcell] at hf; exact absurd hf (by simp)
    | .ok (.fnObj m x y z) => rw [hcell] at hf; exact absurd hf (by simp)

/-- When no frame in the chain binds the symbol, setVariable's walk ends
without touching the store. -/
theorem setVarGo_notfound : ∀ fuel σ cenv symA valA,
    findBind fuel σ cenv symA = .ok none →
    setVarGo fuel σ cenv symA valA = .ok (false, σ) := by
  intro fuel
  induction fuel with
  | zero => intro σ cenv symA valA hf; exact absurd hf (by simp [findBind])
  | succ f ih =>
    intro σ cenv symA valA hf
    simp only [findBind] at hf
    simp only [setVarGo]
    match hcell : deref σ cenv with
    | .error e => rw [hcell] at hf; exact absurd hf (by simp)
    | .ok (.envObj vars up) =>
      rw [hcell] at hf
      simp only [] at hf
      match hscan : scanVars f σ vars symA with
      | .error e => rw [hscan] at hf; exact absurd hf (by simp)
      | .ok (some b) => rw [hscan] at hf; exact absurd hf (by simp)
      | .ok none =>
        rw [hscan] at hf
        simp only [hscan]
        exact ih σ up symA valA hf
    | .ok .nil => rfl
    | .ok (.sym n) => rfl
    | .ok (.num v) => rfl
    | .ok (.str s) => rfl
    | .ok (.pair x y) => rfl
    | .ok (.natfn p) => rfl
    | .ok (.fnObj m x y z) => rfl

/-- find returns the stored value of exactly the binding pair that findBind
(and hence setVariable) locates. -/
theorem findBind_findF : ∀ fuel σ cenv symA bindA c w,
    findBind fuel σ cenv symA = .ok (some bindA) →
    deref σ bindA = .ok (.pair c w) →
    findF fuel σ cenv symA = .ok (some w) := by
  intro fuel
  induction fuel with
  | zero => intro σ cenv symA bindA c w hf hb; exact absurd hf (by simp [findBind])
  | succ f ih =>
    intro σ cenv symA bindA c w hf hb
    simp only [findBind] at hf
    simp only [findF, findGo]
    match hcell : deref σ cenv with
    | .error e => rw [hcell] at hf; exact absurd hf (by simp)
    | .ok (.envObj vars up) =>
      rw [hcell] at hf
      simp only [] at hf
      match hscan : scanVars f σ vars symA with
      | .error e => rw [hscan] at hf; exact absurd hf (by simp)
      | .ok (some b) =>
        rw [hscan] at hf
        simp only [Except.ok.injEq, Option.some.injEq] at hf
        subst hf
        simp only [hscan, hb]
      | .ok none =>
        rw [hscan] at hf
        simp only [hscan]
        have := ih σ up symA bindA c w hf hb
        simp only [findF, findGo] at this
        exact this
    | .ok .nil => rw [hcell] at hf; exact absurd hf (by simp)
    | .ok (.sym n) => rw [hcell] at hf; exact absurd hf (by simp)
    | .ok (.num v) => rw [hcell] at hf; exact absurd hf (by simp)
    | .ok (.str s) => rw [hcell] at hf; exact absurd hf (by simp)
    | .ok (.pair x y) => rw [hcell] at hf; exact absurd hf (by simp)
    | .ok (.natfn p) => rw [hcell] at hf; exact absurd hf (by simp)
    | .ok (.fnObj m x y z) => rw [hcell] at hf; exact absurd hf (by simp)

/-- C4: setVariable walks the innermost frame's vars list head-first and
then each up ancestor (the findBind walk, which agrees with find); on the
first binding pair of the symbol it mutates only that pair's stored value in
place (one journal entry, every other address unchanged); when no frame in
the chain binds the symbol it falls back to addVariable on the original
environment, which prepends a fresh binding to that environment's vars and
leaves every other previously allocated address unchanged. -/
theorem setVariable_spec :
    (∀ fuel σ envA symA valA bindA c w,
      findBind fuel σ envA symA = .ok (some bindA) →
      deref σ bindA = .ok (.pair c w) →
      setVariable fuel σ envA symA valA =
          .ok ⟨(bindA, .pair c valA) :: σ.heap, σ.size, σ.syms⟩ ∧
        getCell ⟨(bindA, .pair c valA) :: σ.heap, σ.size, σ.syms⟩ bindA =
          some (.pair c valA) ∧
        ∀ b, b ≠ bindA →
          getCell ⟨(bindA, .pair c valA) :: σ.heap, σ.size, σ.syms⟩ b =
            getCell σ b) ∧
    (∀ fuel σ envA symA valA,
      findBind fuel σ envA symA = .ok none →
      setVariable fuel σ envA symA valA = addVariable σ envA symA valA) ∧
    (∀ fuel σ envA symA bindA c w,
      findBind fuel σ envA symA = .ok (some bindA) →
      deref σ bindA = .ok (.pair c w) →
      findF fuel σ envA symA = .ok (some w)) ∧
    (∀ σ envA symA valA vars up,
      deref σ envA = .ok (.envObj vars up) →
      addVariable σ envA symA valA =
          .ok ⟨(envA, .envObj (σ.size + 1) up) :: (σ.size + 1, .pair σ.size vars) ::
            (σ.size, .pair symA valA) :: σ.heap, σ.size + 2, σ.syms⟩ ∧
        getCell ⟨(envA, .envObj (σ.size + 1) up) :: (σ.size + 1, .pair σ.size vars) ::
            (σ.size, .pair symA valA) :: σ.heap, σ.size + 2, σ.syms⟩ σ.size =
          some (.pair symA valA) ∧
        ∀ b, b ≠ envA → b < σ.size →
          getCell ⟨(envA, .envObj (σ.size + 1) up) :: (σ.size + 1, .pair σ.size vars) ::
            (σ.size, .pair symA valA) :: σ.heap, σ.size + 2, σ.syms⟩ b =
            getCell σ b) := by
  refine ⟨?_, ?_, findBind_findF, ?_⟩
  · intro fuel σ envA symA valA bindA c w hf hb
    have hlt : bindA < σ.size := getCell_lt (deref_ok hb)
    refine ⟨?_, getCell_cons_self hlt, ?_⟩
    · simp only [setVariable, setVarGo_found fuel σ envA symA valA bindA c w hf hb]
    · intro b hbne
      rw [getCell_cons_ne hbne]
  · intro fuel σ envA symA valA hf
    simp only [setVariable, setVarGo_notfound fuel σ envA symA valA hf]
  · intro σ envA symA valA vars up hc
    have hea : envA < σ.size := getCell_lt (deref_ok hc)
    refine ⟨?_, ?_, ?_⟩
    · simp only [addVariable, hc, acons, alloc]
      simp only [writeCell]
      rw [if_pos (by omega)]
    · rw [getCell_cons_ne (by omega), getCell_cons_ne (by omega)]
      exact getCell_cons_self (by omega)
    · intro b hbne hblt
      rw [getCell_cons_ne hbne, getCell_cons_ne (by omega), getCell_cons_ne (by omega)]
      simp only [getCell]
      rw [if_pos (by omega), if_pos hblt]

/-- A store holding a two-frame environment chain: the outer environment
(address 8) binds the symbol x (address 4) to the number 1 via binding pair
6, and the inner environment (address 9) has empty vars and up pointing at
the outer frame. -/
def stSet : LState :=
  ⟨(9, .envObj 1 8) :: (8, .envObj 7 1) :: (7, .pair 6 1) :: (6, .pair 4 5) ::
    (5, .num 1) :: (4, .sym "x") :: bootS.heap, 10, 3⟩

set_option maxRecDepth 100000 in
/-- Witness for setVariable_spec: assigning through the inner frame mutates
the outer frame's binding pair (address 6) in place and leaves other cells
(such as address 5) unchanged. -/
theorem setVariable_spec_witness :
    setVariable 10 stSet 9 4 2 =
        .ok ⟨(6, .pair 4 2) :: stSet.heap, stSet.size, stSet.syms⟩ ∧
      getCell ⟨(6, .pair 4 2) :: stSet.heap, stSet.size, stSet.syms⟩ 5 =
        getCell stSet 5 := by
  have h := setVariable_spec.1 10 stSet 9 4 2 6 4 5 (by decide) (by decide)
  exact ⟨h.1, h.2.2 5 (by decide)⟩

/-- equal's ok results are symmetric: whatever Boolean equal(a, b) computes,
equal(b, a) computes the same (at the same recursion budget). -/
theorem equalF_symmA : ∀ fuel σ a b q, equalF fuel σ a b = .ok q → equalF fuel σ b a = .ok q := by
  intro fuel
  induction fuel with
  | zero => intro σ a b q h; exact absurd h (by simp [equalF])
  | succ f ih =>
    intro σ a b q h
    simp only [equalF] at h ⊢
    match hda : deref σ a, hdb : deref σ b with
    | .error e, .error e2 => rw [hda] at h; exact absurd h (by simp)
    | .error e, .ok hb => rw [hda] at h; exact absurd h (by simp)
    | .ok ha, .error e => rw [hda, hdb] at h; exact absurd h (by simp)
    | .ok ha, .ok hb =>
      rw [hda, hdb] at h
      simp only [] at h ⊢
      by_cases htag : ha.tag = hb.tag
      · rw [if_neg (by simp [htag])] at h
        rw [if_neg (by simp [htag])]
        by_cases hab : a = b
        · subst hab
          rw [if_pos rfl] at h
          rw [if_pos rfl]
          exact h
        · rw [if_neg hab] at h
          rw [if_neg (Ne.symm hab)]
          cases ha with
          | nil => cases hb <;> simp only [] at h ⊢ <;> exact h
          | sym n => cases hb <;> simp only [] at h ⊢ <;> exact h
          | envObj v u => cases hb <;> simp only [] at h ⊢ <;> exact h
          | natfn p => cases hb <;> simp only [] at h ⊢ <;> exact h
          | fnObj m p2 b2 e2 => cases hb <;> simp only [] at h ⊢ <;> exact h
          | num x =>
            cases hb <;> simp only [] at h ⊢ <;> try exact h
            rename_i y
            rw [show (decide (y = x) : Bool) = decide (x = y) from decide_eq_decide.mpr eq_comm]
            exact h
          | str sx =>
            cases hb <;> simp only [] at h ⊢ <;> try exact h
            rename_i sy
            rw [show (decide (sy = sx) : Bool) = decide (sx = sy) from decide_eq_decide.mpr eq_comm]
            exact h
          | pair ca da =>
            cases hb <;> simp only [] at h ⊢ <;> try exact h
            rename_i cb db
            match hla : listLenF f σ a, hlb : listLenF f σ b with
            | .error e, .error e2 => rw [hla] at h; exact absurd h (by simp)
            | .error e, .ok lb => rw [hla] at h; exact absurd h (by simp)
            | .ok la, .error e => rw [hla, hlb] at h; exact absurd h (by simp)
            | .ok la, .ok lb =>
              rw [hla, hlb] at h
              simp only [] at h ⊢
              by_cases hll : la = lb
              · subst hll
                rw [if_neg (by simp)] at h
                rw [if_neg (by simp)]
                match hcc : equalF f σ ca cb with
                | .error e => rw [hcc] at h; exact absurd h (by simp)
                | .ok true =>
                  rw [hcc] at h
                  simp only [] at h
                  rw [ih σ ca cb true hcc]
                  simp only []
                  exact ih σ da db q h
                | .ok false =>
                  rw [hcc] at h
                  simp only [] at h
                  rw [ih σ ca cb false hcc]
                  simp only []
                  exact h
              · rw [if_pos hll] at h
                rw [if_pos (Ne.symm hll)]
                exact h
      · rw [if_pos htag] at h
        rw [if_pos (fun hq => htag hq.symm)]
        exact h

/-- C5: equal is reflexive (the identity short-circuit) and its computed
Boolean is symmetric; Numbers and Strings compare by payload value; Pairs
first require equal listLen and then compare car and recursively cdr; every
variant other than Number, String and Pair is equal only under reference
identity, so two structurally identical Function cells at distinct addresses
are never equal. -/
theorem equal_spec :
    (∀ fuel σ a h, deref σ a = .ok h → equalF (fuel + 1) σ a a = .ok true) ∧
    (∀ fuel σ a b q, equalF fuel σ a b = .ok q → equalF fuel σ b a = .ok q) ∧
    (∀ fuel σ a b x y, deref σ a = .ok (.num x) → deref σ b = .ok (.num y) →
      equalF (fuel + 1) σ a b = .ok (decide (x = y))) ∧
    (∀ fuel σ a b x y, deref σ a = .ok (.str x) → deref σ b = .ok (.str y) →
      equalF (fuel + 1) σ a b = .ok (decide (x = y))) ∧
    (∀ fuel σ a b ca da cb db la lb,
      deref σ a = .ok (.pair ca da) → deref σ b = .ok (.pair cb db) → a ≠ b →
      listLenF fuel σ a = .ok la → listLenF fuel σ b = .ok lb →
      (la ≠ lb → equalF (fuel + 1) σ a b = .ok false) ∧
      (la = lb → equalF fuel σ ca cb = .ok false → equalF (fuel + 1) σ a b = .ok false) ∧
      (la = lb → equalF fuel σ ca cb = .ok true →
        equalF (fuel + 1) σ a b = equalF fuel σ da db)) ∧
    (∀ fuel σ a b hA hB, deref σ a = .ok hA → deref σ b = .ok hB → a ≠ b →
      hA.tag ≠ .numT → hA.tag ≠ .strT → hA.tag ≠ .pairT →
      equalF (fuel + 1) σ a b = .ok false) := by
  refine ⟨?_, equalF_symmA, ?_, ?_, ?_, ?_⟩
  · intro fuel σ a h0 hd
    simp only [equalF, hd]
    simp
  · intro fuel σ a b x y hda hdb
    by_cases hab : a = b
    · subst hab
      rw [hda] at hdb
      simp only [Except.ok.injEq, HObj.num.injEq] at hdb
      subst hdb
      simp only [equalF, hda]
      simp
    · simp only [equalF, hda, hdb]
      rw [if_neg (by simp [HObj.tag]), if_neg hab]
  · intro fuel σ a b x y hda hdb
    by_cases hab : a = b
    · subst hab
      rw [hda] at hdb
      simp only [Except.ok.injEq, HObj.str.injEq] at hdb
      subst hdb
      simp only [equalF, hda]
      simp
    · simp only [equalF, hda, hdb]
      rw [if_neg (by simp [HObj.tag]), if_neg hab]
  · intro fuel σ a b ca da cb db la lb hda hdb hab hla hlb
    refine ⟨?_, ?_, ?_⟩
    · intro hne
      simp only [equalF, hda, hdb, hla, hlb]
      rw [if_neg (by simp [HObj.tag]), if_neg hab, if_pos hne]
    · intro hll hcc
      simp only [equalF, hda, hdb, hla, hlb, hcc]
      rw [if_neg (by simp [HObj.tag]), if_neg hab, if_neg (by simp [hll])]
    · intro hll hcc
      simp only [equalF, hda, hdb, hla, hlb, hcc]
      rw [if_neg (by simp [HObj.tag]), if_neg hab, if_neg (by simp [hll])]
  · intro fuel σ a b hA hB hda hdb hab hn hs hp
    simp only [equalF, hda, hdb]
    by_cases htag : hA.tag = hB.tag
    · rw [if_neg (by simp [htag]), if_neg hab]
      cases hA with
      | num x => exact absurd rfl hn
      | str s2 => exact absurd rfl hs
      | pair c d => exact absurd rfl hp
      | nil => cases hB <;> rfl
      | sym n => cases hB <;> rfl
      | envObj v u => cases hB <;> rfl
      | natfn p => cases hB <;> rfl
      | fnObj m p2 b2 e2 => cases hB <;> rfl
    · rw [if_pos htag]

/-- A store holding two Number 5 cells at distinct addresses, a String, two
structurally identical Function cells at distinct addresses, and two
one-element lists (5) with distinct spines. -/
def stEq5 : LState :=
  ⟨(10, .pair 5 1) :: (9, .pair 4 1) :: (8, .fnObj false 1 1 1) ::
    (7, .fnObj false 1 1 1) :: (6, .str "hi") :: (5, .num 5) :: (4, .num 5) ::
    bootS.heap, 11, 3⟩

set_option maxRecDepth 100000 in
/-- Witness for equal_spec: reflexivity at a Number cell, payload equality
of two distinct Number 5 cells, inequality of two structurally identical
Function cells, and the Pair case recursing into the cdrs. -/
theorem equal_spec_witness :
    equalF 4 stEq5 4 4 = .ok true ∧
    equalF 4 stEq5 4 5 = .ok (decide ((5 : Int) = 5)) ∧
    equalF 4 stEq5 7 8 = .ok false ∧
    equalF 4 stEq5 9 10 = equalF 3 stEq5 1 1 := by
  refine ⟨?_, ?_, ?_, ?_⟩
  · exact equal_spec.1 3 stEq5 4 (.num 5) (by decide)
  · exact equal_spec.2.2.1 3 stEq5 4 5 5 5 (by decide) (by decide)
  · exact equal_spec.2.2.2.2.2 3 stEq5 7 8 (.fnObj false 1 1 1) (.fnObj false 1 1 1)
      (by decide) (by decide) (by decide) (by decide) (by decide) (by decide)
  · exact (equal_spec.2.2.2.2.1 3 stEq5 9 10 4 1 5 1 1 1 (by decide) (by decide)
      (by decide) (by decide) (by decide)).2.2 rfl (by decide)

/-- The only error deref itself produces. -/
theorem deref_error {σ : LState} {a : Nat} {e : Err} (hd : deref σ a = .error e) :
    e = .err "invalid heap address" := by
  unfold deref at hd
  split at hd
  · simp at hd
  · simp only [Except.error.injEq] at hd
    exact hd.symm

/-- Allocation leaves every already-stored cell unchanged. -/
theorem getCell_alloc {σ : LState} {h0 h : HObj} {q : Nat} (hg : getCell σ q = some h) :
    getCell (alloc σ h0).2 q = some h := by
  have hlt : q < σ.size := getCell_lt hg
  simp only [getCell, alloc] at hg ⊢
  rw [if_pos hlt] at hg
  rw [if_pos (by omega)]
  simp only [hLookup]
  rw [if_neg (by omega)]
  exact hg

/-- acons leaves every already-stored cell unchanged. -/
theorem getCell_acons {σ : LState} {x y a q : Nat} {h : HObj} (hg : getCell σ q = some h) :
    getCell (acons σ x y a).2 q = some h := getCell_alloc (getCell_alloc hg)

/-- The spine pair acons allocates: cons(bindingPair, previousChain). -/
theorem getCell_acons_spine (σ : LState) (x y a : Nat) :
    getCell (acons σ x y a).2 (σ.size + 1) = some (.pair σ.size a) := by
  simp only [acons, alloc, getCell, hLookup]
  simp

/-- The binding pair acons allocates: cons(sym, val). -/
theorem getCell_acons_bind (σ : LState) (x y a : Nat) :
    getCell (acons σ x y a).2 σ.size = some (.pair x y) := by
  simp only [acons, alloc, getCell, hLookup]
  simp
  omega

/-- A cdr-walk in a store: the (spine cell, car) address pairs of a value's
leading Pairs in order, and the address of the first non-Pair tail cell. -/
inductive Chain (σ : LState) : Nat → List (Nat × Nat) → Nat → Prop where
  | stop : ∀ a h, getCell σ a = some h → h.tag ≠ .pairT → Chain σ a [] a
  | step : ∀ a c d l t, getCell σ a = some (.pair c d) → Chain σ d l t →
      Chain σ a ((a, c) :: l) t

/-- A cdr-walk survives any store change that preserves existing cells. -/
theorem Chain_mono : ∀ σ σ' a l t,
    (∀ x hx, getCell σ x = some hx → getCell σ' x = some hx) →
    Chain σ a l t → Chain σ' a l t := by
  intro σ σ' a l t hm hc
  induction hc with
  | stop a h hg ht => exact Chain.stop a h (hm a h hg) ht
  | step a c d l2 t2 hg hc2 ih => exact Chain.step a c d l2 t2 (hm a _ hg) ih

/-- A vars chain survives any store change that preserves existing cells. -/
theorem BindChain_mono : ∀ σ σ' a l,
    (∀ x hx, getCell σ x = some hx → getCell σ' x = some hx) →
    BindChain σ a l → BindChain σ' a l := by
  intro σ σ' a l hm hb
  induction hb with
  | nil hg => exact BindChain.nil (hm _ _ hg)
  | cons hg hb2 hrest ih => exact BindChain.cons (hm _ _ hg) (hm _ _ hb2) ih

/-- The counting loop of listLen along a cdr-walk: one per leading Pair, plus
one exactly when the tail cell is not the nil constant (reference check). -/
theorem listLenGo_chain : ∀ σ a l t, Chain σ a l t → ∀ fuel len, l.length + 1 ≤ fuel →
    listLenGo fuel σ a len = .ok (len + l.length + (if t = nilA then 0 else 1)) := by
  intro σ a l t hch
  induction hch with
  | stop a h hg ht =>
    intro fuel len hf
    obtain ⟨f, rfl⟩ : ∃ f, fuel = f + 1 := ⟨fuel - 1, by omega⟩
    simp only [listLenGo, deref, hg]
    cases h with
    | pair c d => exact absurd rfl ht
    | nil => by_cases ha : a = nilA <;> simp [ha]
    | sym n => by_cases ha : a = nilA <;> simp [ha]
    | num v => by_cases ha : a = nilA <;> simp [ha]
    | str s => by_cases ha : a = nilA <;> simp [ha]
    | envObj v u => by_cases ha : a = nilA <;> simp [ha]
    | natfn p => by_cases ha : a = nilA <;> simp [ha]
    | fnObj m p2 b2 e2 => by_cases ha : a = nilA <;> simp [ha]
  | step a c d l2 t2 hg hch2 ih =>
    intro fuel len hf
    obtain ⟨f, rfl⟩ : ∃ f, fuel = f + 1 := ⟨fuel - 1, by omega⟩
    simp only [listLenGo, deref, hg]
    rw [ih f (len + 1) (by simp only [List.length_cons] at hf; omega)]
    simp only [Except.ok.injEq, List.length_cons]
    omega

/-- listLen along a cdr-walk: 0 for a non-Pair, else the Pair count with a
dotted (non-nil) tail counting one extra. -/
theorem listLenF_chain : ∀ σ a l t fuel, Chain σ a l t → l.length + 1 ≤ fuel →
    listLenF fuel σ a = .ok (if l = [] then 0 else l.length + (if t = nilA then 0 else 1)) := by
  intro σ a l t fuel hch hf
  cases hch with
  | stop a2 h hg ht =>
    simp only [listLenF, deref, hg]
    cases h with
    | pair c d => exact absurd rfl ht
    | nil => rfl
    | sym n => rfl
    | num v => rfl
    | str s => rfl
    | envObj v u => rfl
    | natfn p => rfl
    | fnObj m p2 b2 e2 => rfl
  | step a2 c d l2 t2 hg hch2 =>
    simp only [listLenF, deref, hg]
    rw [listLenGo_chain σ a ((a, c) :: l2) t (Chain.step a c d l2 t hg hch2) fuel 0 hf]
    rw [if_neg (show ¬((a, c) :: l2 = []) from by simp)]
    simp only [Except.ok.injEq, List.length_cons]
    omega

/-- The binding loop of pushEnv never raises the arity-mismatch error (its
failures are fuel exhaustion or an invalid address). -/
theorem pushEnvGo_no_mismatch : ∀ fuel σ a b acc,
    pushEnvGo fuel σ a b acc ≠ .error (.err "env: mismatched number of vars and values") := by
  intro fuel
  induction fuel with
  | zero => intro σ a b acc h; simp [pushEnvGo] at h
  | succ f ih =>
    intro σ a b acc h
    simp only [pushEnvGo] at h
    match hda : deref σ a with
    | .error e =>
      rw [hda] at h
      simp only [Except.error.injEq] at h
      rw [deref_error hda] at h
      simp at h
    | .ok ha =>
      rw [hda] at h
      cases ha with
      | pair vc vd =>
        match hdb : deref σ b with
        | .error e =>
          rw [hdb] at h
          simp only [Except.error.injEq] at h
          rw [deref_error hdb] at h
          simp at h
        | .ok hb =>
          rw [hdb] at h
          cases hb with
          | pair wc wd =>
            simp only [acons, alloc] at h
            exact ih _ _ _ _ h
          | nil => simp at h
          | sym n => simp at h
          | num v => simp at h
          | str s => simp at h
          | envObj v u => simp at h
          | natfn p => simp at h
          | fnObj m p2 b2 e2 => simp at h
      | nil => simp at h
      | sym n => simp at h
      | num v => simp at h
      | str s => simp at h
      | envObj v u => simp at h
      | natfn p => simp at h
      | fnObj m p2 b2 e2 => simp at h

/-- The binding loop of pushEnv on two equal-length cdr-walks: it consumes
both walks, allocating acons cells only (the old store is preserved), and the
resulting vars chain holds the pairwise bindings, newest (last parameter)
first, on top of what the accumulator already held. -/
theorem pushEnvGo_chains : ∀ lv lw σ varO valO tv tw acc accL fuel,
    Chain σ varO lv tv → Chain σ valO lw tw → lv.length = lw.length →
    BindChain σ acc accL → lv.length + 1 ≤ fuel →
    ∃ nv σ1, pushEnvGo fuel σ varO valO acc = .ok (nv, σ1) ∧
      σ.size ≤ σ1.size ∧
      (∀ x hx, getCell σ x = some hx → getCell σ1 x = some hx) ∧
      BindChain σ1 nv ((List.zip (lv.map Prod.snd) (lw.map Prod.snd)).reverse ++ accL) := by
  intro lv
  induction lv with
  | nil =>
    intro lw σ varO valO tv tw acc accL fuel hcv hcw hlen hacc hf
    have hlw : lw = [] := by
      cases lw with
      | nil => rfl
      | cons p q => simp at hlen
    subst hlw
    obtain ⟨f, rfl⟩ : ∃ f, fuel = f + 1 := ⟨fuel - 1, by omega⟩
    cases hcv with
    | stop a2 h hg ht =>
      refine ⟨acc, σ, ?_, le_refl _, fun x hx hgx => hgx, hacc⟩
      simp only [pushEnvGo, deref, hg]
      cases h with
      | pair c d => exact absurd rfl ht
      | nil => rfl
      | sym n => rfl
      | num v => rfl
      | str s => rfl
      | envObj v u => rfl
      | natfn p => rfl
      | fnObj m p2 b2 e2 => rfl
  | cons hd tl ih =>
    intro lw σ varO valO tv tw acc accL fuel hcv hcw hlen hacc hf
    cases lw with
    | nil => simp at hlen
    | cons hw tw2 =>
      obtain ⟨f, rfl⟩ : ∃ f, fuel = f + 1 := ⟨fuel - 1, by omega⟩
      cases hcv with
      | step a2 c d l2A t2A hg hcv2 =>
        cases hcw with
        | step a3 wc wd l3A t3A hgw hcw2 =>
          have hpres2 : ∀ x hx, getCell σ x = some hx →
              getCell (acons σ c wc acc).2 x = some hx :=
            fun x hx hgx => getCell_acons hgx
          have hacc2 : BindChain (acons σ c wc acc).2 (σ.size + 1) ((c, wc) :: accL) :=
            BindChain.cons (getCell_acons_spine σ c wc acc) (getCell_acons_bind σ c wc acc)
              (BindChain_mono σ _ acc accL hpres2 hacc)
          obtain ⟨nv, σ1, hrun, hsz, hpres1, hbc⟩ :=
            ih tw2 (acons σ c wc acc).2 d wd tv tw (σ.size + 1) ((c, wc) :: accL) f
              (Chain_mono σ _ d tl tv hpres2 hcv2) (Chain_mono σ _ wd tw2 tw hpres2 hcw2)
              (by simp only [List.length_cons] at hlen; omega) hacc2
              (by simp only [List.length_cons] at hf; omega)
          refine ⟨nv, σ1, ?_, ?_, ?_, ?_⟩
          · simp only [pushEnvGo, deref, hg, hgw]
            exact hrun
          · have h2 : (acons σ c wc acc).2.size = σ.size + 2 := rfl
            omega
          · intro x hx hgx
            exact hpres1 x hx (hpres2 x hx hgx)
          · rw [show (List.zip (((varO, c) :: tl).map Prod.snd)
                (((valO, wc) :: tw2).map Prod.snd)).reverse ++ accL =
                (List.zip (tl.map Prod.snd) (tw2.map Prod.snd)).reverse ++ ((c, wc) :: accL)
                from by simp]
            exact hbc

/-- pushEnv on two proper equal-length lists: the binding loop succeeds, the
function returns a fresh Environment record whose up is the parent, and the
new vars chain holds the pairwise bindings with the last parameter's binding
first (pushEnv prepends each binding as it walks the lists). -/
theorem pushEnvF_proper :
    ∀ fuel σ envA vars values lv lw,
      Chain σ vars lv nilA → Chain σ values lw nilA → lv.length = lw.length →
      getCell σ nilA = some .nil → lv.length + 2 ≤ fuel →
      ∃ nv σ1, pushEnvGo fuel σ vars values nilA = .ok (nv, σ1) ∧
        pushEnvF fuel σ envA vars values =
          .ok (σ1.size, ⟨(σ1.size, .envObj nv envA) :: σ1.heap, σ1.size + 1, σ1.syms⟩) ∧
        σ.size ≤ σ1.size ∧
        BindChain σ1 nv (List.zip (lv.map Prod.snd) (lw.map Prod.snd)).reverse := by
  intro fuel σ envA vars values lv lw hcv hcw hlen hnil hf
  have hLv := listLenF_chain σ vars lv nilA fuel hcv (by omega)
  have hLw := listLenF_chain σ values lw nilA fuel hcw (by omega)
  have hsame : (if lv = [] then 0 else lv.length + (if nilA = nilA then 0 else 1)) =
      (if lw = [] then 0 else lw.length + (if nilA = nilA then 0 else 1)) := by
    cases lv with
    | nil =>
      cases lw with
      | nil => rfl
      | cons q lw2 => simp at hlen
    | cons p lv2 =>
      cases lw with
      | nil => simp at hlen
      | cons q lw2 =>
        simp only [List.length_cons] at hlen
        simp [hlen]
  obtain ⟨nv, σ1, hrun, hsz, hpres, hbc⟩ :=
    pushEnvGo_chains lv lw σ vars values nilA nilA nilA [] fuel hcv hcw hlen
      (BindChain.nil hnil) (by omega)
  refine ⟨nv, σ1, hrun, ?_, hsz, by simpa using hbc⟩
  simp only [pushEnvF, hLv, hLw]
  rw [if_neg (fun hq => hq hsame), hrun]
  rfl

/-- C6: pushEnv raises the arity-mismatch error exactly when the listLen of
the parameter list and of the argument list differ, where listLen counts the
leading Pairs plus one extra for a dotted (non-nil) tail; when the lengths of
two proper lists match it allocates the pairwise bindings and returns a fresh
child Environment record whose vars is that binding chain (last parameter
bound first) and whose up is the parent environment. -/
theorem pushEnv_spec :
    (∀ fuel σ envA vars values lv lw,
      listLenF fuel σ vars = .ok lv → listLenF fuel σ values = .ok lw → lv ≠ lw →
      pushEnvF fuel σ envA vars values =
        .error (.err "env: mismatched number of vars and values")) ∧
    (∀ fuel σ envA vars values l,
      listLenF fuel σ vars = .ok l → listLenF fuel σ values = .ok l →
      pushEnvF fuel σ envA vars values ≠
        .error (.err "env: mismatched number of vars and values")) ∧
    (∀ σ a l t fuel, Chain σ a l t → l.length + 1 ≤ fuel →
      listLenF fuel σ a =
        .ok (if l = [] then 0 else l.length + (if t = nilA then 0 else 1))) ∧
    (∀ fuel σ envA vars values lv lw,
      Chain σ vars lv nilA → Chain σ values lw nilA → lv.length = lw.length →
      getCell σ nilA = some .nil → lv.length + 2 ≤ fuel →
      ∃ nv σ1, pushEnvGo fuel σ vars values nilA = .ok (nv, σ1) ∧
        pushEnvF fuel σ envA vars values =
          .ok (σ1.size, ⟨(σ1.size, .envObj nv envA) :: σ1.heap, σ1.size + 1, σ1.syms⟩) ∧
        σ.size ≤ σ1.size ∧
        BindChain σ1 nv (List.zip (lv.map Prod.snd) (lw.map Prod.snd)).reverse) := by
  refine ⟨?_, ?_, listLenF_chain, pushEnvF_proper⟩
  · intro fuel σ envA vars values lv lw h1 h2 hne
    simp only [pushEnvF, h1, h2]
    rw [if_pos hne]
  · intro fuel σ envA vars values l h1 h2 hcontra
    simp only [pushEnvF, h1, h2] at hcontra
    rw [if_neg (by simp)] at hcontra
    match hr : pushEnvGo fuel σ vars values nilA with
    | .error e =>
      rw [hr] at hcontra
      simp only [Except.error.injEq] at hcontra
      exact pushEnvGo_no_mismatch fuel σ vars values nilA (by rw [hr, hcontra])
    | .ok (nv, σ1) =>
      rw [hr] at hcontra
      simp at hcontra

/-- A store holding the parameter list (x y) at address 8, the argument list
(1 2) at address 10, and a dotted list (1 . 2) at address 12. -/
def stPush : LState :=
  ⟨(12, .pair 6 7) :: (11, .pair 7 1) :: (10, .pair 6 11) :: (9, .pair 5 1) ::
    (8, .pair 4 9) :: (7, .num 2) :: (6, .num 1) :: (5, .sym "y") :: (4, .sym "x") ::
    bootS.heap, 13, 3⟩

/-- The store after pushEnv's binding loop over stPush: two acons allocations
(binding pairs 13 and 15, spine pairs 14 and 16). -/
def stPushOut : LState :=
  ⟨(16, .pair 15 14) :: (15, .pair 5 7) :: (14, .pair 13 1) :: (13, .pair 4 6) ::
    stPush.heap, 17, 3⟩

set_option maxRecDepth 100000 in
/-- Witness for pushEnv_spec: binding (x y) to (1 2) yields a fresh child
Environment over parent 3 whose vars chain binds y (last parameter) first;
the dotted list (1 . 2) has listLen 2; binding (x y) to nil raises the
arity-mismatch error. -/
theorem pushEnv_spec_witness :
    pushEnvF 20 stPush 3 8 10 =
      .ok (17, ⟨(17, .envObj 16 3) :: stPushOut.heap, 18, 3⟩) ∧
    BindChain stPushOut 16 [(5, 7), (4, 6)] ∧
    listLenF 20 stPush 12 = .ok 2 ∧
    pushEnvF 20 stPush 3 8 1 = .error (.err "env: mismatched number of vars and values") := by
  have hv : Chain stPush 8 [(8, 4), (9, 5)] 1 :=
    Chain.step 8 4 9 [(9, 5)] 1 (by decide)
      (Chain.step 9 5 1 [] 1 (by decide) (Chain.stop 1 .nil (by decide) (by decide)))
  have hw : Chain stPush 10 [(10, 6), (11, 7)] 1 :=
    Chain.step 10 6 11 [(11, 7)] 1 (by decide)
      (Chain.step 11 7 1 [] 1 (by decide) (Chain.stop 1 .nil (by decide) (by decide)))
  obtain ⟨nv, σ1, hrun, hpf, hsz, hbc⟩ :=
    pushEnv_spec.2.2.2 20 stPush 3 8 10 [(8, 4), (9, 5)] [(10, 6), (11, 7)] hv hw rfl
      (by decide) (by decide)
  have hr : pushEnvGo 20 stPush 8 10 nilA = .ok (16, stPushOut) := by decide
  rw [hrun] at hr
  simp only [Except.ok.injEq, Prod.mk.injEq] at hr
  obtain ⟨h16, hσ⟩ := hr
  subst h16
  subst hσ
  refine ⟨hpf, hbc, ?_, ?_⟩
  · have h3 := pushEnv_spec.2.2.1 stPush 12 [(12, 6)] 7 20
      (Chain.step 12 6 7 [] 7 (by decide) (Chain.stop 7 (.num 2) (by decide) (by decide)))
      (by decide)
    simpa using h3
  · exact pushEnv_spec.1 20 stPush 3 8 1 2 0 (by decide) (by decide) (by decide)

/-- Last-occurrence association lookup: scanning forward, a later binding of
the key overrides an earlier one. -/
def lastFind : List (Nat × Nat) → Nat → Option Nat
  | [], _ => none
  | (k, v) :: l, s =>
    match lastFind l s with
    | some w => some w
    | none => if k = s then some v else none

/-- assocFind distributes over append, preferring the front list. -/
theorem assocFind_append : ∀ (l1 l2 : List (Nat × Nat)) s, assocFind (l1 ++ l2) s =
    match assocFind l1 s with | some v => some v | none => assocFind l2 s := by
  intro l1
  induction l1 with
  | nil => intro l2 s; rfl
  | cons p l1 ih =>
    intro l2 s
    obtain ⟨k, v⟩ := p
    by_cases hk : k = s
    · subst hk
      simp [assocFind]
    · simp [assocFind, hk, ih]

/-- First-match lookup on the reversed list is last-match lookup on the
original list. -/
theorem assocFind_reverse : ∀ (l : List (Nat × Nat)) s,
    assocFind l.reverse s = lastFind l s := by
  intro l
  induction l with
  | nil => intro s; rfl
  | cons p l ih =>
    intro s
    obtain ⟨k, v⟩ := p
    simp only [List.reverse_cons, assocFind_append, lastFind, ← ih]
    match h : assocFind l.reverse s with
    | some w => rfl
    | none => rfl

/-- scanVars walks a vars chain head-first: it reports the first binding pair
whose symbol matches (reference equality), none when no binding matches. -/
theorem scanVars_chain : ∀ σ a l symA, BindChain σ a l → ∀ fuel, l.length + 1 ≤ fuel →
    (assocFind l symA = none → scanVars fuel σ a symA = .ok none) ∧
    (∀ v, assocFind l symA = some v → ∃ b, scanVars fuel σ a symA = .ok (some b) ∧
      getCell σ b = some (.pair symA v)) := by
  intro σ a l symA hb
  induction hb with
  | nil hg =>
    intro fuel hf
    obtain ⟨f, rfl⟩ : ∃ f, fuel = f + 1 := ⟨fuel - 1, by omega⟩
    constructor
    · intro hn
      simp only [scanVars, deref, hg]
    · intro v hv
      simp [assocFind] at hv
  | cons hg hbind hrest ih =>
    rename_i a2 b rest s v l2
    intro fuel hf
    obtain ⟨f, rfl⟩ : ∃ f, fuel = f + 1 := ⟨fuel - 1, by omega⟩
    simp only [scanVars, deref, hg, hbind]
    by_cases hs : s = symA
    · subst hs
      constructor
      · intro hn
        simp [assocFind] at hn
      · intro w hw
        simp [assocFind] at hw
        rw [if_pos rfl]
        refine ⟨b, rfl, ?_⟩
        rw [← hw]
        exact hbind
    · rw [if_neg hs]
      constructor
      · intro hn
        simp only [assocFind, if_neg hs] at hn
        exact (ih f (by simp only [List.length_cons] at hf; omega)).1 hn
      · intro w hw
        simp only [assocFind, if_neg hs] at hw
        exact (ih f (by simp only [List.length_cons] at hf; omega)).2 w hw

/-- C10: pushEnv binds every occurrence of a duplicated parameter pairwise to
its positional argument, prepending each binding, so the new frame's vars
chain lists the last parameter's binding first; find scans that chain
head-first, so a lookup returns the argument bound to the last occurrence
(first-match lookup on the prepend-reversed chain is last-match lookup on
the parameter order); concretely ((fn (x x) x) 1 2) evaluates to 2. -/
theorem duplicate_params_last_wins :
    (∀ σ envA vars up l symA v fuel, deref σ envA = .ok (.envObj vars up) →
      BindChain σ vars l → l.length + 2 ≤ fuel → assocFind l symA = some v →
      findF fuel σ envA symA = .ok (some v)) ∧
    (∀ (l : List (Nat × Nat)) s, assocFind l.reverse s = lastFind l s) ∧
    (∀ fuel σ envA vars values lv lw,
      Chain σ vars lv nilA → Chain σ values lw nilA → lv.length = lw.length →
      getCell σ nilA = some .nil → lv.length + 2 ≤ fuel →
      ∃ nv σ1, pushEnvF fuel σ envA vars values =
          .ok (σ1.size, ⟨(σ1.size, .envObj nv envA) :: σ1.heap, σ1.size + 1, σ1.syms⟩) ∧
        BindChain σ1 nv (List.zip (lv.map Prod.snd) (lw.map Prod.snd)).reverse) ∧
    progVal 100 "((fn (x x) x) 1 2)" = some (.numV 2) := by
  refine ⟨?_, assocFind_reverse, ?_, ?_⟩
  · intro σ envA vars up l symA v fuel henv hbc hf hfind
    obtain ⟨f, rfl⟩ : ∃ f, fuel = f + 1 := ⟨fuel - 1, by omega⟩
    obtain ⟨b, hscan, hcell⟩ := (scanVars_chain σ vars l symA hbc f (by omega)).2 v hfind
    simp only [findF, findGo, henv, hscan]
    simp only [deref, hcell]
  · intro fuel σ envA vars values lv lw hcv hcw hlen hnil hf
    obtain ⟨nv, σ1, hrun, hpf, hsz, hbc⟩ :=
      pushEnvF_proper fuel σ envA vars values lv lw hcv hcw hlen hnil hf
    exact ⟨nv, σ1, hpf, hbc⟩
  · decide

/-- A store holding the frame pushEnv builds for ((fn (x x) x) 1 2): the
duplicated parameter x (address 4) is bound twice, first to 1 (binding pair
13, deeper in the chain) and then to 2 (binding pair 15, prepended on top);
the frame record is address 17. -/
def stDup : LState :=
  ⟨(17, .envObj 16 3) :: (16, .pair 15 14) :: (15, .pair 4 7) :: (14, .pair 13 1) ::
    (13, .pair 4 6) :: (7, .num 2) :: (6, .num 1) :: (4, .sym "x") :: bootS.heap, 18, 3⟩

set_option maxRecDepth 100000 in
/-- Witness for duplicate_params_last_wins: looking x up in the duplicate
frame returns address 7 (the number 2 bound to the last occurrence), and the
reversed-chain lookup agrees with last-match lookup on the parameter order. -/
theorem duplicate_params_last_wins_witness :
    findF 10 stDup 17 4 = .ok (some 7) ∧
    assocFind [(4, 6), (4, 7)].reverse 4 = lastFind [(4, 6), (4, 7)] 4 := by
  constructor
  · exact duplicate_params_last_wins.1 stDup 17 16 3 [(4, 7), (4, 6)] 4 7 10 (by decide)
      (BindChain.cons (show getCell stDup 16 = some (.pair 15 14) from by decide)
        (show getCell stDup 15 = some (.pair 4 7) from by decide)
        (BindChain.cons (show getCell stDup 14 = some (.pair 13 1) from by decide)
          (show getCell stDup 13 = some (.pair 4 6) from by decide)
          (BindChain.nil (show getCell stDup 1 = some .nil from by decide))))
      (by decide) (by decide)
  · exact duplicate_params_last_wins.2.1 [(4, 6), (4, 7)] 4

/-- A store that only grew keeps a stored cell readable. -/
theorem getCell_grow {σ : LState} {a : Nat} {h : HObj} {k : Nat} (hg : getCell σ a = some h) :
    getCell ⟨σ.heap, σ.size + k, σ.syms⟩ a = some h := by
  have hlt := getCell_lt hg
  simp only [getCell] at hg ⊢
  rw [if_pos hlt] at hg
  rw [if_pos (by omega)]
  exact hg

/-! Store-effect bookkeeping for the evaluator's frame property.  S collects
the spine pairs and B the binding pairs of every environment vars chain
(in the source both are always freshly allocated by acons); the evaluator's
only writes to previously existing cells are binding-pair stored values
(setVariable) and Environment records (addVariable). -/

/-- The vars chain discipline: walking a vars list, every spine cell is an
S-cell holding (bindingPair . rest) with the binding pair a B-cell holding a
Pair, until a non-Pair cell ends the chain. -/
inductive WFChain (σ : LState) (S B : Nat → Prop) : Nat → Prop where
  | stop : ∀ a h, getCell σ a = some h → h.tag ≠ .pairT → WFChain σ S B a
  | node : ∀ a b rest c w, S a → B b → getCell σ a = some (.pair b rest) →
      getCell σ b = some (.pair c w) → WFChain σ S B rest → WFChain σ S B a

/-- Environment well-formedness: S and B are disjoint sets of allocated
addresses, the nil constant's cell is intact, and every Environment record's
vars satisfies the chain discipline. -/
def EnvWF (σ : LState) (S B : Nat → Prop) : Prop :=
  (∀ x, S x ∨ B x → x < σ.size) ∧
  (∀ x, S x → ¬ B x) ∧
  getCell σ nilA = some .nil ∧
  (∀ e vars up, getCell σ e = some (.envObj vars up) → WFChain σ S B vars)

/-- Bookkeeping growth: the spine and binding sets only gain freshly
allocated members. -/
def Grows (σ : LState) (S B S' B' : Nat → Prop) : Prop :=
  (∀ x, S x → S' x) ∧ (∀ x, B x → B' x) ∧
  (∀ x, (S' x ∧ ¬ S x) ∨ (B' x ∧ ¬ B x) → σ.size ≤ x)

/-- The store effect of an evaluation step: the store only grows, and every
previously stored cell that is neither a binding pair (whose stored value
setVariable may overwrite) nor an Environment record (which addVariable
updates) keeps its content. -/
def Step (σ : LState) (B : Nat → Prop) (σ' : LState) : Prop :=
  σ.size ≤ σ'.size ∧
  ∀ a h, getCell σ a = some h → ¬ B a → h.tag ≠ .envT → getCell σ' a = some h

/-- The full frame conclusion of one evaluation step. -/
def Frames (σ : LState) (S B : Nat → Prop) (σ' : LState) (S' B' : Nat → Prop) : Prop :=
  Grows σ S B S' B' ∧ EnvWF σ' S' B' ∧ Step σ B σ'

/-- An element evaluator with the evaluator's frame property. -/
def FrameEv (ev : EvF) : Prop :=
  ∀ e σ v σ', ev e σ = .ok (v, σ') → ∀ S B, EnvWF σ S B →
    ∃ S' B', Frames σ S B σ' S' B'

/-- Sequential left-to-right element evaluation: the first element is
evaluated in the given store, and each later element in the store the
previous element's evaluation produced, changed only at or above the base
bound (the caller's own fresh allocations and splices). -/
inductive SeqEvalFrom (ev : EvF) (base : Nat) : LState → List Nat → List Nat → Prop where
  | nil : ∀ σ, SeqEvalFrom ev base σ [] []
  | cons : ∀ σ c v σ1 σ2 cs vs, ev c σ = .ok (v, σ1) →
      σ1.size ≤ σ2.size →
      (∀ a, a < base → getCell σ2 a = getCell σ1 a) →
      SeqEvalFrom ev base σ2 cs vs →
      SeqEvalFrom ev base σ (c :: cs) (v :: vs)

theorem Grows_refl : ∀ σ (S B : Nat → Prop), Grows σ S B S B :=
  fun σ S B => ⟨fun _ h => h, fun _ h => h, fun x hx => by
    rcases hx with ⟨h1, h2⟩ | ⟨h1, h2⟩ <;> exact absurd h1 h2⟩

theorem not_in_grown {σ : LState} {S B S' B' : Nat → Prop} {x : Nat}
    (hg : Grows σ S B S' B') (hlt : x < σ.size) (hs : ¬ S x) (hb : ¬ B x) :
    ¬ S' x ∧ ¬ B' x := by
  constructor
  · intro hx
    have := hg.2.2 x (Or.inl ⟨hx, hs⟩)
    omega
  · intro hx
    have := hg.2.2 x (Or.inr ⟨hx, hb⟩)
    omega

theorem Grows_trans {σ σ1 : LState} {S B S1 B1 S2 B2 : Nat → Prop}
    (h1 : Grows σ S B S1 B1) (h2 : Grows σ1 S1 B1 S2 B2) (hsz : σ.size ≤ σ1.size) :
    Grows σ S B S2 B2 := by
  refine ⟨fun x hx => h2.1 x (h1.1 x hx), fun x hx => h2.2.1 x (h1.2.1 x hx), ?_⟩
  intro x hx
  rcases hx with ⟨hx1, hx2⟩ | ⟨hx1, hx2⟩
  · by_cases hm : S1 x
    · exact h1.2.2 x (Or.inl ⟨hm, hx2⟩)
    · have := h2.2.2 x (Or.inl ⟨hx1, hm⟩)
      omega
  · by_cases hm : B1 x
    · exact h1.2.2 x (Or.inr ⟨hm, hx2⟩)
    · have := h2.2.2 x (Or.inr ⟨hx1, hm⟩)
      omega

theorem Step_refl : ∀ σ (B : Nat → Prop), Step σ B σ :=
  fun _ _ => ⟨le_refl _, fun _ _ hg _ _ => hg⟩

theorem Frames_refl {σ : LState} {S B : Nat → Prop} (h : EnvWF σ S B) :
    Frames σ S B σ S B := ⟨Grows_refl σ S B, h, Step_refl σ B⟩

theorem Frames_trans {σ σ1 σ2 : LState} {S B S1 B1 S2 B2 : Nat → Prop}
    (h1 : Frames σ S B σ1 S1 B1) (h2 : Frames σ1 S1 B1 σ2 S2 B2) :
    Frames σ S B σ2 S2 B2 := by
  refine ⟨Grows_trans h1.1 h2.1 h1.2.2.1, h2.2.1, le_trans h1.2.2.1 h2.2.2.1, ?_⟩
  intro a h hga hnb htag
  have hlt : a < σ.size := getCell_lt hga
  have h1a := h1.2.2.2 a h hga hnb htag
  refine h2.2.2.2 a h h1a ?_ htag
  intro hb1
  by_cases hm : B a
  · exact hnb hm
  · have := h1.1.2.2 a (Or.inr ⟨hb1, hm⟩)
    omega

/-- A chain survives any store change that preserves existing cells. -/
theorem WFChain_mono_cells {σ σ' : LState} {S B : Nat → Prop}
    (hm : ∀ x hx, getCell σ x = some hx → getCell σ' x = some hx) :
    ∀ {a : Nat}, WFChain σ S B a → WFChain σ' S B a := by
  intro a hc
  induction hc with
  | stop a h hg ht => exact WFChain.stop a h (hm a h hg) ht
  | node a b rest c w hs hb hga hgb hrest ih =>
    exact WFChain.node a b rest c w hs hb (hm _ _ hga) (hm _ _ hgb) ih

/-- A chain survives growing the bookkeeping sets. -/
theorem WFChain_sub {σ : LState} {S B S' B' : Nat → Prop}
    (hs : ∀ x, S x → S' x) (hb : ∀ x, B x → B' x) :
    ∀ {a : Nat}, WFChain σ S B a → WFChain σ S' B' a := by
  intro a hc
  induction hc with
  | stop a h hg ht => exact WFChain.stop a h hg ht
  | node a b rest c w hsx hbx hga hgb hrest ih =>
    exact WFChain.node a b rest c w (hs a hsx) (hb b hbx) hga hgb ih

/-- A chain survives overwriting a Pair cell that is outside both sets. -/
theorem WFChain_write_out {σ σ' : LState} {S B : Nat → Prop} {w0 c0 d0 : Nat}
    (hws : ¬ S w0) (hwb : ¬ B w0) (hold : getCell σ w0 = some (.pair c0 d0))
    (hm : ∀ x hx, x ≠ w0 → getCell σ x = some hx → getCell σ' x = some hx) :
    ∀ {a : Nat}, WFChain σ S B a → WFChain σ' S B a := by
  intro a hc
  induction hc with
  | stop a h hg ht =>
    by_cases haw : a = w0
    · subst haw
      rw [hold] at hg
      simp only [Option.some.injEq] at hg
      subst hg
      exact absurd rfl ht
    · exact WFChain.stop a h (hm a h haw hg) ht
  | node a b rest c w hs hb hga hgb hrest ih =>
    have ha : a ≠ w0 := fun he => hws (he ▸ hs)
    have hbne : b ≠ w0 := fun he => hwb (he ▸ hb)
    exact WFChain.node a b rest c w hs hb (hm _ _ ha hga) (hm _ _ hbne hgb) ih

/-- A chain survives overwriting a binding pair's stored value (the cell
stays a Pair). -/
theorem WFChain_write_bind {σ σ' : LState} {S B : Nat → Prop} {wb c0 d0 c1 d1 : Nat}
    (hwb : B wb) (hws : ¬ S wb) (hold : getCell σ wb = some (.pair c0 d0))
    (hnew : getCell σ' wb = some (.pair c1 d1))
    (hm : ∀ x hx, x ≠ wb → getCell σ x = some hx → getCell σ' x = some hx) :
    ∀ {a : Nat}, WFChain σ S B a → WFChain σ' S B a := by
  intro a hc
  induction hc with
  | stop a h hg ht =>
    by_cases haw : a = wb
    · subst haw
      rw [hold] at hg
      simp only [Option.some.injEq] at hg
      subst hg
      exact absurd rfl ht
    · exact WFChain.stop a h (hm a h haw hg) ht
  | node a b rest c w hs hb hga hgb hrest ih =>
    have ha : a ≠ wb := fun he => hws (he ▸ hs)
    by_cases hbw : b = wb
    · subst hbw
      exact WFChain.node a b rest c1 d1 hs hb (hm _ _ ha hga) hnew ih
    · exact WFChain.node a b rest c w hs hb (hm _ _ ha hga) (hm _ _ hbw hgb) ih

/-- A chain survives rewriting an Environment record (the cell stays an
Environment record). -/
theorem WFChain_write_env {σ σ' : LState} {S B : Nat → Prop} {we vs0 up0 vs1 up1 : Nat}
    (hold : getCell σ we = some (.envObj vs0 up0))
    (hnew : getCell σ' we = some (.envObj vs1 up1))
    (hm : ∀ x hx, x ≠ we → getCell σ x = some hx → getCell σ' x = some hx) :
    ∀ {a : Nat}, WFChain σ S B a → WFChain σ' S B a := by
  intro a hc
  induction hc with
  | stop a h hg ht =>
    by_cases haw : a = we
    · subst haw
      exact WFChain.stop a _ hnew (by simp [HObj.tag])
    · exact WFChain.stop a h (hm a h haw hg) ht
  | node a b rest c w hs hb hga hgb hrest ih =>
    have ha : a ≠ we := by
      intro he
      subst he
      rw [hold] at hga
      simp at hga
    have hbne : b ≠ we := by
      intro he
      subst he
      rw [hold] at hgb
      simp at hgb
    exact WFChain.node a b rest c w hs hb (hm _ _ ha hga) (hm _ _ hbne hgb) ih

/-- Allocation case split: a readable cell in the grown store is the fresh
cell or an old one. -/
theorem getCell_alloc_cases {σ : LState} {h0 hx : HObj} {x : Nat}
    (hg : getCell (alloc σ h0).2 x = some hx) :
    (x = σ.size ∧ hx = h0) ∨ getCell σ x = some hx := by
  simp only [alloc, getCell, hLookup] at hg
  by_cases hxs : x = σ.size
  · subst hxs
    rw [if_pos (by omega), if_pos rfl] at hg
    simp only [Option.some.injEq] at hg
    exact Or.inl ⟨rfl, hg.symm⟩
  · split at hg
    · next hlt =>
      rw [if_neg (fun hq => hxs hq.symm)] at hg
      simp only [getCell]
      rw [if_pos (by omega)]
      exact Or.inr hg
    · simp at hg

/-- A journal write leaves every other address unchanged. -/
theorem getCell_write_ne {σ : LState} {w b : Nat} {h : HObj} (hne : b ≠ w) :
    getCell ⟨(w, h) :: σ.heap, σ.size, σ.syms⟩ b = getCell σ b :=
  getCell_cons_ne hne

/-- Allocating a non-Environment cell preserves well-formedness and is a
frame step. -/
theorem Frames_alloc {σ : LState} {S B : Nat → Prop} {h0 : HObj}
    (hwf : EnvWF σ S B) (ht : h0.tag ≠ .envT) :
    Frames σ S B (alloc σ h0).2 S B := by
  refine ⟨Grows_refl σ S B, ⟨?_, hwf.2.1, getCell_alloc hwf.2.2.1, ?_⟩, ?_, ?_⟩
  · intro x hx
    have := hwf.1 x hx
    have hsz : (alloc σ h0).2.size = σ.size + 1 := rfl
    omega
  · intro e vars up hg
    rcases getCell_alloc_cases hg with ⟨he, hh⟩ | hold
    · subst hh
      exact absurd rfl ht
    · exact WFChain_mono_cells (fun x hx hgx => getCell_alloc hgx) (hwf.2.2.2 e vars up hold)
  · have hsz : (alloc σ h0).2.size = σ.size + 1 := rfl
    omega
  · intro a h hga _ _
    exact getCell_alloc hga

/-- Allocating an Environment record whose vars already satisfies the chain
discipline preserves well-formedness and is a frame step. -/
theorem Frames_alloc_env {σ : LState} {S B : Nat → Prop} {vs u : Nat}
    (hwf : EnvWF σ S B) (hch : WFChain σ S B vs) :
    Frames σ S B (alloc σ (.envObj vs u)).2 S B := by
  refine ⟨Grows_refl σ S B, ⟨?_, hwf.2.1, getCell_alloc hwf.2.2.1, ?_⟩, ?_, ?_⟩
  · intro x hx
    have := hwf.1 x hx
    have hsz : (alloc σ (.envObj vs u)).2.size = σ.size + 1 := rfl
    omega
  · intro e vars up hg
    rcases getCell_alloc_cases hg with ⟨he, hh⟩ | hold
    · cases hh
      exact WFChain_mono_cells (fun x hx hgx => getCell_alloc hgx) hch
    · exact WFChain_mono_cells (fun x hx hgx => getCell_alloc hgx) (hwf.2.2.2 e vars up hold)
  · have hsz : (alloc σ (.envObj vs u)).2.size = σ.size + 1 := rfl
    omega
  · intro a h hga _ _
    exact getCell_alloc hga

/-- The symbols field plays no role in well-formedness. -/
theorem EnvWF_syms {hp : List (Nat × HObj)} {sz y1 y2 : Nat} {S B : Nat → Prop}
    (h : EnvWF ⟨hp, sz, y1⟩ S B) : EnvWF ⟨hp, sz, y2⟩ S B := by
  refine ⟨h.1, h.2.1, h.2.2.1, ?_⟩
  intro e vars up hg
  exact WFChain_mono_cells
    (fun x hx (hgx : getCell ⟨hp, sz, y1⟩ x = some hx) =>
      show getCell ⟨hp, sz, y2⟩ x = some hx from hgx)
    (h.2.2.2 e vars up hg)

/-- intern leaves existing cells alone (it at most allocates a fresh Symbol
and a fresh symbols-list spine pair). -/
theorem intern_frame {fuel : Nat} {name : String} {σ σ1 : LState} {sa : Nat}
    {S B : Nat → Prop} (h : intern fuel name σ = .ok (sa, σ1)) (hwf : EnvWF σ S B) :
    Frames σ S B σ1 S B := by
  simp only [intern] at h
  match hgo : internGo fuel σ σ.syms name with
  | .error e => rw [hgo] at h; exact absurd h (by simp)
  | .ok (some c) =>
    rw [hgo] at h
    simp only [Except.ok.injEq, Prod.mk.injEq] at h
    rw [← h.2]
    exact Frames_refl hwf
  | .ok none =>
    rw [hgo] at h
    simp only [alloc, Except.ok.injEq, Prod.mk.injEq] at h
    rw [← h.2]
    have h1 : Frames σ S B (alloc σ (.sym name)).2 S B :=
      Frames_alloc hwf (show (HObj.sym name).tag ≠ .envT from by simp [HObj.tag])
    have h2 : Frames (alloc σ (.sym name)).2 S B
        (alloc (alloc σ (.sym name)).2 (.pair σ.size σ.syms)).2 S B :=
      Frames_alloc h1.2.1
        (show (HObj.pair σ.size σ.syms).tag ≠ .envT from by simp [HObj.tag])
    have h3 := Frames_trans h1 h2
    exact ⟨h3.1, EnvWF_syms h3.2.1, h3.2.2⟩

/-- Reading an old address through a grown journal. -/
theorem getCell_ungrow {σ : LState} {e : Nat} {hx : HObj} (k : Nat) (hlt : e < σ.size)
    (hg : getCell ⟨σ.heap, σ.size + k, σ.syms⟩ e = some hx) : getCell σ e = some hx := by
  simp only [getCell] at hg ⊢
  rw [if_pos (by omega)] at hg
  rw [if_pos hlt]
  exact hg

/-- scanVars only ever reports a binding pair of the chain it walks. -/
theorem scanVars_B : ∀ fuel σ vars symA bindA S B,
    scanVars fuel σ vars symA = .ok (some bindA) → WFChain σ S B vars →
    B bindA ∧ ∃ c w, getCell σ bindA = some (.pair c w) := by
  intro fuel
  induction fuel with
  | zero => intro σ vars symA bindA S B h hch; exact absurd h (by simp [scanVars])
  | succ f ih =>
    intro σ vars symA bindA S B h hch
    simp only [scanVars] at h
    cases hch with
    | stop a h2 hg ht =>
      cases h2 with
      | pair c d => exact absurd rfl ht
      | nil =>
        rw [show deref σ vars = .ok HObj.nil from by unfold deref; rw [hg]] at h
        exact absurd h (by simp)
      | sym n =>
        rw [show deref σ vars = .ok (.sym n) from by unfold deref; rw [hg]] at h
        exact absurd h (by simp)
      | num v =>
        rw [show deref σ vars = .ok (.num v) from by unfold deref; rw [hg]] at h
        exact absurd h (by simp)
      | str s =>
        rw [show deref σ vars = .ok (.str s) from by unfold deref; rw [hg]] at h
        exact absurd h (by simp)
      | envObj v u =>
        rw [show deref σ vars = .ok (.envObj v u) from by unfold deref; rw [hg]] at h
        exact absurd h (by simp)
      | natfn p =>
        rw [show deref σ vars = .ok (.natfn p) from by unfold deref; rw [hg]] at h
        exact absurd h (by simp)
      | fnObj m p2 b2 e2 =>
        rw [show deref σ vars = .ok (.fnObj m p2 b2 e2) from by unfold deref; rw [hg]] at h
        exact absurd h (by simp)
    | node a b rest c w hs hb hga hgb hrest =>
      rw [show deref σ vars = .ok (.pair b rest) from by unfold deref; rw [hga]] at h
      simp only [] at h
      rw [show deref σ b = .ok (.pair c w) from by unfold deref; rw [hgb]] at h
      simp only [] at h
      by_cases hc : c = symA
      · rw [if_pos hc] at h
        simp only [Except.ok.injEq, Option.some.injEq] at h
        subst h
        exact ⟨hb, c, w, hgb⟩
      · rw [if_neg hc] at h
        exact ih σ rest symA bindA S B h hrest

/-- The setVariable walk is a frame step: it either rewrites one binding
pair's stored value (a B-cell) or does nothing. -/
theorem setVarGo_frame : ∀ fuel σ cenv symA valA r σ1 S B,
    setVarGo fuel σ cenv symA valA = .ok (r, σ1) → EnvWF σ S B →
    Frames σ S B σ1 S B ∧ (r = false → σ1 = σ) := by
  intro fuel
  induction fuel with
  | zero => intro σ cenv symA valA r σ1 S B h hwf; exact absurd h (by simp [setVarGo])
  | succ f ih =>
    intro σ cenv symA valA r σ1 S B h hwf
    simp only [setVarGo] at h
    match hce : deref σ cenv with
    | .error e => rw [hce] at h; exact absurd h (by simp)
    | .ok (.envObj vars up) =>
      rw [hce] at h
      simp only [] at h
      match hsc : scanVars f σ vars symA with
      | .error e => rw [hsc] at h; exact absurd h (by simp)
      | .ok none =>
        rw [hsc] at h
        simp only [] at h
        exact ih σ up symA valA r σ1 S B h hwf
      | .ok (some bindA) =>
        rw [hsc] at h
        simp only [] at h
        obtain ⟨hB, c0, w0, hbind⟩ :=
          scanVars_B f σ vars symA bindA S B hsc (hwf.2.2.2 cenv vars up (deref_ok hce))
        have hblt : bindA < σ.size := getCell_lt hbind
        rw [show deref σ bindA = .ok (.pair c0 w0) from by unfold deref; rw [hbind]] at h
        simp only [writeCell] at h
        rw [if_pos hblt] at h
        simp only [Except.ok.injEq, Prod.mk.injEq] at h
        obtain ⟨hr, hσ⟩ := h
        subst hr
        rw [← hσ]
        have hnbS : ¬ S bindA := fun hs => hwf.2.1 bindA hs hB
        have hmw : ∀ x hx, x ≠ bindA → getCell σ x = some hx →
            getCell (⟨(bindA, .pair c0 valA) :: σ.heap, σ.size, σ.syms⟩ : LState) x =
              some hx := fun x hx hne hgx => by
          rw [getCell_write_ne hne]
          exact hgx
        have hnew : getCell (⟨(bindA, .pair c0 valA) :: σ.heap, σ.size, σ.syms⟩ : LState)
            bindA = some (.pair c0 valA) := getCell_cons_self hblt
        refine ⟨⟨Grows_refl σ S B, ⟨hwf.1, hwf.2.1, ?_, ?_⟩, le_refl _, ?_⟩, by simp⟩
        · have hne : nilA ≠ bindA := by
            intro he
            rw [← he] at hbind
            rw [hwf.2.2.1] at hbind
            simp at hbind
          rw [getCell_write_ne hne]
          exact hwf.2.2.1
        · intro e2 vars2 up2 hg
          by_cases he : e2 = bindA
          · subst he
            rw [hnew] at hg
            simp at hg
          · rw [getCell_write_ne he] at hg
            exact WFChain_write_bind hB hnbS hbind hnew hmw (hwf.2.2.2 e2 vars2 up2 hg)
        · intro a h2 hga hnb htag
          have hne : a ≠ bindA := fun he => hnb (he ▸ hB)
          rw [getCell_write_ne hne]
          exact hga
    | .ok .nil =>
      rw [hce] at h
      simp only [Except.ok.injEq, Prod.mk.injEq] at h
      rw [← h.2]
      exact ⟨Frames_refl hwf, fun _ => rfl⟩
    | .ok (.sym n) =>
      rw [hce] at h
      simp only [Except.ok.injEq, Prod.mk.injEq] at h
      rw [← h.2]
      exact ⟨Frames_refl hwf, fun _ => rfl⟩
    | .ok (.num v) =>
      rw [hce] at h
      simp only [Except.ok.injEq, Prod.mk.injEq] at h
      rw [← h.2]
      exact ⟨Frames_refl hwf, fun _ => rfl⟩
    | .ok (.str s) =>
      rw [hce] at h
      simp only [Except.ok.injEq, Prod.mk.injEq] at h
      rw [← h.2]
      exact ⟨Frames_refl hwf, fun _ => rfl⟩
    | .ok (.pair x y) =>
      rw [hce] at h
      simp only [Except.ok.injEq, Prod.mk.injEq] at h
      rw [← h.2]
      exact ⟨Frames_refl hwf, fun _ => rfl⟩
    | .ok (.natfn p) =>
      rw [hce] at h
      simp only [Except.ok.injEq, Prod.mk.injEq] at h
      rw [← h.2]
      exact ⟨Frames_refl hwf, fun _ => rfl⟩
    | .ok (.fnObj m p2 b2 e2) =>
      rw [hce] at h
      simp only [Except.ok.injEq, Prod.mk.injEq] at h
      rw [← h.2]
      exact ⟨Frames_refl hwf, fun _ => rfl⟩

/-- addVariable is a frame step: it allocates a fresh binding pair and a
fresh spine pair and rewrites only the Environment record, so the new chain
extends the bookkeeping sets with exactly the two fresh cells. -/
theorem addVariable_frame {σ σ' : LState} {envA symA valA : Nat} {S B : Nat → Prop}
    (h : addVariable σ envA symA valA = .ok σ') (hwf : EnvWF σ S B) :
    Frames σ S B σ' (fun x => S x ∨ x = σ.size + 1) (fun x => B x ∨ x = σ.size) := by
  simp only [addVariable] at h
  match hce : deref σ envA with
  | .error e => rw [hce] at h; exact absurd h (by simp)
  | .ok .nil => rw [hce] at h; exact absurd h (by simp)
  | .ok (.sym n) => rw [hce] at h; exact absurd h (by simp)
  | .ok (.num v) => rw [hce] at h; exact absurd h (by simp)
  | .ok (.str s) => rw [hce] at h; exact absurd h (by simp)
  | .ok (.pair x y) => rw [hce] at h; exact absurd h (by simp)
  | .ok (.natfn p) => rw [hce] at h; exact absurd h (by simp)
  | .ok (.fnObj m p2 b2 e2) => rw [hce] at h; exact absurd h (by simp)
  | .ok (.envObj vars up) =>
    rw [hce] at h
    simp only [acons, alloc, writeCell] at h
    have hea : envA < σ.size := getCell_lt (deref_ok hce)
    rw [if_pos (by omega)] at h
    simp only [Except.ok.injEq] at h
    rw [← h]
    show Frames σ S B
      (⟨(envA, .envObj (σ.size + 1) up) :: (σ.size + 1, .pair σ.size vars) ::
        (σ.size, .pair symA valA) :: σ.heap, σ.size + 2, σ.syms⟩ : LState)
      (fun x => S x ∨ x = σ.size + 1) (fun x => B x ∨ x = σ.size)
    have gA : getCell (⟨(envA, .envObj (σ.size + 1) up) :: (σ.size + 1, .pair σ.size vars) ::
        (σ.size, .pair symA valA) :: σ.heap, σ.size + 2, σ.syms⟩ : LState) envA =
        some (.envObj (σ.size + 1) up) := getCell_cons_self (by omega)
    have gS : getCell (⟨(envA, .envObj (σ.size + 1) up) :: (σ.size + 1, .pair σ.size vars) ::
        (σ.size, .pair symA valA) :: σ.heap, σ.size + 2, σ.syms⟩ : LState) (σ.size + 1) =
        some (.pair σ.size vars) := by
      rw [getCell_cons_ne (by omega)]
      exact getCell_cons_self (by omega)
    have gB : getCell (⟨(envA, .envObj (σ.size + 1) up) :: (σ.size + 1, .pair σ.size vars) ::
        (σ.size, .pair symA valA) :: σ.heap, σ.size + 2, σ.syms⟩ : LState) σ.size =
        some (.pair symA valA) := by
      rw [getCell_cons_ne (by omega), getCell_cons_ne (by omega)]
      exact getCell_cons_self (by omega)
    have gOld : ∀ x hx, x ≠ envA → getCell σ x = some hx →
        getCell (⟨(envA, .envObj (σ.size + 1) up) :: (σ.size + 1, .pair σ.size vars) ::
          (σ.size, .pair symA valA) :: σ.heap, σ.size + 2, σ.syms⟩ : LState) x =
          some hx := by
      intro x hx hne hgx
      have hlt := getCell_lt hgx
      rw [getCell_cons_ne hne, getCell_cons_ne (by omega), getCell_cons_ne (by omega)]
      exact getCell_grow hgx
    have hchain : ∀ a, WFChain σ S B a →
        WFChain (⟨(envA, .envObj (σ.size + 1) up) :: (σ.size + 1, .pair σ.size vars) ::
          (σ.size, .pair symA valA) :: σ.heap, σ.size + 2, σ.syms⟩ : LState) S B a :=
      fun a hc => WFChain_write_env (deref_ok hce) gA gOld hc
    refine ⟨⟨fun x hx => Or.inl hx, fun x hx => Or.inl hx, ?_⟩, ⟨?_, ?_, ?_, ?_⟩, ?_, ?_⟩
    · intro x hx
      rcases hx with ⟨h1, h2⟩ | ⟨h1, h2⟩
      · rcases h1 with h1 | h1
        · exact absurd h1 h2
        · omega
      · rcases h1 with h1 | h1
        · exact absurd h1 h2
        · omega
    · intro x hx
      show x < σ.size + 2
      rcases hx with (hx | hx) | (hx | hx)
      · have := hwf.1 x (Or.inl hx)
        omega
      · omega
      · have := hwf.1 x (Or.inr hx)
        omega
      · omega
    · intro x hx
      rcases hx with hx | hx
      · intro hb
        rcases hb with hb | hb
        · exact hwf.2.1 x hx hb
        · have := hwf.1 x (Or.inl hx)
          omega
      · intro hb
        rcases hb with hb | hb
        · have := hwf.1 x (Or.inr hb)
          omega
        · omega
    · have hne : nilA ≠ envA := by
        intro he
        have h2 := deref_ok hce
        rw [← he, hwf.2.2.1] at h2
        simp at h2
      exact gOld nilA _ hne hwf.2.2.1
    · intro e vars2 up2 hg
      by_cases he : e = envA
      · subst he
        rw [gA] at hg
        simp only [Option.some.injEq, HObj.envObj.injEq] at hg
        rw [← hg.1]
        refine WFChain.node (σ.size + 1) σ.size vars symA valA (Or.inr rfl) (Or.inr rfl)
          gS gB ?_
        exact WFChain_sub (fun x hx => Or.inl hx) (fun x hx => Or.inl hx)
          (hchain vars (hwf.2.2.2 e vars up (deref_ok hce)))
      · by_cases he1 : e = σ.size + 1
        · subst he1
          rw [gS] at hg
          simp at hg
        · by_cases he2 : e = σ.size
          · subst he2
            rw [gB] at hg
            simp at hg
          · have helt : e < σ.size + 2 := getCell_lt hg
            rw [getCell_cons_ne he, getCell_cons_ne he1, getCell_cons_ne he2] at hg
            have hold : getCell σ e = some (.envObj vars2 up2) :=
              getCell_ungrow 2 (by omega) hg
            exact WFChain_sub (fun x hx => Or.inl hx) (fun x hx => Or.inl hx)
              (hchain vars2 (hwf.2.2.2 e vars2 up2 hold))
    · show σ.size ≤ σ.size + 2
      omega
    · intro a h2 hga hnb htag
      have hne : a ≠ envA := by
        intro he
        rw [he, deref_ok hce] at hga
        simp only [Option.some.injEq] at hga
        rw [← hga] at htag
        exact htag rfl
      exact gOld a h2 hne hga

/-- setVariable is a frame step: it rewrites one binding pair's stored value
(the first match of the find walk) or falls back to addVariable. -/
theorem setVariable_frame {fuel : Nat} {σ σ' : LState} {envA symA valA : Nat}
    {S B : Nat → Prop} (h : setVariable fuel σ envA symA valA = .ok σ')
    (hwf : EnvWF σ S B) : ∃ S' B', Frames σ S B σ' S' B' := by
  simp only [setVariable] at h
  match hsv : setVarGo fuel σ envA symA valA with
  | .error e => rw [hsv] at h; exact absurd h (by simp)
  | .ok (true, σ1) =>
    rw [hsv] at h
    simp only [Except.ok.injEq] at h
    rw [← h]
    exact ⟨S, B, (setVarGo_frame fuel σ envA symA valA true σ1 S B hsv hwf).1⟩
  | .ok (false, σ1) =>
    rw [hsv] at h
    simp only [] at h
    have hid := (setVarGo_frame fuel σ envA symA valA false σ1 S B hsv hwf).2 rfl
    subst hid
    exact ⟨_, _, addVariable_frame h hwf⟩

/-- pushEnv's binding loop: each step allocates a fresh binding pair and a
fresh spine pair onto the accumulated chain, so the result is a well-formed
chain and the whole loop is a frame step. -/
theorem pushEnvGo_wf : ∀ fuel σ varO valO acc nv σ1 (S B : Nat → Prop),
    pushEnvGo fuel σ varO valO acc = .ok (nv, σ1) → EnvWF σ S B →
    WFChain σ S B acc → ∃ S' B', Frames σ S B σ1 S' B' ∧ WFChain σ1 S' B' nv := by
  intro fuel
  induction fuel with
  | zero =>
    intro σ varO valO acc nv σ1 S B h
    simp [pushEnvGo] at h
  | succ fuel ih =>
    intro σ varO valO acc nv σ1 S B h hwf hacc
    simp only [pushEnvGo] at h
    have hstop : ∀ w, deref σ varO = .ok w → (∀ vc vd, w ≠ .pair vc vd) →
        nv = acc ∧ σ1 = σ := by
      intro w hv hnp
      rw [hv] at h
      match w, hnp with
      | .nil, _ => simp only [Except.ok.injEq, Prod.mk.injEq] at h; exact ⟨h.1.symm, h.2.symm⟩
      | .sym n, _ => simp only [Except.ok.injEq, Prod.mk.injEq] at h; exact ⟨h.1.symm, h.2.symm⟩
      | .num v, _ => simp only [Except.ok.injEq, Prod.mk.injEq] at h; exact ⟨h.1.symm, h.2.symm⟩
      | .str s, _ => simp only [Except.ok.injEq, Prod.mk.injEq] at h; exact ⟨h.1.symm, h.2.symm⟩
      | .natfn p, _ => simp only [Except.ok.injEq, Prod.mk.injEq] at h; exact ⟨h.1.symm, h.2.symm⟩
      | .fnObj m p2 b2 e2, _ => simp only [Except.ok.injEq, Prod.mk.injEq] at h; exact ⟨h.1.symm, h.2.symm⟩
      | .envObj vs u, _ => simp only [Except.ok.injEq, Prod.mk.injEq] at h; exact ⟨h.1.symm, h.2.symm⟩
      | .pair vc vd, hnp => exact absurd rfl (hnp vc vd)
    match hv : deref σ varO with
    | .error e => rw [hv] at h; exact absurd h (by simp)
    | .ok .nil =>
      obtain ⟨h1, h2⟩ := hstop _ hv (by intro vc vd hq; cases hq)
      subst h1; subst h2
      exact ⟨S, B, Frames_refl hwf, hacc⟩
    | .ok (.sym n) =>
      obtain ⟨h1, h2⟩ := hstop _ hv (by intro vc vd hq; cases hq)
      subst h1; subst h2
      exact ⟨S, B, Frames_refl hwf, hacc⟩
    | .ok (.num v) =>
      obtain ⟨h1, h2⟩ := hstop _ hv (by intro vc vd hq; cases hq)
      subst h1; subst h2
      exact ⟨S, B, Frames_refl hwf, hacc⟩
    | .ok (.str s) =>
      obtain ⟨h1, h2⟩ := hstop _ hv (by intro vc vd hq; cases hq)
      subst h1; subst h2
      exact ⟨S, B, Frames_refl hwf, hacc⟩
    | .ok (.natfn p) =>
      obtain ⟨h1, h2⟩ := hstop _ hv (by intro vc vd hq; cases hq)
      subst h1; subst h2
      exact ⟨S, B, Frames_refl hwf, hacc⟩
    | .ok (.fnObj m p2 b2 e2) =>
      obtain ⟨h1, h2⟩ := hstop _ hv (by intro vc vd hq; cases hq)
      subst h1; subst h2
      exact ⟨S, B, Frames_refl hwf, hacc⟩
    | .ok (.envObj vs u) =>
      obtain ⟨h1, h2⟩ := hstop _ hv (by intro vc vd hq; cases hq)
      subst h1; subst h2
      exact ⟨S, B, Frames_refl hwf, hacc⟩
    | .ok (.pair vc vd) =>
      rw [hv] at h
      simp only [] at h
      match hw : deref σ valO with
      | .error e => rw [hw] at h; exact absurd h (by simp)
      | .ok .nil =>
        rw [hw] at h
        simp only [Except.ok.injEq, Prod.mk.injEq] at h
        obtain ⟨h1, h2⟩ := h
        subst h1; subst h2
        exact ⟨S, B, Frames_refl hwf, hacc⟩
      | .ok (.sym n) =>
        rw [hw] at h
        simp only [Except.ok.injEq, Prod.mk.injEq] at h
        obtain ⟨h1, h2⟩ := h
        subst h1; subst h2
        exact ⟨S, B, Frames_refl hwf, hacc⟩
      | .ok (.num v) =>
        rw [hw] at h
        simp only [Except.ok.injEq, Prod.mk.injEq] at h
        obtain ⟨h1, h2⟩ := h
        subst h1; subst h2
        exact ⟨S, B, Frames_refl hwf, hacc⟩
      | .ok (.str s) =>
        rw [hw] at h
        simp only [Except.ok.injEq, Prod.mk.injEq] at h
        obtain ⟨h1, h2⟩ := h
        subst h1; subst h2
        exact ⟨S, B, Frames_refl hwf, hacc⟩
      | .ok (.natfn p) =>
        rw [hw] at h
        simp only [Except.ok.injEq, Prod.mk.injEq] at h
        obtain ⟨h1, h2⟩ := h
        subst h1; subst h2
        exact ⟨S, B, Frames_refl hwf, hacc⟩
      | .ok (.fnObj m p2 b2 e2) =>
        rw [hw] at h
        simp only [Except.ok.injEq, Prod.mk.injEq] at h
        obtain ⟨h1, h2⟩ := h
        subst h1; subst h2
        exact ⟨S, B, Frames_refl hwf, hacc⟩
      | .ok (.envObj vs u) =>
        rw [hw] at h
        simp only [Except.ok.injEq, Prod.mk.injEq] at h
        obtain ⟨h1, h2⟩ := h
        subst h1; subst h2
        exact ⟨S, B, Frames_refl hwf, hacc⟩
      | .ok (.pair wc wd) =>
        rw [hw] at h
        simp only [acons, alloc] at h
        have gS : getCell (⟨(σ.size + 1, .pair σ.size acc) :: (σ.size, .pair vc wc) ::
            σ.heap, σ.size + 2, σ.syms⟩ : LState) (σ.size + 1) =
            some (.pair σ.size acc) := getCell_cons_self (by omega)
        have gB : getCell (⟨(σ.size + 1, .pair σ.size acc) :: (σ.size, .pair vc wc) ::
            σ.heap, σ.size + 2, σ.syms⟩ : LState) σ.size =
            some (.pair vc wc) := by
          rw [getCell_cons_ne (by omega)]
          exact getCell_cons_self (by omega)
        have gOld : ∀ x hx, getCell σ x = some hx →
            getCell (⟨(σ.size + 1, .pair σ.size acc) :: (σ.size, .pair vc wc) ::
              σ.heap, σ.size + 2, σ.syms⟩ : LState) x = some hx := by
          intro x hx hgx
          have hlt := getCell_lt hgx
          rw [getCell_cons_ne (by omega), getCell_cons_ne (by omega)]
          exact getCell_grow hgx
        have hchain : ∀ a, WFChain σ S B a →
            WFChain (⟨(σ.size + 1, .pair σ.size acc) :: (σ.size, .pair vc wc) ::
              σ.heap, σ.size + 2, σ.syms⟩ : LState)
              (fun x => S x ∨ x = σ.size + 1) (fun x => B x ∨ x = σ.size) a :=
          fun a hc => WFChain_sub (fun x hx => Or.inl hx) (fun x hx => Or.inl hx)
            (WFChain_mono_cells gOld hc)
        have hwfL : EnvWF (⟨(σ.size + 1, .pair σ.size acc) :: (σ.size, .pair vc wc) ::
            σ.heap, σ.size + 2, σ.syms⟩ : LState)
            (fun x => S x ∨ x = σ.size + 1) (fun x => B x ∨ x = σ.size) := by
          refine ⟨?_, ?_, gOld nilA _ hwf.2.2.1, ?_⟩
          · intro x hx
            show x < σ.size + 2
            rcases hx with (hx | hx) | (hx | hx)
            · have := hwf.1 x (Or.inl hx)
              omega
            · omega
            · have := hwf.1 x (Or.inr hx)
              omega
            · omega
          · intro x hx
            rcases hx with hx | hx
            · intro hb
              rcases hb with hb | hb
              · exact hwf.2.1 x hx hb
              · have := hwf.1 x (Or.inl hx)
                omega
            · intro hb
              rcases hb with hb | hb
              · have := hwf.1 x (Or.inr hb)
                omega
              · omega
          · intro e vars2 up2 hg
            by_cases he1 : e = σ.size + 1
            · subst he1
              rw [gS] at hg
              simp at hg
            · by_cases he2 : e = σ.size
              · subst he2
                rw [gB] at hg
                simp at hg
              · have helt : e < σ.size + 2 := getCell_lt hg
                rw [getCell_cons_ne he1, getCell_cons_ne he2] at hg
                have hold : getCell σ e = some (.envObj vars2 up2) :=
                  getCell_ungrow 2 (by omega) hg
                exact hchain vars2 (hwf.2.2.2 e vars2 up2 hold)
        have frames1 : Frames σ S B (⟨(σ.size + 1, .pair σ.size acc) ::
            (σ.size, .pair vc wc) :: σ.heap, σ.size + 2, σ.syms⟩ : LState)
            (fun x => S x ∨ x = σ.size + 1) (fun x => B x ∨ x = σ.size) := by
          refine ⟨⟨fun x hx => Or.inl hx, fun x hx => Or.inl hx, ?_⟩, hwfL, ?_, ?_⟩
          · intro x hx
            rcases hx with ⟨h1, h2⟩ | ⟨h1, h2⟩
            · rcases h1 with h1 | h1
              · exact absurd h1 h2
              · omega
            · rcases h1 with h1 | h1
              · exact absurd h1 h2
              · omega
          · show σ.size ≤ σ.size + 2
            omega
          · intro a h2 hga hnb htag
            exact gOld a h2 hga
        have hchL : WFChain (⟨(σ.size + 1, .pair σ.size acc) :: (σ.size, .pair vc wc) ::
            σ.heap, σ.size + 2, σ.syms⟩ : LState)
            (fun x => S x ∨ x = σ.size + 1) (fun x => B x ∨ x = σ.size) (σ.size + 1) :=
          WFChain.node (σ.size + 1) σ.size acc vc wc (Or.inr rfl) (Or.inr rfl)
            gS gB (hchain acc hacc)
        obtain ⟨S2, B2, hfr2, hch2⟩ := ih (⟨(σ.size + 1, .pair σ.size acc) ::
            (σ.size, .pair vc wc) :: σ.heap, σ.size + 2, σ.syms⟩ : LState)
          vd wd (σ.size + 1) nv σ1 (fun x => S x ∨ x = σ.size + 1)
          (fun x => B x ∨ x = σ.size) h hwfL hchL
        exact ⟨S2, B2, Frames_trans frames1 hfr2, hch2⟩

/-- pushEnv is a frame step: arity check is read-only; the binding loop and
the final child Environment allocation build only fresh cells. -/
theorem pushEnvF_frame {fuel : Nat} {σ σ' : LState} {envA vars values ne : Nat}
    {S B : Nat → Prop} (h : pushEnvF fuel σ envA vars values = .ok (ne, σ'))
    (hwf : EnvWF σ S B) : ∃ S' B', Frames σ S B σ' S' B' := by
  simp only [pushEnvF] at h
  match hlv : listLenF fuel σ vars with
  | .error e => rw [hlv] at h; exact absurd h (by simp)
  | .ok lv =>
    match hlw : listLenF fuel σ values with
    | .error e =>
      rw [hlv, hlw] at h
      simp only [] at h
      exact absurd h (by simp)
    | .ok lw =>
      rw [hlv, hlw] at h
      simp only [] at h
      by_cases hne2 : lv = lw
      · rw [if_neg (fun hq => hq hne2)] at h
        match hgo : pushEnvGo fuel σ vars values nilA with
        | .error e => rw [hgo] at h; exact absurd h (by simp)
        | .ok (nv, σg) =>
          rw [hgo] at h
          simp only [Except.ok.injEq] at h
          have hσ : σ' = (alloc σg (.envObj nv envA)).2 := by rw [h]
          obtain ⟨S1, B1, hfr, hch⟩ := pushEnvGo_wf fuel σ vars values nilA nv σg S B
            hgo hwf (WFChain.stop nilA .nil hwf.2.2.1 (by simp [HObj.tag]))
          rw [hσ]
          exact ⟨S1, B1, Frames_trans hfr (Frames_alloc_env hfr.2.1 hch)⟩
      · rw [if_pos hne2] at h
        exact absurd h (by simp)

/-- Overwriting a Pair cell outside both bookkeeping sets with another Pair
preserves well-formedness; the write changes only that cell and keeps the
size. -/
theorem EnvWF_write_out {σ σ2 : LState} {S B : Nat → Prop} {l c0 d0 c1 d1 : Nat}
    (hwf : EnvWF σ S B) (hs : ¬ S l) (hb : ¬ B l)
    (hold : getCell σ l = some (.pair c0 d0))
    (hw : writeCell σ l (.pair c1 d1) = .ok σ2) :
    EnvWF σ2 S B ∧ σ2.size = σ.size ∧ getCell σ2 l = some (.pair c1 d1) ∧
      (∀ x hx, x ≠ l → getCell σ x = some hx → getCell σ2 x = some hx) ∧
      (∀ x, x ≠ l → getCell σ2 x = getCell σ x) := by
  have hllt : l < σ.size := getCell_lt hold
  simp only [writeCell] at hw
  rw [if_pos hllt] at hw
  simp only [Except.ok.injEq] at hw
  rw [← hw]
  have hpres : ∀ x hx, x ≠ l → getCell σ x = some hx →
      getCell (⟨(l, .pair c1 d1) :: σ.heap, σ.size, σ.syms⟩ : LState) x = some hx := by
    intro x hx hne hgx
    rw [getCell_write_ne hne]
    exact hgx
  have hnil : nilA ≠ l := by
    intro he
    have h2 := hwf.2.2.1
    rw [he, hold] at h2
    simp at h2
  refine ⟨⟨hwf.1, hwf.2.1, hpres nilA _ hnil hwf.2.2.1, ?_⟩, rfl,
    getCell_cons_self hllt, hpres, fun x hx => getCell_write_ne hx⟩
  intro e vars up hg
  by_cases hel : e = l
  · subst hel
    rw [getCell_cons_self hllt] at hg
    simp at hg
  · rw [getCell_write_ne hel] at hg
    exact WFChain_write_out hs hb hold hpres (hwf.2.2.2 e vars up hg)

/-- The body-sequence fold is a frame step whenever the element evaluator
is. -/
theorem evalSeqGen_frame : ∀ fuel ev σ body v σ' (S B : Nat → Prop), FrameEv ev →
    evalSeqGen fuel ev σ body = .ok (v, σ') → EnvWF σ S B →
    ∃ S' B', Frames σ S B σ' S' B' := by
  intro fuel
  induction fuel with
  | zero =>
    intro ev σ body v σ' S B hev h
    simp [evalSeqGen] at h
  | succ fuel ih =>
    intro ev σ body v σ' S B hev h hwf
    simp only [evalSeqGen] at h
    split at h
    · exact absurd h (by simp)
    · rename_i c d hd0
      split at h
      · exact absurd h (by simp)
      · rename_i v1 σ1 he
        obtain ⟨S1, B1, fr1⟩ := hev c σ v1 σ1 he S B hwf
        split at h
        · exact absurd h (by simp)
        · rename_i q1 q2 hd1
          obtain ⟨S2, B2, fr2⟩ := ih ev σ1 d v σ' S1 B1 hev h fr1.2.1
          exact ⟨S2, B2, Frames_trans fr1 fr2⟩
        · simp only [Except.ok.injEq, Prod.mk.injEq] at h
          rw [← h.2]
          exact ⟨S1, B1, fr1⟩
    · simp only [Except.ok.injEq, Prod.mk.injEq] at h
      rw [← h.2]
      exact ⟨S, B, Frames_refl hwf⟩

/-- A cell below the old bound that was outside B stays outside the grown
binding set. -/
theorem not_in_grown_B {σ : LState} {S B S1 B1 : Nat → Prop} {x : Nat}
    (hg : Grows σ S B S1 B1) (hlt : x < σ.size) (hb : ¬ B x) : ¬ B1 x := by
  intro hb1
  have := hg.2.2 x (Or.inr ⟨hb1, hb⟩)
  omega

/-- The primString argument fold is a frame step whenever the element
evaluator is (fmt itself is read-only). -/
theorem stringGo_frame : ∀ fuel ev σ a ss σ' (S B : Nat → Prop), FrameEv ev →
    stringGo fuel ev σ a = .ok (ss, σ') → EnvWF σ S B →
    ∃ S' B', Frames σ S B σ' S' B' := by
  intro fuel
  induction fuel with
  | zero =>
    intro ev σ a ss σ' S B hev h
    simp [stringGo] at h
  | succ fuel ih =>
    intro ev σ a ss σ' S B hev h hwf
    simp only [stringGo] at h
    split at h
    · exact absurd h (by simp)
    · rename_i c d hd0
      split at h
      · exact absurd h (by simp)
      · rename_i v1 σ1 he
        obtain ⟨S1, B1, fr1⟩ := hev c σ v1 σ1 he S B hwf
        split at h
        · exact absurd h (by simp)
        · rename_i s hf
          split at h
          · exact absurd h (by simp)
          · rename_i rest σ2 hrec
            simp only [Except.ok.injEq, Prod.mk.injEq] at h
            rw [← h.2]
            obtain ⟨S2, B2, fr2⟩ := ih ev σ1 d rest σ2 S1 B1 hev hrec fr1.2.1
            exact ⟨S2, B2, Frames_trans fr1 fr2⟩
    · simp only [Except.ok.injEq, Prod.mk.injEq] at h
      rw [← h.2]
      exact ⟨S, B, Frames_refl hwf⟩

/-- The evaluateList splice loop: it mutates only the freshly allocated tail
cell it is handed, allocates fresh result cells, and otherwise has the
evaluator's frame effect; the tail cell stays outside the bookkeeping sets
and stays a Pair. -/
theorem evalListGo_frame : ∀ fuel ev σ o t σf (S B : Nat → Prop), FrameEv ev →
    evalListGo fuel ev σ o t = .ok σf → EnvWF σ S B →
    ¬ S t → ¬ B t → t < σ.size → (∃ tc td, getCell σ t = some (.pair tc td)) →
    ∃ S' B', Grows σ S B S' B' ∧ EnvWF σf S' B' ∧ σ.size ≤ σf.size ∧
      (∀ a h2, getCell σ a = some h2 → ¬ B a → h2.tag ≠ .envT → a ≠ t →
        getCell σf a = some h2) ∧
      ¬ S' t ∧ ¬ B' t ∧ (∃ c2 d2, getCell σf t = some (.pair c2 d2)) := by
  intro fuel
  induction fuel with
  | zero =>
    intro ev σ o t σf S B hev h
    simp [evalListGo] at h
  | succ fuel ih =>
    intro ev σ o t σf S B hev h hwf hSt hBt htlt htc
    obtain ⟨tc0, td0, htcell⟩ := htc
    simp only [evalListGo] at h
    split at h
    · exact absurd h (by simp)
    · rename_i c d hd0
      split at h
      · exact absurd h (by simp)
      · rename_i v σ1 he
        obtain ⟨S1, B1, fr1⟩ := hev c σ v σ1 he S B hwf
        have hsz01 : σ.size ≤ σ1.size := fr1.2.2.1
        have hnS1t : ¬ S1 t := (not_in_grown fr1.1 htlt hSt hBt).1
        have hnB1t : ¬ B1 t := (not_in_grown fr1.1 htlt hSt hBt).2
        have ht1 : getCell σ1 t = some (.pair tc0 td0) :=
          fr1.2.2.2 t _ htcell hBt (by simp [HObj.tag])
        split at h
        · rename_i tc hx hdt
          have fr2 : Frames σ1 S1 B1
              (⟨(σ1.size, .pair v nilA) :: σ1.heap, σ1.size + 1, σ1.syms⟩ : LState)
              S1 B1 :=
            Frames_alloc fr1.2.1 (show (HObj.pair v nilA).tag ≠ .envT from by
              simp [HObj.tag])
          have hn2 : getCell (⟨(σ1.size, .pair v nilA) :: σ1.heap, σ1.size + 1,
              σ1.syms⟩ : LState) σ1.size = some (.pair v nilA) :=
            getCell_cons_self (by omega)
          split at h
          · exact absurd h (by simp)
          · rename_i σ3 hwv
            obtain ⟨hwf3, hsz3, ht3, hpres3, hfull3⟩ :=
              EnvWF_write_out fr2.2.1 hnS1t hnB1t (deref_ok hdt) hwv
            have hsz3n : σ3.size = σ1.size + 1 := hsz3
            have hnt : σ1.size ≠ t := by omega
            have hn3 : getCell σ3 σ1.size = some (.pair v nilA) :=
              hpres3 _ _ hnt hn2
            have ht3n : getCell σ3 t = some (.pair tc σ1.size) := ht3
            obtain ⟨S', B', hG34, hwfF, hsz34, hpres34, hnSn, hnBn, hcn⟩ :=
              ih ev σ3 d σ1.size σf S1 B1 hev h hwf3
                (fun hq => absurd (fr1.2.1.1 _ (Or.inl hq)) (by omega))
                (fun hq => absurd (fr1.2.1.1 _ (Or.inr hq)) (by omega))
                (by omega) ⟨v, nilA, hn3⟩
            refine ⟨S', B', Grows_trans fr1.1 hG34 (by omega), hwfF, by omega,
              ?_, ?_, ?_, ?_⟩
            · intro a h2 hga hnBa htag hat
              have halt : a < σ.size := getCell_lt hga
              have h1a := fr1.2.2.2 a h2 hga hnBa htag
              have h2a : getCell (⟨(σ1.size, .pair v nilA) :: σ1.heap,
                  σ1.size + 1, σ1.syms⟩ : LState) a = some h2 := by
                rw [getCell_cons_ne (by omega)]
                exact getCell_grow h1a
              have h3a := hpres3 a h2 hat h2a
              exact hpres34 a h2 h3a (not_in_grown_B fr1.1 halt hnBa) htag
                (by omega)
            · intro hq
              have := hG34.2.2 t (Or.inl ⟨hq, hnS1t⟩)
              omega
            · intro hq
              have := hG34.2.2 t (Or.inr ⟨hq, hnB1t⟩)
              omega
            · exact ⟨tc, σ1.size, hpres34 t _ ht3n hnB1t (by simp [HObj.tag])
                (by omega)⟩
        · exact absurd h (by simp)
    · simp only [Except.ok.injEq] at h
      rw [← h]
      exact ⟨S, B, Grows_refl σ S B, hwf, le_refl _, fun a h2 hga _ _ _ => hga,
        hSt, hBt, tc0, td0, htcell⟩

/-- evaluateList is a frame step whenever the element evaluator is, and its
result is nil or a fresh Pair cell outside the bookkeeping sets. -/
theorem evalListGen_frame {fuel : Nat} {ev : EvF} {σ : LState} {l out : Nat}
    {σ' : LState} {S B : Nat → Prop} (hev : FrameEv ev)
    (h : evalListGen fuel ev σ l = .ok (out, σ')) (hwf : EnvWF σ S B) :
    ∃ S' B', Frames σ S B σ' S' B' ∧
      (out = nilA ∨ (σ.size ≤ out ∧ ¬ S' out ∧ ¬ B' out ∧
        ∃ c2 d2, getCell σ' out = some (.pair c2 d2))) := by
  match fuel with
  | 0 => simp [evalListGen] at h
  | fuel + 1 =>
    simp only [evalListGen] at h
    split at h
    · exact absurd h (by simp)
    · rename_i c d hd0
      split at h
      · exact absurd h (by simp)
      · rename_i v σ1 he
        obtain ⟨S1, B1, fr1⟩ := hev c σ v σ1 he S B hwf
        have hsz01 : σ.size ≤ σ1.size := fr1.2.2.1
        have fr2 : Frames σ1 S1 B1
            (⟨(σ1.size, .pair v nilA) :: σ1.heap, σ1.size + 1, σ1.syms⟩ : LState)
            S1 B1 :=
          Frames_alloc fr1.2.1 (show (HObj.pair v nilA).tag ≠ .envT from by
            simp [HObj.tag])
        have hL1sz : (⟨(σ1.size, HObj.pair v nilA) :: σ1.heap, σ1.size + 1,
            σ1.syms⟩ : LState).size = σ1.size + 1 := rfl
        split at h
        · exact absurd h (by simp)
        · rename_i σ3 hgo
          simp only [Except.ok.injEq, Prod.mk.injEq] at h
          have hout : σ1.size = out := h.1
          have hσ' : σ3 = σ' := h.2
          subst hout
          subst hσ'
          obtain ⟨S', B', hG, hwfF, hszF, hpres, hnS', hnB', hc⟩ :=
            evalListGo_frame fuel ev
              (⟨(σ1.size, .pair v nilA) :: σ1.heap, σ1.size + 1, σ1.syms⟩ : LState)
              d σ1.size σ3 S1 B1 hev hgo fr2.2.1
              (fun hq => absurd (fr1.2.1.1 _ (Or.inl hq)) (by omega))
              (fun hq => absurd (fr1.2.1.1 _ (Or.inr hq)) (by omega))
              (show σ1.size < σ1.size + 1 from by omega)
              ⟨v, nilA, getCell_cons_self (by omega)⟩
          refine ⟨S', B', ⟨?_, hwfF, ?_, ?_⟩, Or.inr ⟨by omega, hnS', hnB', hc⟩⟩
          · refine Grows_trans fr1.1 ⟨hG.1, hG.2.1, ?_⟩ hsz01
            intro x hx
            have := hG.2.2 x hx
            omega
          · omega
          · intro a h2 hga hnBa htag
            have halt : a < σ.size := getCell_lt hga
            have h1a := fr1.2.2.2 a h2 hga hnBa htag
            have h2a : getCell (⟨(σ1.size, .pair v nilA) :: σ1.heap,
                σ1.size + 1, σ1.syms⟩ : LState) a = some h2 := by
              rw [getCell_cons_ne (by omega)]
              exact getCell_grow h1a
            exact hpres a h2 h2a (not_in_grown_B fr1.1 halt hnBa) htag (by omega)
    · simp only [Except.ok.injEq, Prod.mk.injEq] at h
      rw [← h.1, ← h.2]
      exact ⟨S, B, Frames_refl hwf, Or.inl rfl⟩

/-- evaluateUnquotes is a frame step whenever the element evaluator is: the
walker (gen) builds only fresh cells, and its spine loop (go) additionally
mutates only the fresh tail cell it is handed. -/
theorem unqAux_frame : ∀ fuel (ev : EvF), FrameEv ev →
    (∀ a σ v σ' (S B : Nat → Prop), unqAux fuel ev (.gen a) σ = .ok (v, σ') →
      EnvWF σ S B → ∃ S' B', Frames σ S B σ' S' B') ∧
    (∀ o t σ v σ' (S B : Nat → Prop), unqAux fuel ev (.go o t) σ = .ok (v, σ') →
      EnvWF σ S B → ¬ S t → ¬ B t → t < σ.size →
      (∃ tc td, getCell σ t = some (.pair tc td)) →
      ∃ S' B', Grows σ S B S' B' ∧ EnvWF σ' S' B' ∧ σ.size ≤ σ'.size ∧
        (∀ a h2, getCell σ a = some h2 → ¬ B a → h2.tag ≠ .envT → a ≠ t →
          getCell σ' a = some h2)) := by
  intro fuel
  induction fuel with
  | zero =>
    intro ev hev
    constructor
    · intro a σ v σ' S B h
      simp [unqAux] at h
    · intro o t σ v σ' S B h
      simp [unqAux] at h
  | succ fuel ih =>
    intro ev hev
    obtain ⟨ihg, iho⟩ := ih ev hev
    constructor
    · intro a σ v σ' S B h hwf
      simp only [unqAux] at h
      split at h
      · exact absurd h (by simp)
      · rename_i c d hd0
        split at h
        · exact absurd h (by simp)
        · rename_i uq σ1 hin
          have frI : Frames σ S B σ1 S B := intern_frame hin hwf
          split at h
          · obtain ⟨S1, B1, frE⟩ := hev a σ1 v σ' h S B frI.2.1
            exact ⟨S1, B1, Frames_trans frI frE⟩
          · split at h
            · exact absurd h (by simp)
            · rename_i v2 σ2 hg1
              obtain ⟨S1, B1, fr1⟩ := ihg c σ1 v2 σ2 S B hg1 frI.2.1
              have frA : Frames σ S B σ2 S1 B1 := Frames_trans frI fr1
              have frAl : Frames σ2 S1 B1
                  (⟨(σ2.size, .pair v2 nilA) :: σ2.heap, σ2.size + 1, σ2.syms⟩ :
                    LState) S1 B1 :=
                Frames_alloc fr1.2.1 (show (HObj.pair v2 nilA).tag ≠ .envT from by
                  simp [HObj.tag])
              have hL3sz : (⟨(σ2.size, HObj.pair v2 nilA) :: σ2.heap, σ2.size + 1,
                  σ2.syms⟩ : LState).size = σ2.size + 1 := rfl
              split at h
              · exact absurd h (by simp)
              · rename_i w σ4 hg2
                simp only [Except.ok.injEq, Prod.mk.injEq] at h
                have hσ4 : σ4 = σ' := h.2
                subst hσ4
                obtain ⟨S', B', hG, hwfF, hsz, hpres⟩ :=
                  iho d σ2.size
                    (⟨(σ2.size, .pair v2 nilA) :: σ2.heap, σ2.size + 1, σ2.syms⟩ :
                      LState) w σ4 S1 B1 hg2 frAl.2.1
                    (fun hq => absurd (fr1.2.1.1 _ (Or.inl hq)) (by omega))
                    (fun hq => absurd (fr1.2.1.1 _ (Or.inr hq)) (by omega))
                    (show σ2.size < σ2.size + 1 from by omega)
                    ⟨v2, nilA, getCell_cons_self (by omega)⟩
                have hsz02 : σ.size ≤ σ2.size := frA.2.2.1
                refine ⟨S', B', ?_, hwfF, ?_, ?_⟩
                · refine Grows_trans frA.1 ⟨hG.1, hG.2.1, ?_⟩ hsz02
                  intro x hx
                  have := hG.2.2 x hx
                  omega
                · omega
                · intro q h2 hgq hnBq htag
                  have hqlt : q < σ.size := getCell_lt hgq
                  have h2q := frA.2.2.2 q h2 hgq hnBq htag
                  have h3q : getCell (⟨(σ2.size, .pair v2 nilA) :: σ2.heap,
                      σ2.size + 1, σ2.syms⟩ : LState) q = some h2 := by
                    rw [getCell_cons_ne (by omega)]
                    exact getCell_grow h2q
                  exact hpres q h2 h3q (not_in_grown_B frA.1 hqlt hnBq) htag
                    (by omega)
      · simp only [Except.ok.injEq, Prod.mk.injEq] at h
        rw [← h.2]
        exact ⟨S, B, Frames_refl hwf⟩
    · intro o t σ v σ' S B h hwf hSt hBt htlt htc
      obtain ⟨tc0, td0, htcell⟩ := htc
      simp only [unqAux] at h
      split at h
      · exact absurd h (by simp)
      · rename_i c d hd0
        split at h
        · exact absurd h (by simp)
        · rename_i v2 σ1 hg1
          obtain ⟨S1, B1, fr1⟩ := ihg c σ v2 σ1 S B hg1 hwf
          have hsz01 : σ.size ≤ σ1.size := fr1.2.2.1
          have hnS1t : ¬ S1 t := (not_in_grown fr1.1 htlt hSt hBt).1
          have hnB1t : ¬ B1 t := (not_in_grown fr1.1 htlt hSt hBt).2
          have ht1 : getCell σ1 t = some (.pair tc0 td0) :=
            fr1.2.2.2 t _ htcell hBt (by simp [HObj.tag])
          split at h
          · rename_i tc hx hdt
            have fr2 : Frames σ1 S1 B1
                (⟨(σ1.size, .pair v2 nilA) :: σ1.heap, σ1.size + 1, σ1.syms⟩ :
                  LState) S1 B1 :=
              Frames_alloc fr1.2.1 (show (HObj.pair v2 nilA).tag ≠ .envT from by
                simp [HObj.tag])
            have hn2 : getCell (⟨(σ1.size, .pair v2 nilA) :: σ1.heap, σ1.size + 1,
                σ1.syms⟩ : LState) σ1.size = some (.pair v2 nilA) :=
              getCell_cons_self (by omega)
            split at h
            · exact absurd h (by simp)
            · rename_i σ3 hwv
              obtain ⟨hwf3, hsz3, ht3, hpres3, hfull3⟩ :=
                EnvWF_write_out fr2.2.1 hnS1t hnB1t (deref_ok hdt) hwv
              have hsz3n : σ3.size = σ1.size + 1 := hsz3
              have hnt : σ1.size ≠ t := by omega
              have hn3 : getCell σ3 σ1.size = some (.pair v2 nilA) :=
                hpres3 _ _ hnt hn2
              obtain ⟨S', B', hG34, hwfF, hsz34, hpres34⟩ :=
                iho d σ1.size σ3 v σ' S1 B1 h hwf3
                  (fun hq => absurd (fr1.2.1.1 _ (Or.inl hq)) (by omega))
                  (fun hq => absurd (fr1.2.1.1 _ (Or.inr hq)) (by omega))
                  (by omega) ⟨v2, nilA, hn3⟩
              refine ⟨S', B', Grows_trans fr1.1 hG34 (by omega), hwfF, by omega,
                ?_⟩
              intro q h2 hgq hnBq htag hqt
              have hqlt : q < σ.size := getCell_lt hgq
              have h1q := fr1.2.2.2 q h2 hgq hnBq htag
              have h2q : getCell (⟨(σ1.size, .pair v2 nilA) :: σ1.heap,
                  σ1.size + 1, σ1.syms⟩ : LState) q = some h2 := by
                rw [getCell_cons_ne (by omega)]
                exact getCell_grow h1q
              have h3q := hpres3 q h2 hqt h2q
              exact hpres34 q h2 h3q (not_in_grown_B fr1.1 hqlt hnBq) htag
                (by omega)
          · exact absurd h (by simp)
      · simp only [Except.ok.injEq, Prod.mk.injEq] at h
        rw [← h.2]
        exact ⟨S, B, Grows_refl σ S B, hwf, le_refl _,
          fun q h2 hgq _ _ _ => hgq⟩

/-- The master frame property of the evaluator: any successful run only
allocates fresh cells, rewrites binding pairs (setVariable) and Environment
records (addVariable), and grows the bookkeeping sets with fresh cells. -/
theorem run_frame : ∀ fuel c σ v σ' (S B : Nat → Prop),
    run fuel c σ = .ok (v, σ') → EnvWF σ S B →
    ∃ S' B', Frames σ S B σ' S' B' := by
  intro fuel
  induction fuel with
  | zero =>
    intro c σ v σ' S B h
    simp [run] at h
  | succ fuel ih =>
    intro c σ v σ' S B h hwf
    have hev : ∀ envA, FrameEv (fun x τ => run fuel (.eval envA x) τ) :=
      fun envA e τ w τ' hr S2 B2 hwf2 => ih (.eval envA e) τ w τ' S2 B2 hr hwf2
    cases c with
    | eval envA v0 =>
      simp only [run] at h
      split at h
      · exact absurd h (by simp)
      · split at h
        · exact absurd h (by simp)
        · simp only [Except.ok.injEq, Prod.mk.injEq] at h
          rw [← h.2]
          exact ⟨S, B, Frames_refl hwf⟩
        · exact absurd h (by simp)
      · rename_i hcar hcdr hd0
        split at h
        · exact absurd h (by simp)
        · rename_i e σ1 hm
          obtain ⟨S1, B1, fr1⟩ := ih (.macEx envA v0) σ e σ1 S B hm hwf
          split at h
          · obtain ⟨S2, B2, fr2⟩ := ih (.eval envA e) σ1 v σ' S1 B1 h fr1.2.1
            exact ⟨S2, B2, Frames_trans fr1 fr2⟩
          · split at h
            · exact absurd h (by simp)
            · rename_i f σ2 hf
              obtain ⟨S2, B2, fr2⟩ := ih (.eval envA hcar) σ1 f σ2 S1 B1 hf fr1.2.1
              obtain ⟨S3, B3, fr3⟩ := ih (.applyC envA f hcdr) σ2 v σ' S2 B2 h fr2.2.1
              exact ⟨S3, B3, Frames_trans fr1 (Frames_trans fr2 fr3)⟩
      · simp only [Except.ok.injEq, Prod.mk.injEq] at h
        rw [← h.2]
        exact ⟨S, B, Frames_refl hwf⟩
    | macEx envA obj =>
      simp only [run] at h
      split at h
      · exact absurd h (by simp)
      · rename_i hcar args hd0
        split at h
        · exact absurd h (by simp)
        · rename_i nm hd1
          split at h
          · exact absurd h (by simp)
          · simp only [Except.ok.injEq, Prod.mk.injEq] at h
            rw [← h.2]
            exact ⟨S, B, Frames_refl hwf⟩
          · rename_i m hfind
            split at h
            · exact absurd h (by simp)
            · rename_i params body fenv hdm
              split at h
              · exact absurd h (by simp)
              · rename_i ne σ1 hpush
                obtain ⟨S1, B1, fr1⟩ := pushEnvF_frame hpush hwf
                obtain ⟨S2, B2, fr2⟩ :=
                  evalSeqGen_frame fuel _ σ1 body v σ' S1 B1 (hev ne) h fr1.2.1
                exact ⟨S2, B2, Frames_trans fr1 fr2⟩
            · simp only [Except.ok.injEq, Prod.mk.injEq] at h
              rw [← h.2]
              exact ⟨S, B, Frames_refl hwf⟩
        · simp only [Except.ok.injEq, Prod.mk.injEq] at h
          rw [← h.2]
          exact ⟨S, B, Frames_refl hwf⟩
      · simp only [Except.ok.injEq, Prod.mk.injEq] at h
        rw [← h.2]
        exact ⟨S, B, Frames_refl hwf⟩
    | applyC envA fnA args =>
      simp only [run] at h
      split at h
      · exact absurd h (by simp)
      · rename_i p hd0
        exact ih (.prim p envA args) σ v σ' S B h hwf
      · rename_i params body fenv hd0
        split at h
        · exact absurd h (by simp)
        · rename_i ea σ1 hel
          obtain ⟨S1, B1, fr1, hout⟩ := evalListGen_frame (hev envA) hel hwf
          split at h
          · exact absurd h (by simp)
          · rename_i ne σ2 hpush
            obtain ⟨S2, B2, fr2⟩ := pushEnvF_frame hpush fr1.2.1
            obtain ⟨S3, B3, fr3⟩ :=
              evalSeqGen_frame fuel _ σ2 body v σ' S2 B2 (hev ne) h fr2.2.1
            exact ⟨S3, B3, Frames_trans fr1 (Frames_trans fr2 fr3)⟩
      · rename_i pc pd hd0
        split at h
        · exact absurd h (by simp)
        · split at h
          · exact absurd h (by simp)
          · rename_i ix σ1 hab
            obtain ⟨S1, B1, fr1⟩ :=
              ih (.evalArgC envA args 0 (some .numT)) σ ix σ1 S B hab hwf
            split at h
            · rename_i n hdi
              split at h
              · exact absurd h (by simp)
              · rename_i r hli
                simp only [Except.ok.injEq, Prod.mk.injEq] at h
                rw [← h.2]
                exact ⟨S1, B1, fr1⟩
            · exact absurd h (by simp)
      · exact absurd h (by simp)
    | evalArgC envA args idx ty =>
      simp only [run] at h
      split at h
      · exact absurd h (by simp)
      · rename_i a hga
        split at h
        · exact absurd h (by simp)
        · rename_i r σ1 hr
          obtain ⟨S1, B1, fr1⟩ := ih (.eval envA a) σ r σ1 S B hr hwf
          split at h
          · simp only [Except.ok.injEq, Prod.mk.injEq] at h
            rw [← h.2]
            exact ⟨S1, B1, fr1⟩
          · rename_i t0
            split at h
            · exact absurd h (by simp)
            · rename_i hr2 hdr
              split at h
              · simp only [Except.ok.injEq, Prod.mk.injEq] at h
                rw [← h.2]
                exact ⟨S1, B1, fr1⟩
              · exact absurd h (by simp)
    | prim p envA args =>
      simp only [run] at h
      cases p
      case pFn =>
        simp only [] at h
        split at h
        · exact absurd h (by simp)
        · split at h
          · exact absurd h (by simp)
          · rename_i pcar pcdr hd0
            split at h
            · exact absurd h (by simp)
            · rename_i q1 q2 hd1
              split at h
              · exact absurd h (by simp)
              · simp only [Except.ok.injEq] at h
                have hσ : σ' = (alloc σ (.fnObj false pcar pcdr envA)).2 := by
                  rw [h]
                rw [hσ]
                exact ⟨S, B, Frames_alloc hwf (by simp [HObj.tag])⟩
            · exact absurd h (by simp)
          · exact absurd h (by simp)
      case pDefine =>
        simp only [] at h
        split at h
        · exact absurd h (by simp)
        · split at h
          · exact absurd h (by simp)
          · rename_i a0 rest hd0
            split at h
            · exact absurd h (by simp)
            · rename_i nm hd1
              split at h
              · exact absurd h (by simp)
              · rename_i r0 rr hd2
                split at h
                · exact absurd h (by simp)
                · rename_i w σ1 hr
                  obtain ⟨S1, B1, fr1⟩ := ih (.eval envA r0) σ w σ1 S B hr hwf
                  split at h
                  · exact absurd h (by simp)
                  · rename_i σ2 hadd
                    have fr2 := addVariable_frame hadd fr1.2.1
                    simp only [Except.ok.injEq, Prod.mk.injEq] at h
                    rw [← h.2]
                    exact ⟨_, _, Frames_trans fr1 fr2⟩
              · exact absurd h (by simp)
            · exact absurd h (by simp)
          · exact absurd h (by simp)
      case pDefn =>
        simp only [] at h
        split at h
        · exact absurd h (by simp)
        · split at h
          · exact absurd h (by simp)
          · rename_i a0 rest hd0
            split at h
            · exact absurd h (by simp)
            · rename_i nm hd1
              split at h
              · exact absurd h (by simp)
              · rename_i r0 rr hd2
                split at h
                · exact absurd h (by simp)
                · rename_i f σ1 hr
                  obtain ⟨S1, B1, fr1⟩ := ih (.prim .pFn envA rest) σ f σ1 S B hr hwf
                  split at h
                  · exact absurd h (by simp)
                  · rename_i σ2 hadd
                    have fr2 := addVariable_frame hadd fr1.2.1
                    simp only [Except.ok.injEq, Prod.mk.injEq] at h
                    rw [← h.2]
                    exact ⟨_, _, Frames_trans fr1 fr2⟩
              · exact absurd h (by simp)
            · exact absurd h (by simp)
          · exact absurd h (by simp)
      case pDefMac =>
        simp only [] at h
        split at h
        · exact absurd h (by simp)
        · rename_i a0 rest hd0
          split at h
          · exact absurd h (by simp)
          · rename_i nm hd1
            split at h
            · exact absurd h (by simp)
            · rename_i rcar rcdr hd2
              split at h
              · exact absurd h (by simp)
              · split at h
                · exact absurd h (by simp)
                · rename_i σ2 hadd
                  have fr1 : Frames σ S B (alloc σ (.fnObj true rcar rcdr envA)).2
                      S B := Frames_alloc hwf (by simp [HObj.tag])
                  have fr2 := addVariable_frame hadd fr1.2.1
                  simp only [Except.ok.injEq, Prod.mk.injEq] at h
                  rw [← h.2]
                  exact ⟨_, _, Frames_trans fr1 fr2⟩
            · exact absurd h (by simp)
          · exact absurd h (by simp)
        · exact absurd h (by simp)
      case pQuote =>
        simp only [] at h
        split at h
        · exact absurd h (by simp)
        · rename_i a0 q0 hd0
          simp only [evalUnqGen] at h
          exact (unqAux_frame fuel _ (hev envA)).1 a0 σ v σ' S B h hwf
        · exact absurd h (by simp)
      case pUnquote =>
        simp only [] at h
        split at h
        · exact absurd h (by simp)
        · split at h
          · exact absurd h (by simp)
          · rename_i a0 q0 hd0
            exact ih (.eval envA a0) σ v σ' S B h hwf
          · exact absurd h (by simp)
      case pList =>
        simp only [] at h
        split at h
        · exact absurd h (by simp)
        · obtain ⟨S1, B1, fr1, hout⟩ := evalListGen_frame (hev envA) h hwf
          exact ⟨S1, B1, fr1⟩
      case pCons =>
        simp only [] at h
        split at h
        · exact absurd h (by simp)
        · split at h
          · exact absurd h (by simp)
          · rename_i l σ1 hel
            obtain ⟨S1, B1, fr1, hout⟩ := evalListGen_frame (hev envA) hel hwf
            split at h
            · exact absurd h (by simp)
            · rename_i c d hdl
              split at h
              · rename_i dc dx hdd
                split at h
                · exact absurd h (by simp)
                · rename_i σ2 hwv
                  rcases hout with hnil | ⟨hfresh, hnS, hnB, c2, d2, hcell⟩
                  · rw [hnil] at hdl
                    have h2 := deref_ok hdl
                    rw [fr1.2.1.2.2.1] at h2
                    simp at h2
                  · obtain ⟨hwf2, hsz2, hl2, hpres2, hfull2⟩ :=
                      EnvWF_write_out fr1.2.1 hnS hnB (deref_ok hdl) hwv
                    simp only [Except.ok.injEq, Prod.mk.injEq] at h
                    rw [← h.2]
                    refine ⟨S1, B1, fr1.1, hwf2, ?_, ?_⟩
                    · have h3 : σ2.size = σ1.size := hsz2
                      have h4 := fr1.2.2.1
                      omega
                    · intro q hq hgq hnBq htag
                      have hqlt : q < σ.size := getCell_lt hgq
                      have h1q := fr1.2.2.2 q hq hgq hnBq htag
                      exact hpres2 q hq (by omega) h1q
              · exact absurd h (by simp)
            · simp only [Except.ok.injEq, Prod.mk.injEq] at h
              rw [← h.2]
              exact ⟨S1, B1, fr1⟩
      case pEnv =>
        simp only [Except.ok.injEq, Prod.mk.injEq] at h
        rw [← h.2]
        exact ⟨S, B, Frames_refl hwf⟩
      case pMacex =>
        simp only [] at h
        split at h
        · exact absurd h (by simp)
        · split at h
          · exact absurd h (by simp)
          · rename_i a0 q0 hd0
            exact ih (.macEx envA a0) σ v σ' S B h hwf
          · exact absurd h (by simp)
      case pImport =>
        simp only [] at h
        split at h
        · exact absurd h (by simp)
        · split at h
          · exact absurd h (by simp)
          · exact absurd h (by simp)
      case pIf =>
        simp only [] at h
        split at h
        · exact absurd h (by simp)
        · split at h
          · exact absurd h (by simp)
          · rename_i c0 σ1 hc
            obtain ⟨S1, B1, fr1⟩ :=
              ih (.evalArgC envA args 0 none) σ c0 σ1 S B hc hwf
            split at h
            · exact absurd h (by simp)
            · rename_i tE hg1
              split at h
              · exact absurd h (by simp)
              · rename_i eE hg2
                split at h
                · obtain ⟨S2, B2, fr2⟩ := ih (.eval envA tE) σ1 v σ' S1 B1 h fr1.2.1
                  exact ⟨S2, B2, Frames_trans fr1 fr2⟩
                · obtain ⟨S2, B2, fr2⟩ := ih (.eval envA eE) σ1 v σ' S1 B1 h fr1.2.1
                  exact ⟨S2, B2, Frames_trans fr1 fr2⟩
      case pError =>
        simp only [] at h
        split at h
        · exact absurd h (by simp)
        · split at h
          · exact absurd h (by simp)
          · rename_i m σ1 hm
            split at h
            · exact absurd h (by simp)
            · exact absurd h (by simp)
      case pString =>
        simp only [] at h
        split at h
        · exact absurd h (by simp)
        · split at h
          · exact absurd h (by simp)
          · rename_i ss σ1 hsg
            obtain ⟨S1, B1, fr1⟩ :=
              stringGo_frame fuel _ σ args ss σ1 S B (hev envA) hsg hwf
            split at h
            · simp only [Except.ok.injEq, Prod.mk.injEq] at h
              rw [← h.2]
              exact ⟨S1, B1, fr1⟩
            · simp only [Except.ok.injEq] at h
              have hσ : σ' = (alloc σ1 (.str (String.join ss))).2 := by rw [h]
              rw [hσ]
              exact ⟨S1, B1, Frames_trans fr1
                (Frames_alloc fr1.2.1 (by simp [HObj.tag]))⟩
      case pSlurp =>
        simp only [] at h
        split at h
        · exact absurd h (by simp)
        · split at h
          · exact absurd h (by simp)
          · exact absurd h (by simp)
      case pPrintln =>
        simp only [] at h
        split at h
        · exact absurd h (by simp)
        · rename_i pc pd hd0
          split at h
          · exact absurd h (by simp)
          · rename_i w σ1 hel
            obtain ⟨S1, B1, fr1, hout⟩ := evalListGen_frame (hev envA) hel hwf
            simp only [Except.ok.injEq, Prod.mk.injEq] at h
            rw [← h.2]
            exact ⟨S1, B1, fr1⟩
        · split at h
          · exact absurd h (by simp)
          · rename_i w σ1 hr
            obtain ⟨S1, B1, fr1⟩ := ih (.eval envA args) σ w σ1 S B hr hwf
            simp only [Except.ok.injEq, Prod.mk.injEq] at h
            rw [← h.2]
            exact ⟨S1, B1, fr1⟩
      case pReaderDebug =>
        simp only [] at h
        split at h
        · exact absurd h (by simp)
        · rename_i sa σ1 hin
          have frI : Frames σ S B σ1 S B := intern_frame hin hwf
          split at h
          · exact absurd h (by simp)
          · rename_i dv hfind
            split at h
            · split at h
              · exact absurd h (by simp)
              · rename_i σ2 hset
                obtain ⟨S2, B2, fr2⟩ := setVariable_frame hset frI.2.1
                simp only [Except.ok.injEq, Prod.mk.injEq] at h
                rw [← h.2]
                exact ⟨S2, B2, Frames_trans frI fr2⟩
            · split at h
              · exact absurd h (by simp)
              · rename_i σ2 hset
                obtain ⟨S2, B2, fr2⟩ := setVariable_frame hset frI.2.1
                simp only [Except.ok.injEq, Prod.mk.injEq] at h
                rw [← h.2]
                exact ⟨S2, B2, Frames_trans frI fr2⟩
      case pEqual =>
        simp only [] at h
        split at h
        · exact absurd h (by simp)
        · split at h
          · exact absurd h (by simp)
          · rename_i a σ1 ha
            obtain ⟨S1, B1, fr1⟩ :=
              ih (.evalArgC envA args 0 none) σ a σ1 S B ha hwf
            split at h
            · exact absurd h (by simp)
            · rename_i b σ2 hb
              obtain ⟨S2, B2, fr2⟩ :=
                ih (.evalArgC envA args 1 none) σ1 b σ2 S1 B1 hb fr1.2.1
              split at h
              · exact absurd h (by simp)
              · rename_i q heq
                simp only [Except.ok.injEq, Prod.mk.injEq] at h
                rw [← h.2]
                exact ⟨S2, B2, Frames_trans fr1 fr2⟩
      case pAdd =>
        simp only [] at h
        split at h
        · exact absurd h (by simp)
        · split at h
          · exact absurd h (by simp)
          · rename_i a σ1 ha
            obtain ⟨S1, B1, fr1⟩ :=
              ih (.evalArgC envA args 0 (some .numT)) σ a σ1 S B ha hwf
            split at h
            · exact absurd h (by simp)
            · rename_i b σ2 hb
              obtain ⟨S2, B2, fr2⟩ :=
                ih (.evalArgC envA args 1 (some .numT)) σ1 b σ2 S1 B1 hb fr1.2.1
              split at h
              · rename_i x y hdx hdy
                simp only [Except.ok.injEq] at h
                have hσ : σ' = (alloc σ2 (.num (arithOp .pAdd x y))).2 := by rw [h]
                rw [hσ]
                exact ⟨S2, B2, Frames_trans fr1 (Frames_trans fr2
                  (Frames_alloc fr2.2.1 (by simp [HObj.tag])))⟩
              · exact absurd h (by simp)
      case pSub =>
        simp only [] at h
        split at h
        · exact absurd h (by simp)
        · split at h
          · exact absurd h (by simp)
          · rename_i a σ1 ha
            obtain ⟨S1, B1, fr1⟩ :=
              ih (.evalArgC envA args 0 (some .numT)) σ a σ1 S B ha hwf
            split at h
            · exact absurd h (by simp)
            · rename_i b σ2 hb
              obtain ⟨S2, B2, fr2⟩ :=
                ih (.evalArgC envA args 1 (some .numT)) σ1 b σ2 S1 B1 hb fr1.2.1
              split at h
              · rename_i x y hdx hdy
                simp only [Except.ok.injEq] at h
                have hσ : σ' = (alloc σ2 (.num (arithOp .pSub x y))).2 := by rw [h]
                rw [hσ]
                exact ⟨S2, B2, Frames_trans fr1 (Frames_trans fr2
                  (Frames_alloc fr2.2.1 (by simp [HObj.tag])))⟩
              · exact absurd h (by simp)
      case pMul =>
        simp only [] at h
        split at h
        · exact absurd h (by simp)
        · split at h
          · exact absurd h (by simp)
          · rename_i a σ1 ha
            obtain ⟨S1, B1, fr1⟩ :=
              ih (.evalArgC envA args 0 (some .numT)) σ a σ1 S B ha hwf
            split at h
            · exact absurd h (by simp)
            · rename_i b σ2 hb
              obtain ⟨S2, B2, fr2⟩ :=
                ih (.evalArgC envA args 1 (some .numT)) σ1 b σ2 S1 B1 hb fr1.2.1
              split at h
              · rename_i x y hdx hdy
                simp only [Except.ok.injEq] at h
                have hσ : σ' = (alloc σ2 (.num (arithOp .pMul x y))).2 := by rw [h]
                rw [hσ]
                exact ⟨S2, B2, Frames_trans fr1 (Frames_trans fr2
                  (Frames_alloc fr2.2.1 (by simp [HObj.tag])))⟩
              · exact absurd h (by simp)
      case pDiv =>
        simp only [] at h
        split at h
        · exact absurd h (by simp)
        · split at h
          · exact absurd h (by simp)
          · rename_i a σ1 ha
            obtain ⟨S1, B1, fr1⟩ :=
              ih (.evalArgC envA args 0 (some .numT)) σ a σ1 S B ha hwf
            split at h
            · exact absurd h (by simp)
            · rename_i b σ2 hb
              obtain ⟨S2, B2, fr2⟩ :=
                ih (.evalArgC envA args 1 (some .numT)) σ1 b σ2 S1 B1 hb fr1.2.1
              split at h
              · rename_i x y hdx hdy
                simp only [Except.ok.injEq] at h
                have hσ : σ' = (alloc σ2 (.num (arithOp .pDiv x y))).2 := by rw [h]
                rw [hσ]
                exact ⟨S2, B2, Frames_trans fr1 (Frames_trans fr2
                  (Frames_alloc fr2.2.1 (by simp [HObj.tag])))⟩
              · exact absurd h (by simp)

/-- An address below the old bound reads the same through an allocation. -/
theorem getCell_alloc_lt {σ : LState} {h0 : HObj} {a : Nat} (hlt : a < σ.size) :
    getCell (alloc σ h0).2 a = getCell σ a := by
  simp only [alloc, getCell, hLookup]
  rw [if_pos (show a < σ.size + 1 from by omega),
    if_neg (show ¬ σ.size = a from by omega), if_pos hlt]

/-- A cdr-walk survives an evaluation step: its spine cells are outside the
binding set and keep their content, and the terminal chain is re-supplied. -/
theorem Chain_pres_out : ∀ {σ σ' : LState} {B : Nat → Prop} {o lv t2},
    Chain σ o lv t2 →
    (∀ a h2, getCell σ a = some h2 → ¬ B a → h2.tag ≠ .envT →
      getCell σ' a = some h2) →
    (∀ p ∈ lv, ¬ B p.1) →
    Chain σ' t2 [] t2 →
    Chain σ' o lv t2 := by
  intro σ σ' B o lv t2 hc
  induction hc with
  | stop a h hg ht =>
    intro hst hb hterm
    exact hterm
  | step a c d l2 t2 hg hc2 ih =>
    intro hst hb hterm
    exact Chain.step a c d l2 t2
      (hst a _ hg (hb (a, c) (by simp)) (by simp [HObj.tag]))
      (ih hst (fun p hp => hb p (List.mem_cons_of_mem _ hp)) hterm)

/-- Every spine entry of a cdr-walk is a live Pair cell holding its recorded
car. -/
theorem Chain_cells : ∀ {σ : LState} {o lv t2}, Chain σ o lv t2 →
    ∀ p ∈ lv, ∃ d, getCell σ p.1 = some (.pair p.2 d) := by
  intro σ o lv t2 hc
  induction hc with
  | stop a h hg ht =>
    intro p hp
    simp at hp
  | step a c d l2 t2 hg hc2 ih =>
    intro p hp
    rcases List.mem_cons.mp hp with he | hm
    · rw [he]
      exact ⟨d, hg⟩
    · exact ih p hm

/-- The evaluateList splice loop, structurally: handed a fresh tail cell
(car tc, cdr nil) and a proper remaining input chain, it evaluates the
elements left-to-right (each in the store the previous one produced, the
loop's own writes staying at or above the bound), splices each result into
a fresh cell, leaves the input spine intact, and returns the completed
fresh chain. -/
theorem evalListGo_chain : ∀ fuel ev σ o t tc σf (S B : Nat → Prop)
    (lv : List (Nat × Nat)) (Bd : Nat), FrameEv ev →
    evalListGo fuel ev σ o t = .ok σf → EnvWF σ S B →
    Chain σ o lv nilA →
    (∀ p ∈ lv, ¬ S p.1 ∧ ¬ B p.1) →
    (∀ p ∈ lv, p.1 < Bd) →
    Bd ≤ σ.size →
    ¬ S t → ¬ B t → t < σ.size → Bd ≤ t →
    getCell σ t = some (.pair tc nilA) →
    ∃ outLv : List (Nat × Nat),
      Chain σf t ((t, tc) :: outLv) nilA ∧
      outLv.length = lv.length ∧
      (∀ q ∈ outLv, σ.size ≤ q.1) ∧
      (∀ a h2, getCell σ a = some h2 → ¬ B a → h2.tag ≠ .envT → a ≠ t →
        getCell σf a = some h2) ∧
      SeqEvalFrom ev Bd σ (List.map Prod.snd lv) (List.map Prod.snd outLv) := by
  intro fuel
  induction fuel with
  | zero =>
    intro ev σ o t tc σf S B lv Bd hev h
    simp [evalListGo] at h
  | succ fuel ih =>
    intro ev σ o t tc σf S B lv Bd hev h hwf hch hout hlt hBd hSt hBt htσ hBdt htc
    simp only [evalListGo] at h
    split at h
    · exact absurd h (by simp)
    · rename_i c d hd0
      cases hch with
      | stop a2 h2 hg2 ht2 =>
        have h3 := deref_ok hd0
        rw [hg2] at h3
        simp only [Option.some.injEq] at h3
        subst h3
        exact absurd rfl ht2
      | step a2 c2 d2 l2 t2 hg2 hrest =>
        have h3 := deref_ok hd0
        rw [h3] at hg2
        simp only [Option.some.injEq, HObj.pair.injEq] at hg2
        obtain ⟨hc2, hd2⟩ := hg2
        subst hc2
        subst hd2
        split at h
        · exact absurd h (by simp)
        · rename_i v σ1 he
          obtain ⟨S1, B1, fr1⟩ := hev c σ v σ1 he S B hwf
          have hsz01 : σ.size ≤ σ1.size := fr1.2.2.1
          have hnS1t : ¬ S1 t := (not_in_grown fr1.1 htσ hSt hBt).1
          have hnB1t : ¬ B1 t := (not_in_grown fr1.1 htσ hSt hBt).2
          have ht1 : getCell σ1 t = some (.pair tc nilA) :=
            fr1.2.2.2 t _ htc hBt (by simp [HObj.tag])
          have hch1 : Chain σ1 d l2 nilA :=
            Chain_pres_out hrest fr1.2.2.2
              (fun p hp => (hout p (List.mem_cons_of_mem _ hp)).2)
              (Chain.stop nilA .nil fr1.2.1.2.2.1 (by simp [HObj.tag]))
          have hch2 : Chain (⟨(σ1.size, .pair v nilA) :: σ1.heap, σ1.size + 1,
              σ1.syms⟩ : LState) d l2 nilA :=
            Chain_mono σ1 _ d l2 nilA (fun x hx hgx => by
              rw [getCell_cons_ne (show x ≠ σ1.size from by
                have := getCell_lt hgx
                omega)]
              exact getCell_grow hgx) hch1
          have fr2 : Frames σ1 S1 B1
              (⟨(σ1.size, .pair v nilA) :: σ1.heap, σ1.size + 1, σ1.syms⟩ :
                LState) S1 B1 :=
            Frames_alloc fr1.2.1 (show (HObj.pair v nilA).tag ≠ .envT from by
              simp [HObj.tag])
          have hn2 : getCell (⟨(σ1.size, .pair v nilA) :: σ1.heap, σ1.size + 1,
              σ1.syms⟩ : LState) σ1.size = some (.pair v nilA) :=
            getCell_cons_self (by omega)
          split at h
          · rename_i tc2 hx2 hdt
            have hgt : getCell (⟨(σ1.size, .pair v nilA) :: σ1.heap,
                σ1.size + 1, σ1.syms⟩ : LState) t = some (.pair tc nilA) := by
              rw [getCell_cons_ne (by omega)]
              exact getCell_grow ht1
            have h4 := deref_ok hdt
            have h5 := hgt.symm.trans h4
            simp only [Option.some.injEq, HObj.pair.injEq] at h5
            obtain ⟨h4a, h4b⟩ := h5
            subst h4a
            subst h4b
            split at h
            · exact absurd h (by simp)
            · rename_i σ3 hwv
              obtain ⟨hwf3, hsz3, ht3, hpres3, hfull3⟩ :=
                EnvWF_write_out fr2.2.1 hnS1t hnB1t hgt hwv
              have hsz3n : σ3.size = σ1.size + 1 := hsz3
              have hnt : σ1.size ≠ t := by omega
              have hn3 : getCell σ3 σ1.size = some (.pair v nilA) :=
                hpres3 _ _ hnt hn2
              have ht3n : getCell σ3 t = some (.pair tc σ1.size) := ht3
              have hch3 : Chain σ3 d l2 nilA :=
                Chain_pres_out hch2
                  (fun a h2 hga hnT htag =>
                    hpres3 a h2 (show a ≠ t from fun hq => hnT hq) hga)
                  (fun p hp => show ¬ p.1 = t from fun hq => by
                    have := hlt p (List.mem_cons_of_mem _ hp)
                    omega)
                  (Chain.stop nilA .nil hwf3.2.2.1 (by simp [HObj.tag]))
              obtain ⟨outLv2, hC1, hC2, hC3, hC4, hC5⟩ :=
                ih ev σ3 d σ1.size v σf S1 B1 l2 Bd hev h hwf3 hch3
                  (fun p hp => by
                    have hp2 := hout p (List.mem_cons_of_mem _ hp)
                    have hp3 := hlt p (List.mem_cons_of_mem _ hp)
                    exact not_in_grown fr1.1 (by omega) hp2.1 hp2.2)
                  (fun p hp => hlt p (List.mem_cons_of_mem _ hp))
                  (by omega)
                  (fun hq => absurd (fr1.2.1.1 _ (Or.inl hq)) (by omega))
                  (fun hq => absurd (fr1.2.1.1 _ (Or.inr hq)) (by omega))
                  (by omega) (by omega) hn3
              refine ⟨(σ1.size, v) :: outLv2, ?_, ?_, ?_, ?_, ?_⟩
              · exact Chain.step t tc σ1.size _ nilA
                  (hC4 t _ ht3n hnB1t (by simp [HObj.tag]) (by omega)) hC1
              · simp only [List.length_cons, hC2]
              · intro q hq
                rcases List.mem_cons.mp hq with he2 | hm
                · rw [he2]
                  exact hsz01
                · have := hC3 q hm
                  omega
              · intro a h2 hga hnBa htag hat
                have halt : a < σ.size := getCell_lt hga
                have h1a := fr1.2.2.2 a h2 hga hnBa htag
                have h2a : getCell (⟨(σ1.size, .pair v nilA) :: σ1.heap,
                    σ1.size + 1, σ1.syms⟩ : LState) a = some h2 := by
                  rw [getCell_cons_ne (by omega)]
                  exact getCell_grow h1a
                have h3a := hpres3 a h2 hat h2a
                exact hC4 a h2 h3a (not_in_grown_B fr1.1 halt hnBa) htag
                  (by omega)
              · refine SeqEvalFrom.cons σ c v σ1 σ3 _ _ he (by omega) ?_ hC5
                intro a haBd
                have h1 : getCell σ3 a = getCell
                    (alloc σ1 (.pair v nilA)).2 a := hfull3 a (by omega)
                rw [h1, getCell_alloc_lt (show a < σ1.size from by omega)]
          · exact absurd h (by simp)
    · rename_i w hnc heq
      simp only [Except.ok.injEq] at h
      cases hch with
      | stop a2 h2 hg2 ht2 =>
        rw [← h]
        refine ⟨[], Chain.step t tc nilA [] nilA htc
          (Chain.stop nilA .nil hwf.2.2.1 (by simp [HObj.tag])), rfl,
          fun q hq => absurd hq (by simp), fun a h2 hga _ _ _ => hga,
          SeqEvalFrom.nil σ⟩
      | step a2 c2 d2 l2 t2 hg2 hrest =>
        have hd2 : deref σ o = .ok (.pair c2 d2) := by
          unfold deref
          rw [hg2]
        rw [heq] at hd2
        simp only [Except.ok.injEq] at hd2
        exact absurd hd2 (fun hq => hnc c2 d2 hq)

/-- C9: On a proper (nil-terminated) list, when evaluateList — with the
program's own evaluate (run on an eval call) as element evaluator — returns
without error, it evaluates each element left-to-right (each in the store
the previous element produced, the loop's own allocations and splices
staying at or above the input store's bound), and returns a freshly
allocated list of the same length whose i-th element is the result of
evaluating the i-th input element; the input list's Pair cells are left
unchanged, and the result shares no spine cells with the input. -/
theorem evaluateList_spec {fuel : Nat} {σ σ' : LState} {envA l out : Nat}
    {lv : List (Nat × Nat)} {S B : Nat → Prop}
    (hwf : EnvWF σ S B) (hch : Chain σ l lv nilA)
    (hcells : ∀ p ∈ lv, ¬ S p.1 ∧ ¬ B p.1)
    (h : evalListGen fuel (fun x τ => run fuel (.eval envA x) τ) σ l =
      .ok (out, σ')) :
    ∃ outLv : List (Nat × Nat),
      Chain σ' out outLv nilA ∧
      outLv.length = lv.length ∧
      (∀ q ∈ outLv, σ.size ≤ q.1) ∧
      (∀ p ∈ lv, p.1 < σ.size ∧ getCell σ' p.1 = getCell σ p.1) ∧
      (∀ p ∈ lv, ∀ q ∈ outLv, p.1 ≠ q.1) ∧
      SeqEvalFrom (fun x τ => run fuel (.eval envA x) τ) σ.size σ
        (List.map Prod.snd lv) (List.map Prod.snd outLv) := by
  have hev : FrameEv (fun x τ => run fuel (.eval envA x) τ) :=
    fun e τ w τ' hr S2 B2 hwf2 =>
      run_frame fuel (.eval envA e) τ w τ' S2 B2 hr hwf2
  match fuel, h with
  | 0, h => simp [evalListGen] at h
  | fuel + 1, h =>
    simp only [evalListGen] at h
    split at h
    · exact absurd h (by simp)
    · rename_i c d hd0
      cases hch with
      | stop a2 h2 hg2 ht2 =>
        have h3 := deref_ok hd0
        rw [hg2] at h3
        simp only [Option.some.injEq] at h3
        subst h3
        exact absurd rfl ht2
      | step a2 c2 d2 l2 t2 hg2 hrest =>
        have h3 := deref_ok hd0
        rw [h3] at hg2
        simp only [Option.some.injEq, HObj.pair.injEq] at hg2
        obtain ⟨hc2, hd2⟩ := hg2
        subst hc2
        subst hd2
        split at h
        · exact absurd h (by simp)
        · rename_i v σ1 he
          obtain ⟨S1, B1, fr1⟩ := hev c σ v σ1 he S B hwf
          have hsz01 : σ.size ≤ σ1.size := fr1.2.2.1
          have hch1 : Chain σ1 d l2 nilA :=
            Chain_pres_out hrest fr1.2.2.2
              (fun p hp => (hcells p (List.mem_cons_of_mem _ hp)).2)
              (Chain.stop nilA .nil fr1.2.1.2.2.1 (by simp [HObj.tag]))
          have hch2 : Chain (⟨(σ1.size, .pair v nilA) :: σ1.heap, σ1.size + 1,
              σ1.syms⟩ : LState) d l2 nilA :=
            Chain_mono σ1 _ d l2 nilA (fun x hx hgx => by
              rw [getCell_cons_ne (show x ≠ σ1.size from by
                have := getCell_lt hgx
                omega)]
              exact getCell_grow hgx) hch1
          have fr2 : Frames σ1 S1 B1
              (⟨(σ1.size, .pair v nilA) :: σ1.heap, σ1.size + 1, σ1.syms⟩ :
                LState) S1 B1 :=
            Frames_alloc fr1.2.1 (show (HObj.pair v nilA).tag ≠ .envT from by
              simp [HObj.tag])
          have hn2 : getCell (⟨(σ1.size, .pair v nilA) :: σ1.heap, σ1.size + 1,
              σ1.syms⟩ : LState) σ1.size = some (.pair v nilA) :=
            getCell_cons_self (by omega)
          have hplt : ∀ p, p ∈ ((l, c) :: l2 : List (Nat × Nat)) →
              p.1 < σ.size := by
            intro p hp
            rcases List.mem_cons.mp hp with he2 | hm
            · rw [he2]
              exact getCell_lt h3
            · obtain ⟨dd, hpg⟩ := Chain_cells hrest p hm
              exact getCell_lt hpg
          split at h
          · exact absurd h (by simp)
          · rename_i σ3 hgo
            simp only [Except.ok.injEq, Prod.mk.injEq] at h
            have hout2 : σ1.size = out := h.1
            have hσ3 : σ3 = σ' := h.2
            subst hσ3
            subst hout2
            obtain ⟨outLv2, hC1, hC2, hC3, hC4, hC5⟩ :=
              evalListGo_chain fuel (fun x τ => run (fuel + 1) (.eval envA x) τ)
                (⟨(σ1.size, .pair v nilA) :: σ1.heap, σ1.size + 1, σ1.syms⟩ :
                  LState)
                d σ1.size v σ3 S1 B1 l2 σ.size hev hgo fr2.2.1 hch2
                (fun p hp => by
                  have hp2 := hcells p (List.mem_cons_of_mem _ hp)
                  have hp3 := hplt p (List.mem_cons_of_mem _ hp)
                  exact not_in_grown fr1.1 (by omega) hp2.1 hp2.2)
                (fun p hp => hplt p (List.mem_cons_of_mem _ hp))
                (show σ.size ≤ σ1.size + 1 from by omega)
                (fun hq => absurd (fr1.2.1.1 _ (Or.inl hq)) (by omega))
                (fun hq => absurd (fr1.2.1.1 _ (Or.inr hq)) (by omega))
                (show σ1.size < σ1.size + 1 from by omega)
                (show σ.size ≤ σ1.size from by omega) hn2
            have hL2sz : (⟨(σ1.size, HObj.pair v nilA) :: σ1.heap, σ1.size + 1,
                σ1.syms⟩ : LState).size = σ1.size + 1 := rfl
            have hqfresh : ∀ q, q ∈ ((σ1.size, v) :: outLv2 :
                List (Nat × Nat)) → σ.size ≤ q.1 := by
              intro q hq
              rcases List.mem_cons.mp hq with he2 | hm
              · rw [he2]
                exact hsz01
              · have := hC3 q hm
                omega
            have hipres : ∀ p, p ∈ ((l, c) :: l2 : List (Nat × Nat)) →
                ∃ dd, getCell σ p.1 = some (.pair p.2 dd) ∧
                  getCell σ3 p.1 = some (.pair p.2 dd) := by
              intro p hp
              have hp2 := hcells p hp
              have hp3 := hplt p hp
              obtain ⟨dd, hpg⟩ : ∃ dd, getCell σ p.1 = some (.pair p.2 dd) := by
                rcases List.mem_cons.mp hp with he2 | hm
                · rw [he2]
                  exact ⟨d, h3⟩
                · exact Chain_cells hrest p hm
              refine ⟨dd, hpg, ?_⟩
              have h1p := fr1.2.2.2 p.1 _ hpg hp2.2 (by simp [HObj.tag])
              have h2p : getCell (⟨(σ1.size, .pair v nilA) :: σ1.heap,
                  σ1.size + 1, σ1.syms⟩ : LState) p.1 =
                  some (.pair p.2 dd) := by
                rw [getCell_cons_ne (by omega)]
                exact getCell_grow h1p
              exact hC4 p.1 _ h2p (not_in_grown_B fr1.1 hp3 hp2.2)
                (by simp [HObj.tag]) (by omega)
            refine ⟨(σ1.size, v) :: outLv2, hC1, by simp only [List.length_cons,
              hC2], hqfresh, ?_, ?_, ?_⟩
            · intro p hp
              obtain ⟨dd, hpg, hpg3⟩ := hipres p hp
              exact ⟨hplt p hp, by rw [hpg, hpg3]⟩
            · intro p hp q hq
              have h1 := hplt p hp
              have h2 := hqfresh q hq
              omega
            · refine SeqEvalFrom.cons σ c v σ1 _ _ _ he
                (show σ1.size ≤ (⟨(σ1.size, HObj.pair v nilA) :: σ1.heap,
                  σ1.size + 1, σ1.syms⟩ : LState).size from by
                  rw [hL2sz]
                  omega) ?_ hC5
              intro a haBd
              exact show getCell (alloc σ1 (.pair v nilA)).2 a = getCell σ1 a
                from getCell_alloc_lt (by omega)
    · rename_i w hnc heq
      simp only [Except.ok.injEq, Prod.mk.injEq] at h
      obtain ⟨h1, h2⟩ := h
      subst h1
      subst h2
      cases hch with
      | stop a2 h2 hg2 ht2 =>
        refine ⟨[], Chain.stop nilA .nil hwf.2.2.1 (by simp [HObj.tag]), rfl,
          fun q hq => absurd hq (by simp), fun p hp => absurd hp (by simp),
          fun p hp q hq => absurd hp (by simp), SeqEvalFrom.nil σ⟩
      | step a2 c2 d2 l2 t2 hg2 hrest =>
        have hd2 : deref σ l = .ok (.pair c2 d2) := by
          unfold deref
          rw [hg2]
        rw [heq] at hd2
        simp only [Except.ok.injEq] at hd2
        exact absurd hd2 (fun hq => hnc c2 d2 hq)

/-- A concrete store for exercising evaluateList with the real evaluator:
the boot cells, a global Environment record at 4 with no bindings, the
numbers 7 (at 5) and 8 (at 6), and the proper two-element list (7 8) with
spine cells 8 → 7 → nil. -/
def stEL9 : LState :=
  ⟨[(8, .pair 5 7), (7, .pair 6 1), (6, .num 8), (5, .num 7), (4, .envObj 1 0),
    (3, .pair 2 0), (2, .sym "t"), (1, .nil), (0, .nil)], 9, 3⟩

/-- The store evaluateList produces from stEL9: the fresh result spine
(9 → 10 → nil, journal newest-first) on top of the untouched input cells. -/
def stEL9out : LState :=
  ⟨[(9, .pair 5 10), (10, .pair 6 1), (9, .pair 5 1), (8, .pair 5 7),
    (7, .pair 6 1), (6, .num 8), (5, .num 7), (4, .envObj 1 0), (3, .pair 2 0),
    (2, .sym "t"), (1, .nil), (0, .nil)], 11, 3⟩

/-- stEL9 is well-formed with empty bookkeeping sets. -/
theorem stEL9_wf : EnvWF stEL9 (fun _ => False) (fun _ => False) := by
  refine ⟨fun x hx => by rcases hx with hx | hx <;> exact hx.elim,
    fun x hx => hx.elim, rfl, ?_⟩
  intro e vars up hg
  have hlt : e < 9 := getCell_lt hg
  interval_cases e
  · simp [stEL9, getCell, hLookup] at hg
  · simp [stEL9, getCell, hLookup] at hg
  · simp [stEL9, getCell, hLookup] at hg
  · simp [stEL9, getCell, hLookup] at hg
  · simp [stEL9, getCell, hLookup] at hg
    obtain ⟨h1, h2⟩ := hg
    subst h1
    exact WFChain.stop 1 .nil rfl (by simp [HObj.tag])
  · simp [stEL9, getCell, hLookup] at hg
  · simp [stEL9, getCell, hLookup] at hg
  · simp [stEL9, getCell, hLookup] at hg
  · simp [stEL9, getCell, hLookup] at hg

/-- The input list of stEL9 is a proper chain. -/
theorem stEL9_chain : Chain stEL9 8 [(8, 5), (7, 6)] nilA :=
  Chain.step 8 5 7 [(7, 6)] nilA rfl
    (Chain.step 7 6 1 [] nilA rfl
      (Chain.stop nilA .nil rfl (by simp [HObj.tag])))

/-- Witness for C9 on stEL9: evaluating the list (7 8) with evaluate in the
empty global environment succeeds and satisfies every conclusion. -/
theorem evaluateList_spec_witness :
    ∃ outLv : List (Nat × Nat),
      Chain stEL9out 9 outLv nilA ∧
      outLv.length = ([(8, 5), (7, 6)] : List (Nat × Nat)).length ∧
      (∀ q ∈ outLv, stEL9.size ≤ q.1) ∧
      (∀ p ∈ ([(8, 5), (7, 6)] : List (Nat × Nat)),
        p.1 < stEL9.size ∧ getCell stEL9out p.1 = getCell stEL9 p.1) ∧
      (∀ p ∈ ([(8, 5), (7, 6)] : List (Nat × Nat)), ∀ q ∈ outLv, p.1 ≠ q.1) ∧
      SeqEvalFrom (fun x τ => run 10 (.eval 4 x) τ) stEL9.size stEL9
        (List.map Prod.snd [(8, 5), (7, 6)]) (List.map Prod.snd outLv) :=
  evaluateList_spec stEL9_wf stEL9_chain
    (fun _ _ => ⟨fun q => q, fun q => q⟩) rfl
